import Mathlib

/-!
Verification of the `toolbox` library (Python): data structures
(`toolbox/data_structures.py`) and graph algorithms
(`toolbox/algorithms/graphs.py`), shallowly embedded in Lean 4.

Modelling conventions:
* Python `dict` is an association list `List (κ × ν)` with unique keys,
  preserving insertion order (Python 3.7+ dicts are insertion ordered;
  updating an existing key keeps its position).
* Python `int` node identifiers are `Nat`; `float` weights are `Rat`
  (all inputs of interest are exact); `float("inf")` is `⊤ : WithTop Rat`.
* A Python function that can raise is embedded with `Except PyErr` or an
  explicit error constructor.
* Unbounded `while` loops are embedded with explicit fuel; whenever a claim
  depends on a loop we prove the result is independent of the fuel.
-/

namespace Toolbox

/-- Errors a Python method of this library can raise. -/
inductive PyErr where
  | keyError : PyErr
  | valueError : String → PyErr
  deriving DecidableEq, Repr

/-! ### Association-list model of Python `dict` -/

/-- `d[k]` as an option: first binding of `k` in the association list. -/
def dictLookup {κ ν : Type} [DecidableEq κ] : List (κ × ν) → κ → Option ν
  | [], _ => none
  | (k, v) :: rest, key => if k = key then some v else dictLookup rest key

/-- `d[k] = v`: replace in place if the key exists, else append
(Python dicts keep the original position of an updated key). -/
def dictInsert {κ ν : Type} [DecidableEq κ] : List (κ × ν) → κ → ν → List (κ × ν)
  | [], key, val => [(key, val)]
  | (k, v) :: rest, key, val =>
      if k = key then (k, val) :: rest else (k, v) :: dictInsert rest key val

/-- `d.pop(k)` with no default: the dict without `k`, or `none` (KeyError)
when `k` is absent. -/
def dictPop {κ ν : Type} [DecidableEq κ] : List (κ × ν) → κ → Option (List (κ × ν))
  | [], _ => none
  | (k, v) :: rest, key =>
      if k = key then some rest
      else (dictPop rest key).map (fun r => (k, v) :: r)

/-- Key membership in the dict. -/
def dictMem {κ ν : Type} [DecidableEq κ] (d : List (κ × ν)) (key : κ) : Bool :=
  (dictLookup d key).isSome

/-! ### `PriorityQueue` (`data_structures.py`, lines 68-125)

The Python class stores `self._data`, a heap of `(self.key(item), item)`
pairs.  We model the heap as the list of its pairs.  The `key` projection
is a field of the structure, as in the source. -/

structure PriorityQueue (κ α : Type) where
  key : α → κ
  data : List (κ × α)

namespace PriorityQueue

/-- `push` stores `(self.key(item), item)` in the heap. -/
def push {κ α : Type} (q : PriorityQueue κ α) (item : α) : PriorityQueue κ α :=
  { q with data := q.data ++ [(q.key item, item)] }

/-- `is_empty` is `not self._data`: `True` exactly when the heap list is
empty. -/
def is_empty {κ α : Type} (q : PriorityQueue κ α) : Bool :=
  q.data.isEmpty

/-- In Python any bound-method object is truthy. -/
def methodTruthy : Bool := true

/-- `__bool__` is `not self.is_empty` with the call parentheses missing:
`self.is_empty` is a bound method (truthy), so the result is the negation
of a truthy object — always `False`. -/
def toBool {κ α : Type} (_ : PriorityQueue κ α) : Bool :=
  !methodTruthy

end PriorityQueue

/-- A `while guard: body` loop, embedded with fuel. -/
def runWhile {σ : Type} (guard : σ → Bool) (step : σ → σ) : ℕ → σ → σ
  | 0, s => s
  | fuel + 1, s => if guard s then runWhile guard step fuel (step s) else s

/-- A loop whose guard is the truthiness of a `PriorityQueue` never runs its
body: `__bool__` is constantly `False`. -/
theorem runWhile_toBool_eq {σ κ α : Type} (pq : σ → PriorityQueue κ α)
    (step : σ → σ) (fuel : ℕ) (s : σ) :
    runWhile (fun st => PriorityQueue.toBool (pq st)) step fuel s = s := by
  cases fuel <;>
    simp [runWhile, PriorityQueue.toBool, PriorityQueue.methodTruthy]

/-- C10: for every `PriorityQueue` `q`, truth-testing `bool(q)` yields
`False` even when `q` is non-empty — `__bool__` negates the (truthy) bound
method `self.is_empty` instead of its call — so it disagrees with
`is_empty()`, and a loop guarded by the queue's truthiness terminates
immediately whatever its body does. -/
theorem priorityQueue_truthiness_bug {κ α : Type} (q : PriorityQueue κ α)
    (h : q.is_empty = false) :
    PriorityQueue.toBool q = false ∧
    PriorityQueue.toBool q ≠ !q.is_empty ∧
    ∀ (step : PriorityQueue κ α → PriorityQueue κ α) (fuel : ℕ),
      runWhile PriorityQueue.toBool step fuel q = q := by
  refine ⟨rfl, by simp [PriorityQueue.toBool, PriorityQueue.methodTruthy, h], ?_⟩
  intro step fuel
  exact runWhile_toBool_eq (fun p => p) step fuel q

/-- A concrete non-empty priority queue (one element `1` with key `1`). -/
def exQueue : PriorityQueue ℕ ℕ :=
  { key := fun x => x, data := [(1, 1)] }

/-- Witness for C10 at the concrete non-empty queue `exQueue`. -/
theorem priorityQueue_truthiness_bug_witness :
    PriorityQueue.toBool exQueue = false ∧
    PriorityQueue.toBool exQueue ≠ !exQueue.is_empty ∧
    ∀ (step : PriorityQueue ℕ ℕ → PriorityQueue ℕ ℕ) (fuel : ℕ),
      runWhile PriorityQueue.toBool step fuel exQueue = exQueue :=
  priorityQueue_truthiness_bug exQueue rfl

/-! ### Lemmas about the dict model -/

theorem dictLookup_dictInsert_self {κ ν : Type} [DecidableEq κ]
    (d : List (κ × ν)) (k : κ) (v : ν) :
    dictLookup (dictInsert d k v) k = some v := by
  induction d with
  | nil => simp [dictInsert, dictLookup]
  | cons hd tl ih =>
      by_cases h : hd.1 = k <;>
        simp [dictInsert, dictLookup, h, ih]

theorem dictLookup_dictInsert_ne {κ ν : Type} [DecidableEq κ]
    (d : List (κ × ν)) (k k2 : κ) (v : ν) (hne : k ≠ k2) :
    dictLookup (dictInsert d k v) k2 = dictLookup d k2 := by
  induction d with
  | nil => simp [dictInsert, dictLookup, hne]
  | cons hd tl ih =>
      by_cases h : hd.1 = k
      · rw [dictInsert, if_pos h]
        rw [dictLookup, dictLookup]
        have : ¬ hd.1 = k2 := fun hc => hne (h ▸ hc)
        rw [if_neg this, if_neg this]
      · rw [dictInsert, if_neg h]
        rw [dictLookup, dictLookup]
        by_cases h2 : hd.1 = k2
        · rw [if_pos h2, if_pos h2]
        · rw [if_neg h2, if_neg h2, ih]

theorem dictPop_eq_none {κ ν : Type} [DecidableEq κ]
    (d : List (κ × ν)) (k : κ) (h : dictMem d k = false) :
    dictPop d k = none := by
  induction d with
  | nil => simp [dictPop]
  | cons hd tl ih =>
      by_cases hk : hd.1 = k
      · simp [dictMem, dictLookup, hk] at h
      · simp only [dictMem, dictLookup, if_neg hk] at h
        rw [dictPop, if_neg hk, ih (by simp [dictMem, h])]
        rfl

theorem dictPop_isSome {κ ν : Type} [DecidableEq κ]
    (d : List (κ × ν)) (k : κ) (h : dictMem d k = true) :
    ∃ r, dictPop d k = some r := by
  induction d with
  | nil => simp [dictMem, dictLookup] at h
  | cons hd tl ih =>
      by_cases hk : hd.1 = k
      · exact ⟨tl, by simp [dictPop, hk]⟩
      · simp [dictMem, dictLookup, hk] at h
        obtain ⟨r, hr⟩ := ih h
        exact ⟨hd :: r, by simp [dictPop, hk, hr]⟩

theorem dictLookup_eq_none_of_not_mem_keys {κ ν : Type} [DecidableEq κ]
    (d : List (κ × ν)) (k : κ) (h : k ∉ d.map Prod.fst) :
    dictLookup d k = none := by
  induction d with
  | nil => rfl
  | cons hd tl ih =>
      simp only [List.map_cons, List.mem_cons] at h
      push_neg at h
      rw [dictLookup, if_neg (fun hc => h.1 hc.symm)]
      exact ih h.2

/-- Popping a key from a dict with unique keys removes it entirely. -/
theorem dictLookup_dictPop_self {κ ν : Type} [DecidableEq κ]
    (d : List (κ × ν)) (k : κ) (r : List (κ × ν))
    (hnd : (d.map Prod.fst).Nodup) (h : dictPop d k = some r) :
    dictLookup r k = none := by
  induction d generalizing r with
  | nil => simp [dictPop] at h
  | cons hd tl ih =>
      simp only [List.map_cons, List.nodup_cons] at hnd
      by_cases hk : hd.1 = k
      · rw [dictPop, if_pos hk] at h
        cases h
        subst hk
        exact dictLookup_eq_none_of_not_mem_keys tl hd.1 hnd.1
      · rw [dictPop, if_neg hk] at h
        cases hp : dictPop tl k with
        | none => rw [hp] at h; cases h
        | some r2 =>
            rw [hp, Option.map_some'] at h
            cases h
            rw [dictLookup, if_neg hk]
            exact ih r2 hnd.2 hp

theorem dictLookup_dictPop_ne {κ ν : Type} [DecidableEq κ]
    (d : List (κ × ν)) (k k2 : κ) (r : List (κ × ν))
    (hne : k ≠ k2) (h : dictPop d k = some r) :
    dictLookup r k2 = dictLookup d k2 := by
  induction d generalizing r with
  | nil => simp [dictPop] at h
  | cons hd tl ih =>
      by_cases hk : hd.1 = k
      · rw [dictPop, if_pos hk] at h
        cases h
        have hne2 : ¬ hd.1 = k2 := fun hc => hne (hk ▸ hc)
        rw [dictLookup, if_neg hne2]
      · rw [dictPop, if_neg hk] at h
        cases hp : dictPop tl k with
        | none => rw [hp] at h; cases h
        | some r2 =>
            rw [hp, Option.map_some'] at h
            cases h
            by_cases h2 : hd.1 = k2
            · rw [dictLookup, dictLookup, if_pos h2, if_pos h2]
            · rw [dictLookup, dictLookup, if_neg h2, if_neg h2, ih r2 hp]

/-- The keys of `dictPop d k` form a sublist of the keys of `d`. -/
theorem dictPop_keys_sublist {κ ν : Type} [DecidableEq κ]
    (d : List (κ × ν)) (k : κ) (r : List (κ × ν)) (h : dictPop d k = some r) :
    (r.map Prod.fst).Sublist (d.map Prod.fst) := by
  induction d generalizing r with
  | nil => simp [dictPop] at h
  | cons hd tl ih =>
      by_cases hk : hd.1 = k
      · rw [dictPop, if_pos hk] at h
        cases h
        simp [List.sublist_cons_self]
      · rw [dictPop, if_neg hk] at h
        cases hp : dictPop tl k with
        | none => rw [hp] at h; cases h
        | some r2 =>
            rw [hp, Option.map_some'] at h
            cases h
            simpa using (ih r2 hp).cons₂ hd.1

/-! ### `Graph` (`data_structures.py`, lines 412-497)

Adjacency list `adj_list : dict[Any, list[Any]]` and edge weights
`weights : dict[tuple[Any, Any], float]`.  Node identifiers are `ℕ`,
weights are `ℚ`. -/

structure Graph where
  adj_list : List (ℕ × List ℕ)
  weights : List ((ℕ × ℕ) × ℚ)
  deriving DecidableEq, Repr

namespace Graph

def empty : Graph := ⟨[], []⟩

/-- Append `v` to `u`'s neighbor list, creating `u`'s entry if absent
(the `if u not in self.adj_list` guard plus `append`). -/
def adjAppend (adj : List (ℕ × List ℕ)) (u v : ℕ) : List (ℕ × List ℕ) :=
  match dictLookup adj u with
  | none => adj ++ [(u, [v])]
  | some ns => dictInsert adj u (ns ++ [v])

/-- `add_edge(u, v, w=1.0, bidirectional=True)`. -/
def add_edge (g : Graph) (u v : ℕ) (w : ℚ) (bidirectional : Bool) : Graph :=
  let adj1 := adjAppend g.adj_list u v
  let w1 := dictInsert g.weights (u, v) w
  if bidirectional then
    { adj_list := adjAppend adj1 v u, weights := dictInsert w1 (v, u) w }
  else
    { adj_list := adj1, weights := w1 }

/-- `remove_edge(u, v, bidirectional=True)`.  The Python body mutates the
adjacency list and then calls `self.weights.pop((u, v))` with no default,
which raises `KeyError` when the entry is absent; the raised case is the
`Except.error` branch (the partially mutated graph is unobservable to a
caller that treats the exception as failure). -/
def remove_edge (g : Graph) (u v : ℕ) (bidirectional : Bool) :
    Except PyErr Graph :=
  if dictMem g.adj_list u = false ∨ dictMem g.adj_list v = false then
    .ok g
  else
    let adj1 := dictInsert g.adj_list u
      (((dictLookup g.adj_list u).getD []).filter (fun k => k != v))
    match dictPop g.weights (u, v) with
    | none => .error .keyError
    | some w1 =>
        if bidirectional then
          let adj2 := dictInsert adj1 v
            (((dictLookup adj1 v).getD []).filter (fun k => k != u))
          match dictPop w1 (v, u) with
          | none => .error .keyError
          | some w2 => .ok { adj_list := adj2, weights := w2 }
        else
          .ok { adj_list := adj1, weights := w1 }

/-- `remove_node(u)`: `self.adj_list.pop(u)` raises `KeyError` when `u` is
absent; otherwise `u` is filtered out of every neighbor list and every
weight key mentioning `u` in either position is dropped. -/
def remove_node (g : Graph) (u : ℕ) : Except PyErr Graph :=
  match dictPop g.adj_list u with
  | none => .error .keyError
  | some adj1 =>
      .ok { adj_list := adj1.map (fun kv => (kv.1, kv.2.filter (fun x => x != u))),
            weights := g.weights.filter (fun kv => kv.1.1 != u && kv.1.2 != u) }

/-- `nodes()`: the set union of all adjacency keys and all neighbor values,
modelled as the duplicate-free list of all such identifiers (the Python
`set` iteration order is unspecified; only membership matters). -/
def nodes (g : Graph) : List ℕ :=
  (g.adj_list.flatMap (fun kv => kv.1 :: kv.2)).dedup

end Graph

theorem mem_nodes_iff (g : Graph) (x : ℕ) :
    x ∈ g.nodes ↔ ∃ kv ∈ g.adj_list, x = kv.1 ∨ x ∈ kv.2 := by
  simp only [Graph.nodes, List.mem_dedup, List.mem_flatMap, List.mem_cons]

theorem dictMem_iff_mem_keys {κ ν : Type} [DecidableEq κ]
    (d : List (κ × ν)) (k : κ) :
    dictMem d k = true ↔ k ∈ d.map Prod.fst := by
  induction d with
  | nil => simp [dictMem, dictLookup]
  | cons hd tl ih =>
      by_cases h : hd.1 = k
      · simp [dictMem, dictLookup, h]
      · rw [dictMem, dictLookup, if_neg h]
        simp only [List.map_cons, List.mem_cons]
        rw [← ih, dictMem]
        constructor
        · exact fun hs => Or.inr hs
        · rintro (hc | hs)
          · exact absurd hc.symm h
          · exact hs

/-- C8: for `u` present as an adjacency key, `remove_node(u)` succeeds and
afterwards `u` is not produced by `nodes()`, appears in no neighbor list,
and no weight key mentions `u` in either position; for `u` absent,
`remove_node(u)` raises `KeyError`. -/
theorem remove_node_spec (g : Graph) (u : ℕ)
    (hnd : (g.adj_list.map Prod.fst).Nodup) :
    (dictMem g.adj_list u = true →
      ∃ g2, g.remove_node u = .ok g2 ∧
        u ∉ g2.nodes ∧
        (∀ kv ∈ g2.adj_list, u ∉ kv.2) ∧
        (∀ kv ∈ g2.weights, kv.1.1 ≠ u ∧ kv.1.2 ≠ u)) ∧
    (dictMem g.adj_list u = false → g.remove_node u = .error .keyError) := by
  constructor
  · intro hmem
    obtain ⟨r, hr⟩ := dictPop_isSome g.adj_list u hmem
    refine ⟨_, by rw [Graph.remove_node, hr], ?_, ?_, ?_⟩
    · rw [mem_nodes_iff]
      rintro ⟨kv, hkv, hu⟩
      simp only [List.mem_map] at hkv
      obtain ⟨kv0, hkv0, hkveq⟩ := hkv
      subst hkveq
      rcases hu with hu | hu
      · have hkeys : u ∈ r.map Prod.fst :=
          List.mem_map.mpr ⟨kv0, hkv0, hu.symm⟩
        have : dictMem r u = true := (dictMem_iff_mem_keys r u).mpr hkeys
        rw [dictMem, dictLookup_dictPop_self g.adj_list u r hnd hr] at this
        simp at this
      · simp only [List.mem_filter] at hu
        simp at hu
    · rintro kv hkv
      simp only [List.mem_map] at hkv
      obtain ⟨kv0, _, hkveq⟩ := hkv
      subst hkveq
      intro hu
      simp only [List.mem_filter] at hu
      simp at hu
    · intro kv hkv
      have := (List.mem_filter.mp hkv).2
      simp only [Bool.and_eq_true, bne_iff_ne, ne_eq] at this
      exact this
  · intro hmem
    rw [Graph.remove_node, dictPop_eq_none g.adj_list u hmem]

/-- The graph of the repository's `test_graph_remove_node`: edges
`(1,2)` and `(2,3)` bidirectional, `(1,3)` directed. -/
def gEx : Graph :=
  ((Graph.empty.add_edge 1 2 1 true).add_edge 2 3 1 true).add_edge 1 3 1 false

/-- Witness for C8 at `gEx` with `u = 1` (present) and `u = 5` (absent). -/
theorem remove_node_spec_witness :
    (∃ g2, gEx.remove_node 1 = .ok g2 ∧
      1 ∉ g2.nodes ∧
      (∀ kv ∈ g2.adj_list, 1 ∉ kv.2) ∧
      (∀ kv ∈ g2.weights, kv.1.1 ≠ 1 ∧ kv.1.2 ≠ 1)) ∧
    gEx.remove_node 5 = .error .keyError :=
  ⟨(remove_node_spec gEx 1 (by decide)).1 (by decide),
   (remove_node_spec gEx 5 (by decide)).2 (by decide)⟩

/-- Two disjoint bidirectional edges `(1,2)` and `(3,4)`: all four nodes are
adjacency keys, but no `(1,3)` weight entry exists. -/
def gTwoEdges : Graph :=
  (Graph.empty.add_edge 1 2 1 true).add_edge 3 4 1 true

/-- C4 counterexample: `remove_edge(1, 3)` on `gTwoEdges` raises `KeyError`
although both `1` and `3` are adjacency-list keys, refuting the claim that
`remove_edge` never raises. -/
theorem remove_edge_raises_cex :
    Graph.remove_edge gTwoEdges 1 3 true = .error .keyError := by rfl

/-- C4 amended: `remove_edge(u, v)` is a no-op (and does not raise) when `u`
or `v` is absent as an adjacency key; when both are present it removes every
occurrence of `v` from `u`'s neighbor list and deletes the `(u,v)` weight
entry (and the symmetric entries when bidirectional), but raises `KeyError`
when a weight entry it must delete is absent — in particular when the
`(u,v)` entry is missing, or, bidirectionally, when `u = v` or the `(v,u)`
entry is missing. -/
theorem remove_edge_amended (g : Graph) (u v : ℕ) (bidi : Bool)
    (hw : (g.weights.map Prod.fst).Nodup) :
    ((dictMem g.adj_list u = false ∨ dictMem g.adj_list v = false) →
        g.remove_edge u v bidi = .ok g) ∧
    (dictMem g.adj_list u = true → dictMem g.adj_list v = true →
      dictMem g.weights (u, v) = true →
      (bidi = true → u ≠ v ∧ dictMem g.weights (v, u) = true) →
      ∃ g2, g.remove_edge u v bidi = .ok g2 ∧
        v ∉ (dictLookup g2.adj_list u).getD [] ∧
        dictMem g2.weights (u, v) = false ∧
        (bidi = true → u ∉ (dictLookup g2.adj_list v).getD [] ∧
          dictMem g2.weights (v, u) = false)) ∧
    (dictMem g.adj_list u = true → dictMem g.adj_list v = true →
      (dictMem g.weights (u, v) = false ∨
        (bidi = true ∧ (u = v ∨ dictMem g.weights (v, u) = false))) →
      g.remove_edge u v bidi = .error .keyError) := by
  refine ⟨?_, ?_, ?_⟩
  · intro hcond
    rw [Graph.remove_edge, if_pos hcond]
  · intro hu hv huv hbid
    have hcond : ¬ (dictMem g.adj_list u = false ∨ dictMem g.adj_list v = false) := by
      simp [hu, hv]
    obtain ⟨w1, hw1⟩ := dictPop_isSome g.weights (u, v) huv
    cases bidi with
    | false =>
        refine ⟨⟨dictInsert g.adj_list u
            (((dictLookup g.adj_list u).getD []).filter (fun k => k != v)), w1⟩,
          ?_, ?_, ?_, fun h => by cases h⟩
        · simp only [Graph.remove_edge, if_neg hcond, hw1]
          simp
        · rw [dictLookup_dictInsert_self]
          simp only [Option.getD_some, List.mem_filter]
          simp
        · rw [dictMem, dictLookup_dictPop_self g.weights (u, v) w1 hw hw1]
          rfl
    | true =>
        obtain ⟨hne, hvu⟩ := hbid rfl
        have hpair : ((u, v) : ℕ × ℕ) ≠ (v, u) := by
          intro hc
          exact hne (congrArg Prod.fst hc)
        have hvu1 : dictMem w1 (v, u) = true := by
          rw [dictMem, dictLookup_dictPop_ne g.weights (u, v) (v, u) w1 hpair hw1]
          exact hvu
        obtain ⟨w2, hw2⟩ := dictPop_isSome w1 (v, u) hvu1
        have hw1nd : (w1.map Prod.fst).Nodup :=
          hw.sublist (dictPop_keys_sublist g.weights (u, v) w1 hw1)
        refine ⟨⟨dictInsert
            (dictInsert g.adj_list u
              (((dictLookup g.adj_list u).getD []).filter (fun k => k != v))) v
            (((dictLookup (dictInsert g.adj_list u
              (((dictLookup g.adj_list u).getD []).filter (fun k => k != v))) v).getD
                []).filter (fun k => k != u)), w2⟩,
          ?_, ?_, ?_, fun _ => ⟨?_, ?_⟩⟩
        · simp only [Graph.remove_edge, if_neg hcond, hw1, hw2]
          simp
        · rw [dictLookup_dictInsert_ne _ v u _ (fun hc => hne hc.symm),
            dictLookup_dictInsert_self]
          simp only [Option.getD_some, List.mem_filter]
          simp
        · rw [dictMem, dictLookup_dictPop_ne w1 (v, u) (u, v) w2
            (fun hc => hne (congrArg Prod.snd hc)) hw2,
            dictLookup_dictPop_self g.weights (u, v) w1 hw hw1]
          rfl
        · rw [dictLookup_dictInsert_self]
          simp only [Option.getD_some, List.mem_filter]
          simp
        · rw [dictMem, dictLookup_dictPop_self w1 (v, u) w2 hw1nd hw2]
          rfl
  · intro hu hv hbad
    have hcond : ¬ (dictMem g.adj_list u = false ∨ dictMem g.adj_list v = false) := by
      simp [hu, hv]
    rcases hbad with hbad | ⟨hbidi, hbad⟩
    · rw [Graph.remove_edge, if_neg hcond, dictPop_eq_none g.weights (u, v) hbad]
    · subst hbidi
      cases huv : dictMem g.weights (u, v) with
      | false =>
          rw [Graph.remove_edge, if_neg hcond, dictPop_eq_none g.weights (u, v) huv]
      | true =>
          obtain ⟨w1, hw1⟩ := dictPop_isSome g.weights (u, v) huv
          have hnone : dictPop w1 (v, u) = none := by
            rcases hbad with hbad | hbad
            · subst hbad
              apply dictPop_eq_none
              rw [dictMem, dictLookup_dictPop_self g.weights (u, u) w1 hw hw1]
              rfl
            · apply dictPop_eq_none
              by_cases hne : ((u, v) : ℕ × ℕ) = (v, u)
              · rw [dictMem, ← hne, dictLookup_dictPop_self g.weights (u, v) w1 hw hw1]
                rfl
              · rw [dictMem, dictLookup_dictPop_ne g.weights (u, v) (v, u) w1 hne hw1]
                exact hbad
          rw [Graph.remove_edge, if_neg hcond]
          simp only [hw1, hnone]
          simp

/-- Witness for C4 amended: the no-op case at an absent key, and the
successful removal of edge `(1,2)` on `gTwoEdges`. -/
theorem remove_edge_amended_witness :
    (Graph.remove_edge gTwoEdges 7 1 true = .ok gTwoEdges) ∧
    ∃ g2, Graph.remove_edge gTwoEdges 1 2 true = .ok g2 ∧
      2 ∉ (dictLookup g2.adj_list 1).getD [] ∧
      dictMem g2.weights (1, 2) = false ∧
      (true = true → 1 ∉ (dictLookup g2.adj_list 2).getD [] ∧
        dictMem g2.weights (2, 1) = false) :=
  ⟨(remove_edge_amended gTwoEdges 7 1 true (by decide)).1 (by decide),
   (remove_edge_amended gTwoEdges 1 2 true (by decide)).2.1 (by decide)
     (by decide) (by decide) (fun _ => by decide)⟩

/-! ### `dijkstra` (`graphs.py`, lines 66-96)

`distances` is a `defaultdict(lambda: float("inf"))`; an absent key reads
as `∞`, rendered by `distValue` below as `⊤ : WithTop ℚ`.  The main loop is
`while priority_queue:`, whose guard is `PriorityQueue.__bool__` — the
constantly-`False` `toBool` above — so the body never executes whatever
fuel it is given. -/

/-- `graph.adj_list.get(node, [])`. -/
def adjGet (g : Graph) (u : ℕ) : List ℕ :=
  (dictLookup g.adj_list u).getD []

/-- Reading the distances `defaultdict`: absent keys are `float("inf")`. -/
def distValue (d : List (ℕ × ℚ)) (n : ℕ) : WithTop ℚ :=
  match dictLookup d n with
  | some q => (q : WithTop ℚ)
  | none => ⊤

/-- Remove a minimal element (first of the equal-minimal ones) from a list;
`heapq.heappop` observably returns a minimal tuple. -/
def popMinWith {α : Type} (lt : α → α → Bool) : List α → Option (α × List α)
  | [] => none
  | x :: xs =>
      match popMinWith lt xs with
      | none => some (x, [])
      | some (m, _) => if lt m x then
            match popMinWith lt xs with
            | none => some (x, xs)
            | some (m2, rest2) => some (m2, x :: rest2)
          else some (x, xs)

/-- Python tuple comparison on `(key, (distance, node))` heap entries. -/
def heapLt (a b : ℚ × (ℚ × ℕ)) : Bool :=
  a.1 < b.1 || (a.1 == b.1 && (a.2.1 < b.2.1 || (a.2.1 == b.2.1 && a.2.2 < b.2.2)))

structure DijkstraState where
  distances : List (ℕ × ℚ)
  pq : PriorityQueue ℚ (ℚ × ℕ)
  visited : List ℕ

/-- One iteration of the Dijkstra `while` body.  The `graph.weights[...]`
access presumes the `Graph` invariant that every listed neighbor has a
weight entry (`getD 0` is never exercised on well-formed graphs, and the
body itself is unreachable: the loop guard is constantly `False`). -/
def dijkstraStep (g : Graph) (s : DijkstraState) : DijkstraState :=
  match popMinWith heapLt s.pq.data with
  | none => s
  | some ((_, (current_distance, current_node)), rest) =>
      let s1 : DijkstraState := { s with pq := { s.pq with data := rest } }
      if current_node ∈ s1.visited then s1
      else
        let s2 : DijkstraState := { s1 with visited := s1.visited ++ [current_node] }
        (adjGet g current_node).foldl (fun st v =>
          let w := (dictLookup g.weights (current_node, v)).getD 0
          let distance := current_distance + w
          if (distance : WithTop ℚ) < distValue st.distances v then
            { st with distances := dictInsert st.distances v distance,
                      pq := st.pq.push (distance, v) }
          else st) s2

/-- `dijkstra(graph, start)`.  The Python loop is unbounded; the embedding
takes explicit fuel and the theorem below holds for every fuel value. -/
def dijkstra (g : Graph) (start : ℕ) (fuel : ℕ) : List (ℕ × ℚ) :=
  let s0 : DijkstraState :=
    { distances := [(start, 0)],
      pq := { key := fun x => x.1, data := [((0 : ℚ), ((0 : ℚ), start))] },
      visited := [] }
  (runWhile (fun st => PriorityQueue.toBool st.pq) (dijkstraStep g) fuel s0).distances

/-- The spec's Dijkstra example graph: bidirectional edges
`(1,2,1)`, `(2,3,1)`, `(1,3,5)`. -/
def gDijkstra : Graph :=
  ((Graph.empty.add_edge 1 2 1 true).add_edge 2 3 1 true).add_edge 1 3 5 true

/-- C1: the `while priority_queue:` guard calls the broken `__bool__`, so
the loop never runs and `dijkstra` returns only `{start: 0.0}`.  On the
spec's example graph the distance of node `3` reads as infinity, not the
claimed `2`. -/
theorem dijkstra_loop_dead (fuel : ℕ) :
    dijkstra gDijkstra 1 fuel = [(1, 0)] ∧
    distValue (dijkstra gDijkstra 1 fuel) 3 = ⊤ ∧
    distValue (dijkstra gDijkstra 1 fuel) 3 ≠ ((2 : ℚ) : WithTop ℚ) ∧
    distValue (dijkstra gDijkstra 1 fuel) 1 = ((0 : ℚ) : WithTop ℚ) := by
  have hrun : dijkstra gDijkstra 1 fuel = [(1, 0)] := by
    unfold dijkstra
    simp only [runWhile_toBool_eq (fun st : DijkstraState => st.pq)]
  refine ⟨hrun, ?_, ?_, ?_⟩ <;> rw [hrun]
  · rfl
  · rw [show distValue [(1, 0)] 3 = ⊤ from rfl]
    exact fun hc => (WithTop.coe_ne_top (a := (2 : ℚ))) hc.symm
  · rfl

/-! ### `a_start_search` (`graphs.py`, lines 99-147)

Same dead loop: the A* body never executes, and the function falls through
to `return None` for every input. -/

structure AStarState where
  open_set : List ℕ
  came_from : List (ℕ × ℕ)
  g_score : List (ℕ × WithTop ℚ)
  f_score : List (ℕ × WithTop ℚ)
  pq : PriorityQueue (WithTop ℚ) (WithTop ℚ × ℕ)
  result : Option (List ℕ)

/-- Reading the `g_score`/`f_score` defaultdicts (absent key is `∞`). -/
def scoreValue (d : List (ℕ × WithTop ℚ)) (n : ℕ) : WithTop ℚ :=
  (dictLookup d n).getD ⊤

/-- `reconstruct_path(came_from, current)` (`graphs.py`, lines 150-166),
with fuel for the unbounded `while current in came_from` walk; the caller
reverses the result, as `total_path[::-1]` does. -/
def reconstruct_path (came_from : List (ℕ × ℕ)) : ℕ → ℕ → List ℕ
  | 0, current => [current]
  | fuel + 1, current =>
      match dictLookup came_from current with
      | none => [current]
      | some prev => current :: reconstruct_path came_from fuel prev

/-- Python tuple comparison on A* heap entries. -/
def heapLtA (a b : WithTop ℚ × (WithTop ℚ × ℕ)) : Bool :=
  a.1 < b.1 || (a.1 == b.1 && (a.2.1 < b.2.1 || (a.2.1 == b.2.1 && a.2.2 < b.2.2)))

/-- One iteration of the A* `while` body (unreachable: the guard is the
constantly-`False` `__bool__`). -/
def aStarStep (g : Graph) (goal : ℕ) (heuristic : ℕ → ℕ → ℚ)
    (s : AStarState) : AStarState :=
  if s.result.isSome then s
  else
    match popMinWith heapLtA s.pq.data with
    | none => s
    | some ((_, (_, current_node)), rest) =>
        let s1 : AStarState := { s with pq := { s.pq with data := rest } }
        if current_node = goal then
          let path := reconstruct_path s1.came_from (s1.came_from.length + 1) current_node
          { s1 with result := some path.reverse }
        else
          let s2 : AStarState :=
            { s1 with open_set := s1.open_set.filter (fun x => x != current_node) }
          (adjGet g current_node).foldl (fun st v =>
            let w := (dictLookup g.weights (current_node, v)).getD 0
            let tentative := scoreValue st.g_score current_node + (w : WithTop ℚ)
            if tentative < scoreValue st.g_score v then
              let fv := tentative + (heuristic v goal : WithTop ℚ)
              let st2 : AStarState :=
                { st with came_from := dictInsert st.came_from v current_node,
                          g_score := dictInsert st.g_score v tentative,
                          f_score := dictInsert st.f_score v fv }
              if v ∈ st2.open_set then st2
              else { st2 with open_set := st2.open_set ++ [v],
                              pq := st2.pq.push (fv, v) }
            else st) s2

/-- `a_start_search(graph, start, goal, heuristic)`. -/
def a_start_search (g : Graph) (start goal : ℕ) (heuristic : ℕ → ℕ → ℚ)
    (fuel : ℕ) : Option (List ℕ) :=
  let s0 : AStarState :=
    { open_set := [start],
      came_from := [],
      g_score := [(start, ((0 : ℚ) : WithTop ℚ))],
      f_score := [(start, ((heuristic start goal : ℚ) : WithTop ℚ))],
      pq := { key := fun x => x.1,
              data := [(((heuristic start goal : ℚ) : WithTop ℚ),
                (((heuristic start goal : ℚ) : WithTop ℚ), start))] },
      result := none }
  (runWhile (fun st => PriorityQueue.toBool st.pq)
    (aStarStep g goal heuristic) fuel s0).result

/-- Single bidirectional edge `(1,2)`. -/
def gSingleEdge : Graph := Graph.empty.add_edge 1 2 1 true

/-- C2: the A* loop guard is the broken `__bool__`, so the body never runs
and `a_start_search` returns `None` for every graph, start, goal, heuristic
and fuel — in particular on `gSingleEdge` with `start = goal = 1`, where
the path `[1]` exists and the claim requires it to be returned. -/
theorem a_start_search_always_none :
    (∀ (g : Graph) (start goal : ℕ) (heuristic : ℕ → ℕ → ℚ) (fuel : ℕ),
      a_start_search g start goal heuristic fuel = none) ∧
    a_start_search gSingleEdge 1 1 (fun _ _ => 0) 5 = none := by
  have h : ∀ (g : Graph) (start goal : ℕ) (heuristic : ℕ → ℕ → ℚ) (fuel : ℕ),
      a_start_search g start goal heuristic fuel = none := by
    intro g start goal heuristic fuel
    unfold a_start_search
    simp only [runWhile_toBool_eq (fun st : AStarState => st.pq)]
  exact ⟨h, h _ _ _ _ _⟩

/-! ### `FenwickTree` (`data_structures.py`, lines 275-325)

`index & -index` on a positive Python int is the lowest set bit,
`2 ^ (2-adic valuation of index)`.  We compute it as `gcd(2 ^ k, k)`,
which agrees because the 2-adic valuation of `k` is below `k`. -/

def lowbit (k : ℕ) : ℕ := if k = 0 then 0 else Nat.gcd (2 ^ k) k

/-- Every positive natural is an odd number times a power of two. -/
theorem exists_odd_form (n : ℕ) (h : 0 < n) :
    ∃ c e, n = (2 * c + 1) * 2 ^ e := by
  induction n using Nat.strong_induction_on with
  | _ n ih =>
      rcases Nat.even_or_odd n with he | ho
      · obtain ⟨m, hm⟩ := he
        have hmpos : 0 < m := by omega
        obtain ⟨c, e, hce⟩ := ih m (by omega) hmpos
        exact ⟨c, e + 1, by rw [show n = 2 * m by omega, hce]; ring⟩
      · obtain ⟨c, hc⟩ := ho
        exact ⟨c, 0, by omega⟩

theorem lowbit_odd_mul_pow (c e : ℕ) : lowbit ((2 * c + 1) * 2 ^ e) = 2 ^ e := by
  have hpe : 0 < 2 ^ e := Nat.pos_pow_of_pos e (by omega)
  have hpos : 0 < (2 * c + 1) * 2 ^ e := by positivity
  have he : e < (2 * c + 1) * 2 ^ e :=
    lt_of_lt_of_le (Nat.lt_two_pow e) (Nat.le_mul_of_pos_left _ (by omega))
  rw [lowbit, if_neg (by omega)]
  rw [show (2:ℕ) ^ ((2 * c + 1) * 2 ^ e) =
      2 ^ ((2 * c + 1) * 2 ^ e - e) * 2 ^ e by rw [← pow_add]; congr 1; omega]
  rw [Nat.gcd_mul_right]
  have hcop : Nat.Coprime (2 ^ ((2 * c + 1) * 2 ^ e - e)) (2 * c + 1) :=
    Nat.Coprime.pow_left _
      ((Nat.Prime.coprime_iff_not_dvd Nat.prime_two).mpr (by omega))
  rw [Nat.Coprime] at hcop
  rw [hcop, one_mul]

theorem lowbit_form (n : ℕ) (h : 0 < n) :
    ∃ c e, n = (2 * c + 1) * 2 ^ e ∧ lowbit n = 2 ^ e := by
  obtain ⟨c, e, hce⟩ := exists_odd_form n h
  exact ⟨c, e, hce, by rw [hce, lowbit_odd_mul_pow]⟩

theorem lowbit_pos (n : ℕ) (h : 0 < n) : 0 < lowbit n := by
  obtain ⟨c, e, _, hl⟩ := lowbit_form n h
  rw [hl]
  positivity

theorem lowbit_le (n : ℕ) (h : 0 < n) : lowbit n ≤ n := by
  obtain ⟨c, e, hf, hl⟩ := lowbit_form n h
  rw [hl, hf]
  exact Nat.le_mul_of_pos_left _ (by omega)

/-- Adding a multiple of `2 ^ s` above `y < 2 ^ s` keeps the lowest set
bit. -/
theorem lowbit_add_mul_pow (x s y : ℕ) (hy : 0 < y) (hlt : y < 2 ^ s) :
    lowbit (x * 2 ^ s + y) = lowbit y := by
  obtain ⟨c, t, hform, hlb⟩ := lowbit_form y hy
  have ht : t < s := by
    by_contra hgt
    push_neg at hgt
    have h1 : 2 ^ s ≤ 2 ^ t := Nat.pow_le_pow_right (by omega) hgt
    have h2 : 2 ^ t ≤ y := by
      rw [hform]
      exact Nat.le_mul_of_pos_left _ (by omega)
    omega
  have key : x * 2 ^ s + y = (2 * (x * 2 ^ (s - t - 1) + c) + 1) * 2 ^ t := by
    rw [hform]
    rw [show (2:ℕ) ^ s = 2 ^ (s - t - 1) * 2 * 2 ^ t by
      rw [mul_assoc, ← pow_succ']
      rw [← pow_add]
      congr 1
      omega]
    ring
  rw [key, lowbit_odd_mul_pow, hlb]

/-- Clearing the lowest set bit of `index + lowbit index` lands at or below
`index - lowbit index`. -/
theorem clear_add_lowbit_le (m : ℕ) (h : 0 < m) :
    m + lowbit m - lowbit (m + lowbit m) ≤ m - lowbit m := by
  obtain ⟨a, b, hform, hlb⟩ := lowbit_form m h
  obtain ⟨c, d, hcd⟩ := exists_odd_form (a + 1) (by omega)
  have h2 : m + lowbit m = (2 * c + 1) * 2 ^ (b + 1 + d) := by
    rw [hlb, hform]
    rw [show (2:ℕ) ^ (b + 1 + d) = 2 ^ (b + 1) * 2 ^ d from by rw [← pow_add]]
    rw [show (2 * a + 1) * 2 ^ b + 2 ^ b = (a + 1) * 2 ^ (b + 1) from by ring]
    rw [hcd]
    ring
  have h3 : lowbit (m + lowbit m) = 2 ^ (b + 1 + d) := by
    rw [h2, lowbit_odd_mul_pow]
  rw [h3, h2, hform, lowbit_odd_mul_pow]
  have e1 : (2 * c + 1) * 2 ^ (b + 1 + d) =
      2 * c * 2 ^ (b + 1 + d) + 2 ^ (b + 1 + d) := by ring
  have e2 : (2 * a + 1) * 2 ^ b = 2 * a * 2 ^ b + 2 ^ b := by ring
  rw [e1, Nat.add_sub_cancel, e2, Nat.add_sub_cancel]
  have hp : (2:ℕ) ^ (b + 1 + d) = 2 ^ b * 2 * 2 ^ d := by
    rw [show b + 1 + d = (b + 1) + d from rfl, pow_add, pow_succ]
  rw [hp]
  have hpb : (0:ℕ) < 2 ^ b := Nat.pos_pow_of_pos b (by omega)
  have hpd : (0:ℕ) < 2 ^ d := Nat.pos_pow_of_pos d (by omega)
  nlinarith [hcd, hpb, hpd]

/-- If `j - lowbit j < m ≤ j` then `j - lowbit j ≤ m - lowbit m`. -/
theorem clear_le_of_between (j m : ℕ) (h1 : j - lowbit j < m) (h2 : m ≤ j) :
    j - lowbit j ≤ m - lowbit m := by
  rcases eq_or_lt_of_le h2 with heq | hlt
  · subst heq
    exact le_refl _
  · have hj : 0 < j := by omega
    obtain ⟨a, s, hform, hlb⟩ := lowbit_form j hj
    have hexp : (2 * a + 1) * 2 ^ s = a * 2 ^ (s + 1) + 2 ^ s := by ring
    have hjlb : j - lowbit j = a * 2 ^ (s + 1) := by
      rw [hlb, hform, hexp, Nat.add_sub_cancel]
    have hrpos : 0 < m - (j - lowbit j) := by omega
    have hrlt : m - (j - lowbit j) < 2 ^ s := by
      have hjval : j = a * 2 ^ (s + 1) + 2 ^ s := by rw [hform, hexp]
      omega
    have hm : m = a * 2 ^ (s + 1) + (m - (j - lowbit j)) := by omega
    have hps : (2:ℕ) ^ (s + 1) = 2 ^ s * 2 := pow_succ 2 s
    have hrlt2 : m - (j - lowbit j) < 2 ^ (s + 1) := by omega
    have hcalc : lowbit m = lowbit (m - (j - lowbit j)) := by
      conv_lhs => rw [hm]
      exact lowbit_add_mul_pow a (s + 1) _ hrpos hrlt2
    have hlbr := lowbit_le _ hrpos
    omega

/-- Strictly between `m` and `m + lowbit m`, clearing the lowest set bit
stays at or above `m`. -/
theorem clear_ge_of_strict_between (j m : ℕ) (hm : 0 < m)
    (h1 : m < j) (h2 : j < m + lowbit m) :
    m ≤ j - lowbit j := by
  obtain ⟨a, b, hform, hlb⟩ := lowbit_form m hm
  have hr1 : 0 < j - m := by omega
  have hr2 : j - m < 2 ^ b := by rw [hlb] at h2; omega
  have hexp : m = a * 2 ^ (b + 1) + 2 ^ b := by
    rw [hform]
    ring
  have hj : j = a * 2 ^ (b + 1) + (2 ^ b + (j - m)) := by omega
  have hpb : (0:ℕ) < 2 ^ b := Nat.pos_pow_of_pos b (by omega)
  have hy1 : 0 < 2 ^ b + (j - m) := by omega
  have hy2 : 2 ^ b + (j - m) < 2 ^ (b + 1) := by
    have : (2:ℕ) ^ (b + 1) = 2 ^ b * 2 := pow_succ 2 b
    omega
  have hstep1 : lowbit j = lowbit (2 ^ b + (j - m)) := by
    conv_lhs => rw [hj]
    exact lowbit_add_mul_pow a (b + 1) _ hy1 hy2
  have hstep2 : lowbit (1 * 2 ^ b + (j - m)) = lowbit (j - m) :=
    lowbit_add_mul_pow 1 b _ hr1 hr2
  rw [one_mul] at hstep2
  have hlbr := lowbit_le _ hr1
  omega

/-- The `while index <= self.size` loop of `FenwickTree.update`
(`tree[index] += value; index += index & -index`).  `index` strictly
increases, so `size + 1` fuel always suffices; the backing list is a
function since every write stays within `1..size`. -/
def updateLoop (size : ℕ) (value : ℤ) : ℕ → ℕ → (ℕ → ℤ) → (ℕ → ℤ)
  | 0, _, tree => tree
  | fuel + 1, index, tree =>
      if index ≤ size then
        updateLoop size value fuel (index + lowbit index)
          (fun j => if j = index then tree j + value else tree j)
      else tree

/-- The `while index > 0` loop of `FenwickTree.query`
(`result += tree[index]; index -= index & -index`).  `index` strictly
decreases, so `index` fuel always suffices. -/
def queryLoop (tree : ℕ → ℤ) : ℕ → ℕ → ℤ → ℤ
  | 0, _, result => result
  | fuel + 1, index, result =>
      if 0 < index then
        queryLoop tree fuel (index - lowbit index) (result + tree index)
      else result

/-- Effect of the update loop: exactly the cells `j` with
`index ≤ j ≤ size` and `j - lowbit j < index` receive `value`. -/
theorem updateLoop_apply (size : ℕ) (value : ℤ) :
    ∀ (fuel index : ℕ), 0 < index → size + 1 ≤ index + fuel →
      ∀ (tree : ℕ → ℤ) (j : ℕ),
        updateLoop size value fuel index tree j =
          tree j + (if index ≤ j ∧ j ≤ size ∧ j - lowbit j < index
            then value else 0) := by
  intro fuel
  induction fuel with
  | zero =>
      intro index hpos hfuel tree j
      rw [updateLoop]
      have hno : ¬(index ≤ j ∧ j ≤ size ∧ j - lowbit j < index) := by
        rintro ⟨hij, hjs, -⟩
        omega
      rw [if_neg hno, add_zero]
  | succ fuel ih =>
      intro index hpos hfuel tree j
      rw [updateLoop]
      by_cases hle : index ≤ size
      · rw [if_pos hle]
        have hlbpos := lowbit_pos index hpos
        rw [ih (index + lowbit index) (by omega) (by omega)]
        by_cases hj : j = index
        · subst hj
          have hnew : ¬(j + lowbit j ≤ j ∧ j ≤ size ∧
              j - lowbit j < j + lowbit j) := by
            rintro ⟨hc, -, -⟩
            omega
          rw [if_neg hnew, if_pos rfl, if_pos ⟨le_refl j, hle, by omega⟩]
          ring
        · rw [if_neg hj]
          congr 1
          by_cases hcnew : index + lowbit index ≤ j ∧ j ≤ size ∧
              j - lowbit j < index + lowbit index
          · obtain ⟨ha, hb, hc⟩ := hcnew
            rw [if_pos ⟨ha, hb, hc⟩]
            have h1 : j - lowbit j ≤
                index + lowbit index - lowbit (index + lowbit index) :=
              clear_le_of_between j (index + lowbit index) hc ha
            have h2 := clear_add_lowbit_le index hpos
            rw [if_pos ⟨by omega, hb, by omega⟩]
          · rw [if_neg hcnew]
            rw [if_neg ?hold]
            case hold =>
              rintro ⟨ha, hb, hc⟩
              apply hcnew
              have hij : index < j := lt_of_le_of_ne ha (Ne.symm hj)
              refine ⟨?_, hb, by omega⟩
              by_contra hlt
              push_neg at hlt
              have := clear_ge_of_strict_between j index hpos hij hlt
              omega
      · rw [if_neg hle]
        have hno : ¬(index ≤ j ∧ j ≤ size ∧ j - lowbit j < index) := by
          rintro ⟨hij, hjs, -⟩
          omega
        rw [if_neg hno, add_zero]

/-- The query loop sums the tree cells on the descending chain from `p`;
under the interval invariant this telescopes to the prefix sum of the
abstract array `A` over `(0, p]`. -/
theorem queryLoop_eq (size : ℕ) (t : ℕ → ℤ) (A : ℕ → ℤ)
    (hinv : ∀ j, 0 < j → j ≤ size →
      t j = (Finset.Ioc (j - lowbit j) j).sum A) :
    ∀ (fuel p : ℕ), p ≤ fuel → p ≤ size → ∀ res,
      queryLoop t fuel p res = res + (Finset.Ioc 0 p).sum A := by
  intro fuel
  induction fuel with
  | zero =>
      intro p hpf hps res
      have hp0 : p = 0 := by omega
      subst hp0
      rw [queryLoop]
      simp
  | succ fuel ih =>
      intro p hpf hps res
      rw [queryLoop]
      by_cases hp : 0 < p
      · rw [if_pos hp]
        have h1 := lowbit_pos p hp
        have h2 := lowbit_le p hp
        rw [ih (p - lowbit p) (by omega) (by omega)]
        rw [hinv p hp hps]
        have hsplit := Finset.sum_Ioc_consecutive A
          (show (0:ℕ) ≤ p - lowbit p by omega)
          (show p - lowbit p ≤ p by omega)
        linarith [hsplit]
      · rw [if_neg hp]
        have hp0 : p = 0 := by omega
        subst hp0
        simp

structure FenwickTree where
  size : ℕ
  tree : ℕ → ℤ

namespace FenwickTree

/-- `FenwickTree(size)`: `self.tree = [0] * (size + 1)`. -/
def init (size : ℕ) : FenwickTree := ⟨size, fun _ => 0⟩

/-- `update(index, value)` (0-based `index`, converted to 1-based). -/
def update (ft : FenwickTree) (index : ℕ) (value : ℤ) : FenwickTree :=
  { ft with tree := updateLoop ft.size value (ft.size + 1) (index + 1) ft.tree }

/-- `query(index)` (0-based): prefix sum through `index`. -/
def query (ft : FenwickTree) (index : ℕ) : ℤ :=
  queryLoop ft.tree (index + 1) (index + 1) 0

end FenwickTree

/-- Apply a sequence of `update(index, value)` calls in order. -/
def applyUpdates (ft : FenwickTree) (us : List (ℕ × ℤ)) : FenwickTree :=
  us.foldl (fun f u => f.update u.1 u.2) ft

/-- The abstract 1-based array an update sequence induces: cell `m` holds
the sum of all values added at 0-based index `m - 1`. -/
def Aof (us : List (ℕ × ℤ)) (m : ℕ) : ℤ :=
  ((us.filter (fun u => u.1 + 1 = m)).map Prod.snd).sum

theorem applyUpdates_append_one (ft : FenwickTree) (us : List (ℕ × ℤ))
    (u : ℕ × ℤ) :
    applyUpdates ft (us ++ [u]) = (applyUpdates ft us).update u.1 u.2 := by
  rw [applyUpdates, applyUpdates, List.foldl_append, List.foldl_cons,
    List.foldl_nil]

theorem applyUpdates_size (N : ℕ) (us : List (ℕ × ℤ)) :
    (applyUpdates (FenwickTree.init N) us).size = N := by
  induction us using List.reverseRecOn with
  | nil => rfl
  | append_singleton us u ih =>
      rw [applyUpdates_append_one, FenwickTree.update]
      exact ih

theorem applyUpdates_tree (N : ℕ) (us : List (ℕ × ℤ)) :
    ∀ j, 0 < j → j ≤ N →
      (applyUpdates (FenwickTree.init N) us).tree j =
        (Finset.Ioc (j - lowbit j) j).sum (Aof us) := by
  induction us using List.reverseRecOn with
  | nil =>
      intro j hj hjN
      simp [applyUpdates, FenwickTree.init, Aof]
  | append_singleton us u ih =>
      intro j hj hjN
      have hsz := applyUpdates_size N us
      rw [applyUpdates_append_one, FenwickTree.update]
      simp only [hsz]
      rw [updateLoop_apply N u.2 (N + 1) (u.1 + 1) (by omega) (by omega)]
      rw [ih j hj hjN]
      have hA : ∀ m, Aof (us ++ [u]) m =
          Aof us m + (if u.1 + 1 = m then u.2 else 0) := by
        intro m
        rw [Aof, Aof, List.filter_append, List.map_append, List.sum_append]
        congr 1
        by_cases h : u.1 + 1 = m <;> simp [List.filter, h]
      rw [Finset.sum_congr rfl (fun m _ => hA m), Finset.sum_add_distrib,
        Finset.sum_ite_eq]
      congr 1
      by_cases hcond : u.1 + 1 ≤ j ∧ j - lowbit j < u.1 + 1
      · rw [if_pos ⟨hcond.1, hjN, hcond.2⟩,
          if_pos (Finset.mem_Ioc.mpr ⟨hcond.2, hcond.1⟩)]
      · rw [if_neg (fun hc => hcond ⟨hc.1, hc.2.2⟩),
          if_neg (fun hc => hcond
            ⟨(Finset.mem_Ioc.mp hc).2, (Finset.mem_Ioc.mp hc).1⟩)]

/-- Summing the induced array over `(0, i+1]` counts exactly the updates at
0-based indices `≤ i`. -/
theorem sum_Aof (us : List (ℕ × ℤ)) (i : ℕ) :
    (Finset.Ioc 0 (i + 1)).sum (Aof us) =
      ((us.filter (fun u => u.1 ≤ i)).map Prod.snd).sum := by
  induction us with
  | nil => simp [Aof]
  | cons u us ih =>
      have hA : ∀ m, Aof (u :: us) m =
          (if u.1 + 1 = m then u.2 else 0) + Aof us m := by
        intro m
        rw [Aof, Aof, List.filter_cons]
        by_cases h : u.1 + 1 = m <;> simp [h]
      rw [Finset.sum_congr rfl (fun m _ => hA m), Finset.sum_add_distrib, ih,
        Finset.sum_ite_eq, List.filter_cons]
      by_cases h : u.1 ≤ i
      · have hmem : (u.1 + 1) ∈ Finset.Ioc 0 (i + 1) := by
          rw [Finset.mem_Ioc]
          omega
        simp [h, hmem]
      · have hmem : (u.1 + 1) ∉ Finset.Ioc 0 (i + 1) := by
          rw [Finset.mem_Ioc]
          omega
        simp [h, hmem]

/-- C9: for a `FenwickTree` of any size `N`, after any sequence of
`update(index, value)` calls with `0 ≤ index < N`, `query(i)` with
`0 ≤ i < N` returns the sum of all values added at indices `≤ i`. -/
theorem fenwick_query_prefix_sum (N : ℕ) (us : List (ℕ × ℤ)) (i : ℕ)
    (hus : ∀ u ∈ us, u.1 < N) (hi : i < N) :
    (applyUpdates (FenwickTree.init N) us).query i =
      ((us.filter (fun u => u.1 ≤ i)).map Prod.snd).sum := by
  rw [FenwickTree.query]
  have hsz := applyUpdates_size N us
  rw [queryLoop_eq N _ (Aof us) (applyUpdates_tree N us) (i + 1) (i + 1)
    (le_refl _) (by omega) 0]
  rw [sum_Aof]
  ring

/-- Witness for C9: the repository's own Fenwick test — data
`[1,2,3,4,5]` then `update(2, 5)`; `query(3)` equals `15`. -/
theorem fenwick_query_prefix_sum_witness :
    (applyUpdates (FenwickTree.init 5)
        [(0, 1), (1, 2), (2, 3), (3, 4), (4, 5), (2, 5)]).query 3 =
      (([((0:ℕ), (1:ℤ)), (1, 2), (2, 3), (3, 4), (4, 5), (2, 5)].filter
        (fun u => u.1 ≤ 3)).map Prod.snd).sum ∧
    (applyUpdates (FenwickTree.init 5)
        [(0, 1), (1, 2), (2, 3), (3, 4), (4, 5), (2, 5)]).query 3 = 15 :=
  ⟨fenwick_query_prefix_sum 5 _ 3 (by decide) (by decide), by decide⟩

/-! ### `SegmentTree` (`data_structures.py`, lines 199-272)

Backing array `tree` of length `2 * size` modelled as a function (every
read and write of the Python code stays within `0 .. 2*size - 1`). -/

structure SegmentTree (T : Type) where
  n : ℕ
  func : T → T → T
  default : T
  size : ℕ
  tree : ℕ → T

/-- The `while self.size < self.n: self.size <<= 1` loop; the size doubles
each iteration, so `n` fuel is always sufficient (`2 ^ n ≥ n`). -/
def sizeLoop (n : ℕ) : ℕ → ℕ → ℕ
  | 0, size => size
  | fuel + 1, size => if size < n then sizeLoop n fuel (2 * size) else size

/-- `self.size`, starting from `1`. -/
def segSize (n : ℕ) : ℕ := sizeLoop n n 1

/-- The `[default] * (2 * size)` fill followed by the
`for i in range(self.n): tree[size + i] = data[i]` leaf loop of `build`
(`getD` returns the default exactly where the fill is never overwritten). -/
def segLeaves {T : Type} (data : List T) (d : T) (size : ℕ) : ℕ → T :=
  fun j => if size ≤ j then data.getD (j - size) d else d

/-- The `for i in range(self.size - 1, 0, -1)` internal-node loop of
`build`: processes `i, i - 1, ..., 1`. -/
def buildLoop {T : Type} (f : T → T → T) : ℕ → (ℕ → T) → (ℕ → T)
  | 0, t => t
  | i + 1, t =>
      buildLoop f i (fun j =>
        if j = i + 1 then f (t (2 * (i + 1))) (t (2 * (i + 1) + 1)) else t j)

/-- `SegmentTree.__init__` followed by `build(data)`. -/
def SegmentTree.init {T : Type} (data : List T) (f : T → T → T) (d : T) :
    SegmentTree T :=
  { n := data.length, func := f, default := d, size := segSize data.length,
    tree := buildLoop f (segSize data.length - 1)
      (segLeaves data d (segSize data.length)) }

/-- The `while index > 1: index >>= 1; tree[index] = func(...)` loop of
`update`; `index` halves each iteration, so any fuel of at least the start
index suffices. -/
def updAncestors {T : Type} (f : T → T → T) : ℕ → ℕ → (ℕ → T) → (ℕ → T)
  | 0, _, t => t
  | fuel + 1, index, t =>
      if 1 < index then
        updAncestors f fuel (index / 2) (fun j =>
          if j = index / 2 then
            f (t (2 * (index / 2))) (t (2 * (index / 2) + 1))
          else t j)
      else t

/-- `update(index, value)`: overwrite the leaf, then recompute ancestors. -/
def SegmentTree.update {T : Type} (st : SegmentTree T) (index : ℕ)
    (value : T) : SegmentTree T :=
  let t2 := fun j => if j = st.size + index then value else st.tree j
  { st with
    tree := updAncestors st.func (st.size + index) (st.size + index) t2 }

/-- The `while left < right` loop of `query`, with its two independent
boundary `if`s expanded into the four parity cases (single accumulator,
folding a boundary node as `func(result, tree[...])` exactly as the Python
does); `right` strictly decreases, so any fuel above the start value of
`right` suffices. -/
def segQueryLoop {T : Type} (f : T → T → T) (t : ℕ → T) :
    ℕ → ℕ → ℕ → T → T
  | 0, _, _, result => result
  | fuel + 1, left, right, result =>
      if left < right then
        if left % 2 = 1 then
          if right % 2 = 1 then
            segQueryLoop f t fuel ((left + 1) / 2) ((right - 1) / 2)
              (f (f result (t left)) (t (right - 1)))
          else
            segQueryLoop f t fuel ((left + 1) / 2) (right / 2)
              (f result (t left))
        else
          if right % 2 = 1 then
            segQueryLoop f t fuel (left / 2) ((right - 1) / 2)
              (f result (t (right - 1)))
          else
            segQueryLoop f t fuel (left / 2) (right / 2) result
      else result

/-- `query(left, right)` over the half-open range `[left, right)`. -/
def SegmentTree.query {T : Type} (st : SegmentTree T) (left right : ℕ) : T :=
  segQueryLoop st.func st.tree (right + st.size + 1) (left + st.size)
    (right + st.size) st.default

/-- Apply a sequence of `update(index, value)` calls in order. -/
def applySegUpdates {T : Type} (st : SegmentTree T) (us : List (ℕ × T)) :
    SegmentTree T :=
  us.foldl (fun s u => s.update u.1 u.2) st

/-- The current abstract array after a sequence of updates
(`list.set` leaves out-of-range indices unchanged, as the claims only use
in-range ones). -/
def arrayAfter {T : Type} (data : List T) (us : List (ℕ × T)) : List T :=
  us.foldl (fun a u => a.set u.1 u.2) data

/-- Reading the abstract array with the tree's default beyond its end. -/
def leafFun {T : Type} (arr : List T) (d : T) : ℕ → T :=
  fun i => arr.getD i d

/-- The segment-tree shape invariant: internal nodes combine their
children, and the leaf block holds the abstract array. -/
def TreeOK {T : Type} (f : T → T → T) (size : ℕ) (leaf : ℕ → T)
    (t : ℕ → T) : Prop :=
  (∀ j, 1 ≤ j → j < size → t j = f (t (2 * j)) (t (2 * j + 1))) ∧
  (∀ i, t (size + i) = leaf i)

theorem buildLoop_untouched {T : Type} (f : T → T → T) :
    ∀ (i : ℕ) (t : ℕ → T) (j : ℕ), j = 0 ∨ i < j →
      buildLoop f i t j = t j := by
  intro i
  induction i with
  | zero => intro t j h; rfl
  | succ i ih =>
      intro t j h
      rw [buildLoop, ih _ _ (by omega), if_neg (by omega)]

theorem buildLoop_node {T : Type} (f : T → T → T) :
    ∀ (i : ℕ) (t : ℕ → T) (j : ℕ), 1 ≤ j → j ≤ i →
      buildLoop f i t j =
        f (buildLoop f i t (2 * j)) (buildLoop f i t (2 * j + 1)) := by
  intro i
  induction i with
  | zero => intro t j h1 h2; omega
  | succ i ih =>
      intro t j h1 h2
      rcases Nat.lt_or_ge j (i + 1) with hj | hj
      · rw [buildLoop]
        exact ih _ j h1 (by omega)
      · have hj2 : j = i + 1 := by omega
        subst hj2
        rw [buildLoop]
        rw [buildLoop_untouched f i _ (i + 1) (Or.inr (by omega))]
        rw [buildLoop_untouched f i _ (2 * (i + 1)) (Or.inr (by omega))]
        rw [buildLoop_untouched f i _ (2 * (i + 1) + 1) (Or.inr (by omega))]
        rw [if_pos rfl, if_neg (by omega), if_neg (by omega)]

theorem sizeLoop_pos (n : ℕ) :
    ∀ (fuel size : ℕ), 0 < size → 0 < sizeLoop n fuel size := by
  intro fuel
  induction fuel with
  | zero => intro size h; exact h
  | succ fuel ih =>
      intro size h
      rw [sizeLoop]
      by_cases hlt : size < n
      · rw [if_pos hlt]
        exact ih _ (by omega)
      · rw [if_neg hlt]
        exact h

theorem sizeLoop_ge (n : ℕ) :
    ∀ (fuel size : ℕ), n ≤ size * 2 ^ fuel → n ≤ sizeLoop n fuel size := by
  intro fuel
  induction fuel with
  | zero =>
      intro size h
      simpa using h
  | succ fuel ih =>
      intro size h
      rw [sizeLoop]
      by_cases hlt : size < n
      · rw [if_pos hlt]
        apply ih
        have : size * 2 ^ (fuel + 1) = 2 * size * 2 ^ fuel := by ring
        omega
      · rw [if_neg hlt]
        omega

theorem segSize_ge (n : ℕ) : n ≤ segSize n := by
  apply sizeLoop_ge
  have := Nat.lt_two_pow n
  omega

theorem segSize_pos (n : ℕ) : 0 < segSize n :=
  sizeLoop_pos n n 1 (by omega)

/-- `build` establishes the shape invariant for the initial data. -/
theorem init_TreeOK {T : Type} (data : List T) (f : T → T → T) (d : T) :
    TreeOK f (segSize data.length) (leafFun data d)
      (SegmentTree.init data f d).tree := by
  constructor
  · intro j h1 h2
    exact buildLoop_node f (segSize data.length - 1) _ j h1 (by omega)
  · intro i
    have hsz := segSize_pos data.length
    rw [show (SegmentTree.init data f d).tree =
        buildLoop f (segSize data.length - 1)
          (segLeaves data d (segSize data.length)) from rfl]
    rw [buildLoop_untouched f _ _ _ (Or.inr (by omega))]
    rw [segLeaves, leafFun]
    rw [if_pos (by omega), Nat.add_sub_cancel_left]

/-- `j` is a strict ancestor of `p` in the implicit binary heap layout. -/
def IsStrictAncestor (p j : ℕ) : Prop := ∃ k, 1 ≤ k ∧ p / 2 ^ k = j

theorem isStrictAncestor_step (q j : ℕ) (hq : 1 < q) :
    IsStrictAncestor q j ↔ j = q / 2 ∨ IsStrictAncestor (q / 2) j := by
  constructor
  · rintro ⟨k, hk1, hk2⟩
    rcases Nat.lt_or_ge k 2 with hk | hk
    · have : k = 1 := by omega
      subst this
      left
      rw [← hk2]
      norm_num
    · right
      refine ⟨k - 1, by omega, ?_⟩
      rw [Nat.div_div_eq_div_mul, ← pow_succ']
      rw [show k - 1 + 1 = k by omega]
      exact hk2
  · rintro (h | ⟨k, hk1, hk2⟩)
    · exact ⟨1, le_refl _, by rw [pow_one]; exact h.symm⟩
    · refine ⟨k + 1, by omega, ?_⟩
      rw [pow_succ', ← Nat.div_div_eq_div_mul]
      exact hk2

theorem not_isStrictAncestor_one (j : ℕ) (hj : 1 ≤ j) :
    ¬ IsStrictAncestor 1 j := by
  rintro ⟨k, hk1, hk2⟩
  have h2 : 2 ≤ 2 ^ k := by
    calc 2 = 2 ^ 1 := by norm_num
    _ ≤ 2 ^ k := Nat.pow_le_pow_right (by omega) hk1
  have : 1 / 2 ^ k = 0 := Nat.div_eq_of_lt (by omega)
  omega

/-- The ancestor-recompute loop restores the shape invariant from a state
where the equations hold everywhere except at the strict ancestors of the
current index. -/
theorem updAncestors_spec {T : Type} (f : T → T → T) (size : ℕ)
    (leaf : ℕ → T) :
    ∀ (fuel q : ℕ) (t : ℕ → T), 0 < q → q < 2 ^ fuel → q < 2 * size →
      (∀ i, t (size + i) = leaf i) →
      (∀ j, 1 ≤ j → j < size → ¬ IsStrictAncestor q j →
        t j = f (t (2 * j)) (t (2 * j + 1))) →
      TreeOK f size leaf (updAncestors f fuel q t) := by
  intro fuel
  induction fuel with
  | zero =>
      intro q t hq hq2 _ _ _
      simp at hq2
      omega
  | succ fuel ih =>
      intro q t hq hq2 hqsize hleaf hint
      rw [updAncestors]
      by_cases h1 : 1 < q
      · rw [if_pos h1]
        have hq2pos : 0 < q / 2 := by omega
        have hsize : 0 < size := by omega
        have hq2size : q / 2 < size := by omega
        apply ih (q / 2) _ hq2pos
        · have : (2:ℕ) ^ (fuel + 1) = 2 ^ fuel * 2 := pow_succ 2 fuel
          omega
        · omega
        · intro i
          rw [if_neg (by omega)]
          exact hleaf i
        · intro j hj1 hj2 hanc
          have hjq2ne2j : ¬ (2 * j = q / 2 ∧ j = q / 2) := by omega
          by_cases hjq : j = q / 2
          · subst hjq
            rw [if_pos rfl, if_neg (by omega), if_neg (by omega)]
          · rw [if_neg hjq]
            have hc1 : ¬ (2 * j = q / 2) := by
              intro hc
              exact hanc ⟨1, le_refl _, by rw [pow_one, ← hc]; omega⟩
            have hc2 : ¬ (2 * j + 1 = q / 2) := by
              intro hc
              exact hanc ⟨1, le_refl _, by rw [pow_one, ← hc]; omega⟩
            rw [if_neg hc1, if_neg hc2]
            apply hint j hj1 hj2
            rw [isStrictAncestor_step q j h1]
            rintro (hc | hc)
            · exact hjq hc
            · exact hanc hc
      · rw [if_neg h1]
        have hq1 : q = 1 := by omega
        subst hq1
        exact ⟨fun j hj1 hj2 =>
          hint j hj1 hj2 (not_isStrictAncestor_one j hj1), hleaf⟩

/-- `update` rewrites one leaf and recomputes exactly its ancestors,
preserving the shape invariant for the updated abstract array. -/
theorem update_TreeOK {T : Type} (st : SegmentTree T) (arr : List T)
    (index : ℕ) (value : T)
    (hok : TreeOK st.func st.size (leafFun arr st.default) st.tree)
    (hlen : arr.length ≤ st.size) (hidx : index < arr.length) :
    TreeOK st.func st.size (leafFun (arr.set index value) st.default)
      (st.update index value).tree := by
  obtain ⟨hint, hleaf⟩ := hok
  rw [SegmentTree.update]
  apply updAncestors_spec st.func st.size _ (st.size + index) (st.size + index)
  · omega
  · exact Nat.lt_two_pow (st.size + index)
  · omega
  · intro i
    by_cases h : i = index
    · subst h
      rw [if_pos rfl, leafFun]
      simp [List.getD, List.getElem?_set, hidx]
    · rw [if_neg (by omega), hleaf i, leafFun, leafFun]
      simp only [List.getD]
      rw [List.get?_set_ne value arr (fun hc : index = i => h hc.symm)]
  · intro j hj1 hj2 hanc
    rw [if_neg (by omega)]
    have hc1 : ¬ (2 * j = st.size + index) := by
      intro hc
      exact hanc ⟨1, le_refl _, by rw [pow_one, ← hc]; omega⟩
    have hc2 : ¬ (2 * j + 1 = st.size + index) := by
      intro hc
      exact hanc ⟨1, le_refl _, by rw [pow_one, ← hc]; omega⟩
    rw [if_neg hc1, if_neg hc2]
    exact hint j hj1 hj2

/-- Left-to-right fold of the tree cells `a, a+1, ..., b-1` starting from
`d`. -/
def rangeFold {T : Type} (f : T → T → T) (d : T) (t : ℕ → T) (a b : ℕ) : T :=
  ((List.range (b - a)).map (fun i => t (a + i))).foldl f d

theorem foldl_f_left {T : Type} (f : T → T → T)
    (hassoc : ∀ a b c, f (f a b) c = f a (f b c)) :
    ∀ (L : List T) (x y : T),
      List.foldl f (f x y) L = f x (List.foldl f y L) := by
  intro L
  induction L with
  | nil => intro x y; rfl
  | cons a L ih =>
      intro x y
      rw [List.foldl_cons, List.foldl_cons, hassoc, ih]

theorem foldl_from {T : Type} (f : T → T → T) (d : T)
    (hassoc : ∀ a b c, f (f a b) c = f a (f b c))
    (hidr : ∀ a, f a d = a) (L : List T) (x : T) :
    List.foldl f x L = f x (List.foldl f d L) := by
  conv_lhs => rw [← hidr x]
  exact foldl_f_left f hassoc L x d

theorem rangeFold_empty {T : Type} (f : T → T → T) (d : T) (t : ℕ → T)
    (a b : ℕ) (h : b ≤ a) : rangeFold f d t a b = d := by
  rw [rangeFold, Nat.sub_eq_zero_of_le h]
  rfl

theorem rangeFold_peel_left {T : Type} (f : T → T → T) (d : T) (t : ℕ → T)
    (hassoc : ∀ a b c, f (f a b) c = f a (f b c))
    (hidl : ∀ a, f d a = a) (hidr : ∀ a, f a d = a)
    (a b : ℕ) (h : a < b) :
    rangeFold f d t a b = f (t a) (rangeFold f d t (a + 1) b) := by
  rw [rangeFold, rangeFold]
  rw [show b - a = (b - (a + 1)) + 1 by omega, List.range_succ_eq_map]
  rw [List.map_cons, List.map_map, List.foldl_cons]
  rw [foldl_from f d hassoc hidr _ (f d (t (a + 0)))]
  rw [show a + 0 = a from rfl, hidl]
  congr 1
  congr 1
  apply List.map_congr_left
  intro i _
  show t (a + (i + 1)) = t (a + 1 + i)
  congr 1
  omega

theorem rangeFold_peel_right {T : Type} (f : T → T → T) (d : T) (t : ℕ → T)
    (a b : ℕ) (h : a < b) :
    rangeFold f d t a b = f (rangeFold f d t a (b - 1)) (t (b - 1)) := by
  rw [rangeFold, rangeFold]
  rw [show b - a = (b - 1 - a) + 1 by omega, List.range_succ]
  rw [List.map_append, List.foldl_append]
  rw [List.map_singleton, List.foldl_cons, List.foldl_nil]
  congr 2
  omega

/-- Flattening one tree level: folding nodes `[a, b)` equals folding their
children `[2a, 2b)` when every node in `[a, b)` combines its children
(associativity only). -/
theorem rangeFold_flatten {T : Type} (f : T → T → T) (d : T) (t : ℕ → T)
    (hassoc : ∀ a b c, f (f a b) c = f a (f b c))
    (hidl : ∀ a, f d a = a) (hidr : ∀ a, f a d = a) (a : ℕ) :
    ∀ (b : ℕ), (∀ j, a ≤ j → j < b → t j = f (t (2 * j)) (t (2 * j + 1))) →
      rangeFold f d t a b = rangeFold f d t (2 * a) (2 * b) := by
  intro b
  induction b with
  | zero =>
      intro _
      rw [rangeFold_empty f d t a 0 (by omega),
        rangeFold_empty f d t _ 0 (by omega)]
  | succ b ih =>
      intro hnode
      by_cases hab : a ≤ b
      · rw [rangeFold_peel_right f d t a (b + 1) (by omega)]
        rw [show b + 1 - 1 = b from rfl]
        rw [ih (fun j h1 h2 => hnode j h1 (by omega))]
        rw [hnode b hab (by omega)]
        rw [rangeFold_peel_right f d t (2 * a) (2 * (b + 1)) (by omega)]
        rw [show 2 * (b + 1) - 1 = 2 * b + 1 by omega]
        rw [rangeFold_peel_right f d t (2 * a) (2 * b + 1) (by omega)]
        rw [show 2 * b + 1 - 1 = 2 * b by omega]
        rw [hassoc]
      · rw [rangeFold_empty f d t a (b + 1) (by omega),
          rangeFold_empty f d t _ _ (by omega)]

/-- The query loop with a single accumulator computes, for a commutative
associative operator with identity, the fold of the tree cells `[left,
right)` combined onto the accumulator. -/
theorem segQueryLoop_eq {T : Type} (f : T → T → T) (d : T) (t : ℕ → T)
    (size : ℕ)
    (hassoc : ∀ a b c, f (f a b) c = f a (f b c))
    (hidl : ∀ a, f d a = a) (hidr : ∀ a, f a d = a)
    (hcomm : ∀ a b, f a b = f b a)
    (hnode : ∀ j, 1 ≤ j → j < size → t j = f (t (2 * j)) (t (2 * j + 1))) :
    ∀ (fuel left right : ℕ) (acc : T), 1 ≤ left → left ≤ right →
      right ≤ 2 * size → right ≤ fuel →
      segQueryLoop f t fuel left right acc =
        f acc (rangeFold f d t left right) := by
  intro fuel
  induction fuel with
  | zero =>
      intro left right acc h1 h2 h3 h4
      omega
  | succ fuel ih =>
      intro left right acc h1 h2 h3 h4
      rw [segQueryLoop]
      by_cases hlr : left < right
      · rw [if_pos hlr]
        have hflat : ∀ L1 R1 : ℕ, L1 % 2 = 0 → R1 % 2 = 0 → L1 ≤ R1 →
            2 ≤ L1 → R1 ≤ right →
            rangeFold f d t (L1 / 2) (R1 / 2) = rangeFold f d t L1 R1 := by
          intro L1 R1 hL1 hR1 hLR hL2 hR2
          rw [rangeFold_flatten f d t hassoc hidl hidr (L1 / 2) (R1 / 2)
            (fun j hj1 hj2 => hnode j (by omega) (by omega))]
          rw [show 2 * (L1 / 2) = L1 by omega, show 2 * (R1 / 2) = R1 by omega]
        by_cases hlodd : left % 2 = 1
        · rw [if_pos hlodd]
          by_cases hrodd : right % 2 = 1
          · rw [if_pos hrodd]
            have hlt2 : left + 2 ≤ right := by omega
            rw [ih _ _ _ (by omega) (by omega) (by omega) (by omega)]
            rw [hflat (left + 1) (right - 1) (by omega) (by omega) (by omega)
              (by omega) (by omega)]
            rw [rangeFold_peel_left f d t hassoc hidl hidr left right hlr]
            rw [rangeFold_peel_right f d t (left + 1) right (by omega)]
            rw [hassoc, hassoc, hcomm (t (right - 1)) (rangeFold f d t (left + 1) (right - 1))]
          · rw [if_neg hrodd]
            rw [ih _ _ _ (by omega) (by omega) (by omega) (by omega)]
            rw [hflat (left + 1) right (by omega) (by omega) (by omega)
              (by omega) (by omega)]
            rw [rangeFold_peel_left f d t hassoc hidl hidr left right hlr]
            rw [hassoc]
        · rw [if_neg hlodd]
          by_cases hrodd : right % 2 = 1
          · rw [if_pos hrodd]
            have hleft2 : 2 ≤ left := by omega
            rw [ih _ _ _ (by omega) (by omega) (by omega) (by omega)]
            rw [hflat left (right - 1) (by omega) (by omega) (by omega)
              (by omega) (by omega)]
            rw [rangeFold_peel_right f d t left right hlr]
            rw [hassoc, hcomm (t (right - 1)) (rangeFold f d t left (right - 1))]
          · rw [if_neg hrodd]
            have hleft2 : 2 ≤ left := by omega
            rw [ih _ _ _ (by omega) (by omega) (by omega) (by omega)]
            rw [hflat left right (by omega) (by omega) (by omega)
              (by omega) (by omega)]
      · rw [if_neg hlr]
        have hlr2 : left = right := by omega
        subst hlr2
        rw [rangeFold_empty f d t left left (le_refl _), hidr]

theorem applySegUpdates_append_one {T : Type} (st : SegmentTree T)
    (us : List (ℕ × T)) (u : ℕ × T) :
    applySegUpdates st (us ++ [u]) = (applySegUpdates st us).update u.1 u.2 := by
  rw [applySegUpdates, applySegUpdates, List.foldl_append, List.foldl_cons,
    List.foldl_nil]

theorem applySegUpdates_fields {T : Type} (st : SegmentTree T)
    (us : List (ℕ × T)) :
    (applySegUpdates st us).func = st.func ∧
    (applySegUpdates st us).default = st.default ∧
    (applySegUpdates st us).size = st.size ∧
    (applySegUpdates st us).n = st.n := by
  induction us using List.reverseRecOn with
  | nil => exact ⟨rfl, rfl, rfl, rfl⟩
  | append_singleton us u ih =>
      rw [applySegUpdates_append_one, SegmentTree.update]
      exact ih

theorem arrayAfter_append_one {T : Type} (data : List T)
    (us : List (ℕ × T)) (u : ℕ × T) :
    arrayAfter data (us ++ [u]) = (arrayAfter data us).set u.1 u.2 := by
  rw [arrayAfter, arrayAfter, List.foldl_append, List.foldl_cons,
    List.foldl_nil]

theorem arrayAfter_length {T : Type} (data : List T) (us : List (ℕ × T)) :
    (arrayAfter data us).length = data.length := by
  induction us using List.reverseRecOn with
  | nil => rfl
  | append_singleton us u ih =>
      rw [arrayAfter_append_one, List.length_set]
      exact ih

/-- Through any update sequence, the tree keeps the shape invariant for the
current abstract array. -/
theorem applySegUpdates_TreeOK {T : Type} (data : List T) (f : T → T → T)
    (d : T) (us : List (ℕ × T)) (hus : ∀ u ∈ us, u.1 < data.length) :
    TreeOK f (segSize data.length) (leafFun (arrayAfter data us) d)
      ((applySegUpdates (SegmentTree.init data f d) us).tree) := by
  induction us using List.reverseRecOn with
  | nil => exact init_TreeOK data f d
  | append_singleton us u ih =>
      have hus2 : ∀ v ∈ us, v.1 < data.length := by
        intro v hv
        exact hus v (List.mem_append_left _ hv)
      have hu : u.1 < data.length := by
        apply hus u
        simp
      obtain ⟨hf, hd, hs, -⟩ :=
        applySegUpdates_fields (SegmentTree.init data f d) us
      rw [applySegUpdates_append_one, arrayAfter_append_one]
      have hstep := update_TreeOK (applySegUpdates (SegmentTree.init data f d) us)
        (arrayAfter data us) u.1 u.2
      rw [hf, hd, hs] at hstep
      rw [show (SegmentTree.init data f d).func = f from rfl,
        show (SegmentTree.init data f d).default = d from rfl,
        show (SegmentTree.init data f d).size = segSize data.length from rfl]
        at hstep
      have hres := hstep (ih hus2)
        (by rw [arrayAfter_length]; exact segSize_ge data.length)
        (by rw [arrayAfter_length]; exact hu)
      have hfields2 := applySegUpdates_fields (SegmentTree.init data f d)
        (us ++ [u])
      rw [applySegUpdates_append_one] at hfields2
      exact hres

/-- The slice `[l, r)` of an array, as the mapped index range it folds
over. -/
theorem slice_eq_map {T : Type} (arr : List T) (d : T) (l r : ℕ)
    (hlr : l ≤ r) (hr : r ≤ arr.length) :
    (arr.drop l).take (r - l) =
      (List.range (r - l)).map (fun i => arr.getD (l + i) d) := by
  apply List.ext_getElem
  · simp only [List.length_take, List.length_drop, List.length_map,
      List.length_range]
    omega
  · intro i h1 h2
    simp only [List.getElem_take, List.getElem_drop, List.getElem_map,
      List.getElem_range]
    simp only [List.length_take, List.length_drop] at h1
    rw [List.getD_eq_getElem arr d (by omega)]

/-- C3 amended: for a commutative associative operator with identity,
`query(l, r)` after any in-range update sequence is the left-to-right fold
of the current array slice `[l, r)` from the default. -/
theorem segment_tree_query_amended {T : Type} (data : List T)
    (f : T → T → T) (d : T) (us : List (ℕ × T)) (l r : ℕ)
    (hassoc : ∀ a b c, f (f a b) c = f a (f b c))
    (hidl : ∀ a, f d a = a) (hidr : ∀ a, f a d = a)
    (hcomm : ∀ a b, f a b = f b a)
    (hus : ∀ u ∈ us, u.1 < data.length) (hlr : l ≤ r)
    (hr : r ≤ data.length) :
    (applySegUpdates (SegmentTree.init data f d) us).query l r =
      List.foldl f d (((arrayAfter data us).drop l).take (r - l)) := by
  obtain ⟨hf, hd, hs, -⟩ := applySegUpdates_fields (SegmentTree.init data f d) us
  obtain ⟨hnode, hleaf⟩ := applySegUpdates_TreeOK data f d us hus
  have hsize := segSize_pos data.length
  have hge := segSize_ge data.length
  rw [SegmentTree.query, hf, hd, hs]
  rw [show (SegmentTree.init data f d).func = f from rfl,
    show (SegmentTree.init data f d).default = d from rfl,
    show (SegmentTree.init data f d).size = segSize data.length from rfl]
  rw [segQueryLoop_eq f d _ (segSize data.length) hassoc hidl hidr hcomm hnode
    (r + segSize data.length + 1) (l + segSize data.length)
    (r + segSize data.length) d (by omega) (by omega) (by omega) (by omega)]
  rw [hidl]
  rw [rangeFold]
  rw [slice_eq_map (arrayAfter data us) d l r hlr
    (by rw [arrayAfter_length]; exact hr)]
  rw [show r + segSize data.length - (l + segSize data.length) = r - l by omega]
  congr 1
  apply List.map_congr_left
  intro i _
  rw [show l + segSize data.length + i = segSize data.length + (l + i) by omega]
  rw [hleaf (l + i)]
  rfl

/-- A three-leaf segment tree over list concatenation: associative with
identity `[]`, but not commutative. -/
def stList : SegmentTree (List ℕ) :=
  SegmentTree.init [[0], [1], [2]] (fun a b => a ++ b) []

/-- C3 counterexample: list concatenation is associative with identity
`[]`, yet `query(0, 3)` on the tree over `[[0], [1], [2]]` returns
`[2, 0, 1]`, not the slice fold `[0, 1, 2]` — the single-accumulator query
folds the right-boundary node out of order, so the claim fails for
non-commutative operators. -/
theorem segment_tree_query_cex :
    (∀ a b c : List ℕ, (a ++ b) ++ c = a ++ (b ++ c)) ∧
    (∀ a : List ℕ, [] ++ a = a ∧ a ++ [] = a) ∧
    stList.query 0 3 = [2, 0, 1] ∧
    List.foldl (fun a b : List ℕ => a ++ b) []
      (([[0], [1], [2]].drop 0).take (3 - 0)) = [0, 1, 2] ∧
    stList.query 0 3 ≠ List.foldl (fun a b : List ℕ => a ++ b) []
      (([[0], [1], [2]].drop 0).take (3 - 0)) :=
  ⟨fun a b c => List.append_assoc a b c,
   fun a => ⟨List.nil_append a, List.append_nil a⟩,
   by decide, by decide, by decide⟩

/-- Witness for C3 amended: the repository's segment-tree sum test — data
`[1,3,5,7,9,11]`, `update(3, 10)`, then `query(1, 5) = 27`. -/
theorem segment_tree_query_amended_witness :
    (applySegUpdates
        (SegmentTree.init [1, 3, 5, 7, 9, 11] (fun a b : ℤ => a + b) 0)
        [(3, 10)]).query 1 5 =
      List.foldl (fun a b : ℤ => a + b) 0
        (((arrayAfter [1, 3, 5, 7, 9, 11] [(3, 10)]).drop 1).take (5 - 1)) ∧
    (applySegUpdates
        (SegmentTree.init [1, 3, 5, 7, 9, 11] (fun a b : ℤ => a + b) 0)
        [(3, 10)]).query 1 5 = 27 :=
  ⟨segment_tree_query_amended [1, 3, 5, 7, 9, 11] (fun a b : ℤ => a + b) 0
      [(3, 10)] 1 5 (fun a b c => add_assoc a b c) (fun a => zero_add a)
      (fun a => add_zero a) (fun a b => add_comm a b) (by decide) (by decide)
      (by decide),
   by decide⟩

/-! ### `UnionFind` (`data_structures.py`, lines 13-65)

`parent` and `rank` are dicts with lazily created entries.  `find` is
recursive with path compression; the recursion depth is bounded by the
number of `parent` keys (ranks strictly increase along parent chains, a
maintained invariant), so `parent.length + 1` fuel always suffices — the
fuel-exhausted branch is proven unreachable. -/

structure UnionFind where
  parent : List (ℕ × ℕ)
  rank : List (ℕ × ℕ)

namespace UnionFind

def empty : UnionFind := ⟨[], []⟩

/-- `self.rank[x]`; rank entries exist for every parent key (they are
created together in `find`), so the `getD 0` default is never exercised on
reachable states. -/
def rankOf (R : List (ℕ × ℕ)) (x : ℕ) : ℕ := (dictLookup R x).getD 0

/-- `find(item)` with explicit recursion fuel; `return self.parent[item]`
after `self.parent[item] = self.find(self.parent[item])` returns the value
just assigned. -/
def findAux : ℕ → UnionFind → ℕ → ℕ × UnionFind
  | 0, uf, x => (x, uf)
  | fuel + 1, uf, x =>
      match dictLookup uf.parent x with
      | none =>
          (x, { parent := dictInsert uf.parent x x,
                rank := dictInsert uf.rank x 0 })
      | some p =>
          if p = x then (x, uf)
          else
            let r := findAux fuel uf p
            (r.1, { r.2 with parent := dictInsert r.2.parent x r.1 })

/-- `find(item)`: the canonical fuel covers the longest possible parent
chain. -/
def find (uf : UnionFind) (x : ℕ) : ℕ × UnionFind :=
  findAux (uf.parent.length + 1) uf x

/-- `union(x, y)`. -/
def union (uf : UnionFind) (x y : ℕ) : UnionFind :=
  let fx := uf.find x
  let fy := fx.2.find y
  let xroot := fx.1
  let yroot := fy.1
  let uf2 := fy.2
  if xroot = yroot then uf2
  else if rankOf uf2.rank xroot < rankOf uf2.rank yroot then
    { uf2 with parent := dictInsert uf2.parent xroot yroot }
  else
    let uf3 : UnionFind :=
      { uf2 with parent := dictInsert uf2.parent yroot xroot }
    if rankOf uf3.rank xroot = rankOf uf3.rank yroot then
      { uf3 with
        rank := dictInsert uf3.rank xroot (rankOf uf3.rank xroot + 1) }
    else uf3

end UnionFind

/-- One recorded `UnionFind` operation. -/
inductive UFOp where
  | union (a b : ℕ) : UFOp
  | find (x : ℕ) : UFOp

def applyOp (uf : UnionFind) : UFOp → UnionFind
  | .union a b => uf.union a b
  | .find x => (uf.find x).2

/-- Run a sequence of operations from a fresh structure. -/
def runOps (ops : List UFOp) : UnionFind :=
  ops.foldl applyOp UnionFind.empty

/-- The representative of `x` under a parent map: follow parent pointers to
a fixed point (an absent key or a self-parent). -/
inductive Rooted (P : List (ℕ × ℕ)) : ℕ → ℕ → Prop where
  | stop (x : ℕ) :
      dictLookup P x = none ∨ dictLookup P x = some x → Rooted P x x
  | step (x p r : ℕ) : dictLookup P x = some p → p ≠ x → Rooted P p r →
      Rooted P x r

/-- The maintained well-formedness of a `UnionFind` state: unique dict
keys, parent values are keys, ranks strictly increasing along parent
edges, and rank entries only at parent keys. -/
def WFuf (P R : List (ℕ × ℕ)) : Prop :=
  (P.map Prod.fst).Nodup ∧ (R.map Prod.fst).Nodup ∧
  (∀ x p, dictLookup P x = some p → dictMem P p = true) ∧
  (∀ x p, dictLookup P x = some p → p ≠ x →
    UnionFind.rankOf R x < UnionFind.rankOf R p) ∧
  (∀ y, dictMem P y = false → dictLookup R y = none)

theorem Rooted_func (P : List (ℕ × ℕ)) :
    ∀ x r1 r2, Rooted P x r1 → Rooted P x r2 → r1 = r2 := by
  intro x r1 r2 h1
  induction h1 with
  | stop x hx =>
      intro h2
      cases h2 with
      | stop _ _ => rfl
      | step _ p _ hp hpne _ =>
          rcases hx with hx | hx <;> rw [hx] at hp
          · cases hp
          · cases hp; exact absurd rfl hpne
  | step x p r hp hpne hrec ih =>
      intro h2
      cases h2 with
      | stop _ hx =>
          rcases hx with hx | hx <;> rw [hx] at hp
          · cases hp
          · cases hp; exact absurd rfl hpne
      | step _ p2 _ hp2 hpne2 hrec2 =>
          rw [hp] at hp2
          cases hp2
          exact ih hrec2

theorem dictInsert_keys {κ ν : Type} [DecidableEq κ] (d : List (κ × ν))
    (k : κ) (v : ν) :
    (dictInsert d k v).map Prod.fst =
      if dictMem d k then d.map Prod.fst else d.map Prod.fst ++ [k] := by
  induction d with
  | nil => simp [dictInsert, dictMem, dictLookup]
  | cons hd tl ih =>
      by_cases h : hd.1 = k
      · simp [dictInsert, dictMem, dictLookup, h]
      · rw [dictInsert, if_neg h, List.map_cons, ih]
        rw [show dictMem (hd :: tl) k = dictMem tl k from by
          rw [dictMem, dictMem, dictLookup, if_neg h]]
        by_cases h2 : dictMem tl k
        · rw [if_pos h2, if_pos h2, List.map_cons]
        · rw [if_neg h2, if_neg h2, List.map_cons, List.cons_append]

theorem dictInsert_keys_nodup {κ ν : Type} [DecidableEq κ]
    (d : List (κ × ν)) (k : κ) (v : ν) (h : (d.map Prod.fst).Nodup) :
    ((dictInsert d k v).map Prod.fst).Nodup := by
  rw [dictInsert_keys]
  by_cases hm : dictMem d k
  · rw [if_pos hm]
    exact h
  · rw [if_neg hm]
    rw [List.nodup_append]
    refine ⟨h, List.nodup_singleton k, ?_⟩
    intro y hy hk
    rw [List.mem_singleton] at hk
    subst hk
    exact hm ((dictMem_iff_mem_keys d y).mpr hy)

theorem dictMem_dictInsert {κ ν : Type} [DecidableEq κ] (d : List (κ × ν))
    (k : κ) (v : ν) (y : κ) :
    dictMem (dictInsert d k v) y = true ↔ y = k ∨ dictMem d y = true := by
  by_cases h : y = k
  · subst h
    rw [dictMem, dictLookup_dictInsert_self]
    simp
  · rw [dictMem, dictLookup_dictInsert_ne d k y v (fun hc => h hc.symm)]
    rw [dictMem]
    simp [h]

theorem rankOf_dictInsert (R : List (ℕ × ℕ)) (k v y : ℕ) :
    UnionFind.rankOf (dictInsert R k v) y =
      if y = k then v else UnionFind.rankOf R y := by
  by_cases h : y = k
  · subst h
    rw [UnionFind.rankOf, dictLookup_dictInsert_self, if_pos rfl]
    rfl
  · rw [UnionFind.rankOf,
      dictLookup_dictInsert_ne R k y v (fun hc => h hc.symm), if_neg h]
    rfl

/-- Strict-measure for `find`/root recursion: the number of parent keys of
rank at least `rank x`. -/
def cntUF (P R : List (ℕ × ℕ)) (x : ℕ) : ℕ :=
  ((P.map Prod.fst).toFinset.filter
    (fun k => UnionFind.rankOf R x ≤ UnionFind.rankOf R k)).card

theorem cntUF_le (P R : List (ℕ × ℕ)) (x : ℕ) : cntUF P R x ≤ P.length := by
  calc cntUF P R x ≤ (P.map Prod.fst).toFinset.card := Finset.card_filter_le _ _
  _ ≤ (P.map Prod.fst).length := (P.map Prod.fst).toFinset_card_le
  _ = P.length := List.length_map _ _

theorem cntUF_lt (P R : List (ℕ × ℕ)) (x p : ℕ)
    (hx : dictLookup P x = some p) (hne : p ≠ x)
    (hrk : UnionFind.rankOf R x < UnionFind.rankOf R p) :
    cntUF P R p < cntUF P R x := by
  apply Finset.card_lt_card
  rw [Finset.ssubset_def]
  constructor
  · intro k hk
    rw [Finset.mem_filter] at hk ⊢
    refine ⟨hk.1, ?_⟩
    have := hk.2
    omega
  · intro hsub
    have hxmem : x ∈ (P.map Prod.fst).toFinset.filter
        (fun k => UnionFind.rankOf R x ≤ UnionFind.rankOf R k) := by
      rw [Finset.mem_filter]
      refine ⟨?_, le_refl _⟩
      rw [List.mem_toFinset]
      apply (dictMem_iff_mem_keys P x).mp
      rw [dictMem, hx]
      rfl
    have hmem2 := hsub hxmem
    rw [Finset.mem_filter] at hmem2
    have := hmem2.2
    omega

theorem Rooted_root (P : List (ℕ × ℕ)) (x r : ℕ) (h : Rooted P x r) :
    Rooted P r r := by
  induction h with
  | stop y hy => exact Rooted.stop y hy
  | step y p r hp hne hrec ih => exact ih

theorem Rooted_lookup_root (P : List (ℕ × ℕ)) (x r : ℕ) (h : Rooted P x r) :
    dictLookup P r = none ∨ dictLookup P r = some r := by
  induction h with
  | stop y hy => exact hy
  | step y p r hp hne hrec ih => exact ih

theorem Rooted_rank_ge (P R : List (ℕ × ℕ)) (hwf : WFuf P R) (x r : ℕ)
    (h : Rooted P x r) :
    UnionFind.rankOf R x ≤ UnionFind.rankOf R r := by
  induction h with
  | stop y hy => exact le_refl _
  | step y p r hp hne hrec ih =>
      have := hwf.2.2.2.1 y p hp hne
      omega

theorem Rooted_keys (P R : List (ℕ × ℕ)) (hwf : WFuf P R) (x r : ℕ)
    (h : Rooted P x r) (hx : dictMem P x = true) : dictMem P r = true := by
  induction h with
  | stop y hy => exact hx
  | step y p r hp hne hrec ih => exact ih (hwf.2.2.1 y p hp)

/-- Creating a fresh self-parented entry changes no representative. -/
theorem Rooted_create (P : List (ℕ × ℕ)) (x : ℕ)
    (hx : dictMem P x = false) (y s : ℕ) :
    Rooted (dictInsert P x x) y s ↔ Rooted P y s := by
  have hnone : dictLookup P x = none := by
    rw [dictMem] at hx
    cases h : dictLookup P x with
    | none => rfl
    | some v => rw [h] at hx; simp at hx
  constructor
  · intro h
    induction h with
    | stop y hy =>
        by_cases hyx : y = x
        · subst hyx
          exact Rooted.stop y (Or.inl hnone)
        · rw [dictLookup_dictInsert_ne P x y x (fun hc => hyx hc.symm)] at hy
          exact Rooted.stop y hy
    | step y p r hp hne hrec ih =>
        by_cases hyx : y = x
        · subst hyx
          rw [dictLookup_dictInsert_self] at hp
          cases hp
          exact absurd rfl hne
        · rw [dictLookup_dictInsert_ne P x y x (fun hc => hyx hc.symm)] at hp
          exact Rooted.step y p r hp hne (ih)
  · intro h
    induction h with
    | stop y hy =>
        by_cases hyx : y = x
        · subst hyx
          exact Rooted.stop y (Or.inr (dictLookup_dictInsert_self P y y))
        · apply Rooted.stop y
          rw [dictLookup_dictInsert_ne P x y x (fun hc => hyx hc.symm)]
          exact hy
    | step y p r hp hne hrec ih =>
        by_cases hyx : y = x
        · subst hyx
          rw [hnone] at hp
          cases hp
        · apply Rooted.step y p r _ hne ih
          rw [dictLookup_dictInsert_ne P x y x (fun hc => hyx hc.symm)]
          exact hp

/-- Path compression (`parent[x] := root of x`) changes no
representative. -/
theorem Rooted_compress (P : List (ℕ × ℕ)) (x r : ℕ)
    (hxr : Rooted P x r) (y s : ℕ) :
    Rooted (dictInsert P x r) y s ↔ Rooted P y s := by
  have hrootlk := Rooted_lookup_root P x r hxr
  constructor
  · intro h
    induction h with
    | stop y hy =>
        by_cases hyx : y = x
        · subst hyx
          rw [dictLookup_dictInsert_self] at hy
          rcases hy with hy | hy
          · cases hy
          · cases hy
            exact hxr
        · rw [dictLookup_dictInsert_ne P x y r (fun hc => hyx hc.symm)] at hy
          exact Rooted.stop y hy
    | step y p s hp hne hrec ih =>
        by_cases hyx : y = x
        · rw [hyx, dictLookup_dictInsert_self] at hp
          have hrp : r = p := Option.some.inj hp
          rw [← hrp] at ih
          have hsr : s = r := Rooted_func P r s r ih (Rooted_root _ _ _ hxr)
          rw [hyx, hsr]
          exact hxr
        · rw [dictLookup_dictInsert_ne P x y r (fun hc => hyx hc.symm)] at hp
          exact Rooted.step y p s hp hne ih
  · intro h
    induction h with
    | stop y hy =>
        by_cases hyx : y = x
        · rw [hyx] at hy ⊢
          have hry : r = x := Rooted_func P x r x hxr (Rooted.stop x hy)
          rw [hry]
          exact Rooted.stop x (Or.inr (dictLookup_dictInsert_self P x x))
        · apply Rooted.stop y
          rw [dictLookup_dictInsert_ne P x y r (fun hc => hyx hc.symm)]
          exact hy
    | step y p s hp hne hrec ih =>
        by_cases hyx : y = x
        · have hs : s = r :=
            Rooted_func P y s r (Rooted.step y p s hp hne hrec)
              (by rw [hyx]; exact hxr)
          rw [hyx, hs]
          by_cases hrx : r = x
          · rw [hrx]
            exact Rooted.stop x (Or.inr (dictLookup_dictInsert_self P x x))
          · apply Rooted.step x r r (dictLookup_dictInsert_self P x r) hrx
            apply Rooted.stop r
            rcases hrootlk with hl | hl
            · left
              rw [dictLookup_dictInsert_ne P x r r (fun hc => hrx hc.symm)]
              exact hl
            · right
              rw [dictLookup_dictInsert_ne P x r r (fun hc => hrx hc.symm)]
              exact hl
        · apply Rooted.step y p s _ hne ih
          rw [dictLookup_dictInsert_ne P x y r (fun hc => hyx hc.symm)]
          exact hp

/-- The `r2`-class, after linking root `r2` under root `r1`, is rooted at
`r1`. -/
theorem Rooted_to_link (P : List (ℕ × ℕ)) (r1 r2 : ℕ)
    (h1 : dictLookup P r1 = none ∨ dictLookup P r1 = some r1)
    (h2 : dictLookup P r2 = none ∨ dictLookup P r2 = some r2)
    (hne : r1 ≠ r2) :
    ∀ y t, Rooted P y t → t = r2 → Rooted (dictInsert P r2 r1) y r1 := by
  intro y t h
  induction h with
  | stop y0 hy =>
      intro ht
      rw [ht]
      apply Rooted.step r2 r1 r1 (dictLookup_dictInsert_self P r2 r1)
        (fun hc => hne (hc.symm ▸ rfl))
      apply Rooted.stop r1
      rcases h1 with hl | hl
      · left
        rw [dictLookup_dictInsert_ne P r2 r1 r1 (fun hc => hne hc.symm)]
        exact hl
      · right
        rw [dictLookup_dictInsert_ne P r2 r1 r1 (fun hc => hne hc.symm)]
        exact hl
  | step y0 p t0 hp hne2 hrec ih =>
      intro ht
      apply Rooted.step y0 p r1 ?_ hne2 (ih ht)
      by_cases hy2 : y0 = r2
      · exfalso
        rw [hy2] at hp
        rcases h2 with hl | hl
        · rw [hl] at hp
          cases hp
        · rw [hl] at hp
          have : r2 = p := Option.some.inj hp
          rw [hy2, ← this] at hne2
          exact hne2 rfl
      · rw [dictLookup_dictInsert_ne P r2 y0 r1 (fun hc => hy2 hc.symm)]
        exact hp

/-- Classes other than the `r2`-class keep their root after linking. -/
theorem Rooted_keep_link (P : List (ℕ × ℕ)) (r1 r2 : ℕ)
    (h2 : dictLookup P r2 = none ∨ dictLookup P r2 = some r2) :
    ∀ y t, Rooted P y t → t ≠ r2 → Rooted (dictInsert P r2 r1) y t := by
  intro y t h
  induction h with
  | stop y0 hy =>
      intro ht
      apply Rooted.stop y0
      rcases hy with hl | hl
      · left
        rw [dictLookup_dictInsert_ne P r2 y0 r1 (fun hc => ht hc.symm)]
        exact hl
      · right
        rw [dictLookup_dictInsert_ne P r2 y0 r1 (fun hc => ht hc.symm)]
        exact hl
  | step y0 p t0 hp hne2 hrec ih =>
      intro ht
      apply Rooted.step y0 p t0 ?_ hne2 (ih ht)
      by_cases hy2 : y0 = r2
      · exfalso
        rw [hy2] at hp
        rcases h2 with hl | hl
        · rw [hl] at hp
          cases hp
        · rw [hl] at hp
          have hpr : r2 = p := Option.some.inj hp
          rw [hy2, ← hpr] at hne2
          exact hne2 rfl
      · rw [dictLookup_dictInsert_ne P r2 y0 r1 (fun hc => hy2 hc.symm)]
        exact hp

/-- Linking root `r2` under root `r1` redirects exactly the `r2`-class. -/
theorem Rooted_link (P : List (ℕ × ℕ)) (r1 r2 : ℕ)
    (h1 : dictLookup P r1 = none ∨ dictLookup P r1 = some r1)
    (h2 : dictLookup P r2 = none ∨ dictLookup P r2 = some r2)
    (hne : r1 ≠ r2) (y s : ℕ) :
    Rooted (dictInsert P r2 r1) y s ↔
      (Rooted P y r2 ∧ s = r1) ∨ (Rooted P y s ∧ s ≠ r2) := by
  constructor
  · intro h
    induction h with
    | stop y0 hy =>
        by_cases hy2 : y0 = r2
        · exfalso
          rw [hy2, dictLookup_dictInsert_self] at hy
          rcases hy with hy | hy
          · cases hy
          · exact hne (Option.some.inj hy)
        · rw [dictLookup_dictInsert_ne P r2 y0 r1 (fun hc => hy2 hc.symm)] at hy
          exact Or.inr ⟨Rooted.stop y0 hy, hy2⟩
    | step y0 p s0 hp hne2 hrec ih =>
        by_cases hy2 : y0 = r2
        · rw [hy2, dictLookup_dictInsert_self] at hp
          have hp1 : r1 = p := Option.some.inj hp
          rcases ih with ⟨hc, hs⟩ | ⟨hc, hs⟩
          · rw [← hp1] at hc
            exact absurd (Rooted_func P r1 r1 r2 (Rooted.stop r1 h1) hc) hne
          · rw [← hp1] at hc
            have hs0 : s0 = r1 :=
              Rooted_func P r1 s0 r1 hc (Rooted.stop r1 h1)
            left
            refine ⟨?_, hs0⟩
            rw [hy2]
            exact Rooted.stop r2 h2
        · rw [dictLookup_dictInsert_ne P r2 y0 r1 (fun hc => hy2 hc.symm)] at hp
          rcases ih with ⟨hc, hs⟩ | ⟨hc, hs⟩
          · exact Or.inl ⟨Rooted.step y0 p r2 hp hne2 hc, hs⟩
          · exact Or.inr ⟨Rooted.step y0 p s0 hp hne2 hc, hs⟩
  · rintro (⟨hc, hs⟩ | ⟨hc, hs⟩)
    · rw [hs]
      exact Rooted_to_link P r1 r2 h1 h2 hne y r2 hc rfl
    · exact Rooted_keep_link P r1 r2 h2 y s hc hs

/-- Full specification of `find` (with fuel): it returns the
representative, keeps the state well-formed, changes no rank value and no
representative, only grows the key set, creates `x`'s entry, and only adds
self-loops or compression edges. -/
theorem findAux_spec (P R : List (ℕ × ℕ)) (hwf : WFuf P R) :
    ∀ (fuel x : ℕ), cntUF P R x < fuel →
      ∃ r P2 R2,
        UnionFind.findAux fuel ⟨P, R⟩ x = (r, ⟨P2, R2⟩) ∧
        Rooted P x r ∧
        WFuf P2 R2 ∧
        (∀ y, UnionFind.rankOf R2 y = UnionFind.rankOf R y) ∧
        (∀ y s, Rooted P2 y s ↔ Rooted P y s) ∧
        (∀ y, dictMem P y = true → dictMem P2 y = true) ∧
        dictMem P2 x = true ∧
        (∀ y p, dictLookup P2 y = some p →
          dictLookup P y = some p ∨ p = y ∨ Rooted P y p) := by
  intro fuel
  induction fuel with
  | zero => intro x h; omega
  | succ fuel ih =>
      intro x hcnt
      cases hx : dictLookup P x with
      | none =>
          have hxmem : dictMem P x = false := by rw [dictMem, hx]; rfl
          have hrx : dictLookup R x = none := hwf.2.2.2.2 x hxmem
          have hrankeq : ∀ y, UnionFind.rankOf (dictInsert R x 0) y =
              UnionFind.rankOf R y := by
            intro y
            rw [rankOf_dictInsert]
            by_cases hy : y = x
            · rw [if_pos hy, hy, UnionFind.rankOf, hrx]
              rfl
            · rw [if_neg hy]
          refine ⟨x, dictInsert P x x, dictInsert R x 0, ?_, ?_, ?_, hrankeq,
            ?_, ?_, ?_, ?_⟩
          · simp only [UnionFind.findAux, hx]
          · exact Rooted.stop x (Or.inl hx)
          · refine ⟨dictInsert_keys_nodup P x x hwf.1,
              dictInsert_keys_nodup R x 0 hwf.2.1, ?_, ?_, ?_⟩
            · intro y p hyp
              by_cases hy : y = x
              · rw [hy, dictLookup_dictInsert_self] at hyp
                cases hyp
                exact (dictMem_dictInsert P x x x).mpr (Or.inl rfl)
              · rw [dictLookup_dictInsert_ne P x y x (fun hc => hy hc.symm)] at hyp
                exact (dictMem_dictInsert P x x p).mpr
                  (Or.inr (hwf.2.2.1 y p hyp))
            · intro y p hyp hpy
              rw [hrankeq, hrankeq]
              by_cases hy : y = x
              · rw [hy, dictLookup_dictInsert_self] at hyp
                have hxp : x = p := Option.some.inj hyp
                rw [← hxp, hy] at hpy
                exact absurd rfl hpy
              · rw [dictLookup_dictInsert_ne P x y x (fun hc => hy hc.symm)] at hyp
                exact hwf.2.2.2.1 y p hyp hpy
            · intro y hy
              have hyne : ¬ (y = x ∨ dictMem P y = true) := by
                intro hc
                have := (dictMem_dictInsert P x x y).mpr hc
                rw [this] at hy
                cases hy
              push_neg at hyne
              rw [dictLookup_dictInsert_ne R x y 0 (fun hc => hyne.1 hc.symm)]
              apply hwf.2.2.2.2 y
              cases hmy : dictMem P y
              · rfl
              · exact absurd hmy hyne.2
          · exact fun y s => Rooted_create P x hxmem y s
          · intro y hy
            exact (dictMem_dictInsert P x x y).mpr (Or.inr hy)
          · exact (dictMem_dictInsert P x x x).mpr (Or.inl rfl)
          · intro y p hyp
            by_cases hy : y = x
            · rw [hy, dictLookup_dictInsert_self] at hyp
              have hxp : x = p := Option.some.inj hyp
              exact Or.inr (Or.inl (by rw [← hxp, hy]))
            · rw [dictLookup_dictInsert_ne P x y x (fun hc => hy hc.symm)] at hyp
              exact Or.inl hyp
      | some p =>
          by_cases hpx : p = x
          · refine ⟨x, P, R, ?_, ?_, hwf, fun y => rfl, fun y s => Iff.rfl,
              fun y h => h, ?_, fun y p2 h => Or.inl h⟩
            · simp only [UnionFind.findAux, hx, if_pos hpx]
            · exact Rooted.stop x (Or.inr (hpx ▸ hx))
            · rw [dictMem, hx]
              rfl
          · have hrkxp := hwf.2.2.2.1 x p hx hpx
            have hcp : cntUF P R p < cntUF P R x := cntUF_lt P R x p hx hpx hrkxp
            obtain ⟨r, P2, R2, heq, hroot, hwf2, hrank, hroots, hkeys, hmemp,
              hins⟩ := ih p (by omega)
            have hrootx : Rooted P x r := Rooted.step x p r hx hpx hroot
            have hrootx2 : Rooted P2 x r := (hroots x r).mpr hrootx
            have hmemPp : dictMem P p = true := hwf.2.2.1 x p hx
            have hmemPr : dictMem P r = true := Rooted_keys P R hwf p r hroot hmemPp
            have hmemP2r : dictMem P2 r = true := hkeys r hmemPr
            refine ⟨r, dictInsert P2 x r, R2, ?_, hrootx, ?_, hrank, ?_, ?_, ?_, ?_⟩
            · simp only [UnionFind.findAux, hx, if_neg hpx, heq]
            · refine ⟨dictInsert_keys_nodup P2 x r hwf2.1, hwf2.2.1, ?_, ?_, ?_⟩
              · intro y q hyq
                by_cases hy : y = x
                · rw [hy, dictLookup_dictInsert_self] at hyq
                  cases hyq
                  exact (dictMem_dictInsert P2 x r r).mpr (Or.inr hmemP2r)
                · rw [dictLookup_dictInsert_ne P2 x y r (fun hc => hy hc.symm)] at hyq
                  exact (dictMem_dictInsert P2 x r q).mpr
                    (Or.inr (hwf2.2.2.1 y q hyq))
              · intro y q hyq hqy
                by_cases hy : y = x
                · rw [hy, dictLookup_dictInsert_self] at hyq
                  have hqr : r = q := Option.some.inj hyq
                  rw [hrank, hrank, hy, ← hqr]
                  have h1 := Rooted_rank_ge P R hwf p r hroot
                  omega
                · rw [dictLookup_dictInsert_ne P2 x y r (fun hc => hy hc.symm)] at hyq
                  exact hwf2.2.2.2.1 y q hyq hqy
              · intro y hy
                have hyne : ¬ (y = x ∨ dictMem P2 y = true) := by
                  intro hc
                  have := (dictMem_dictInsert P2 x r y).mpr hc
                  rw [this] at hy
                  cases hy
                push_neg at hyne
                apply hwf2.2.2.2.2 y
                cases hmy : dictMem P2 y
                · rfl
                · exact absurd hmy hyne.2
            · intro y s
              rw [Rooted_compress P2 x r hrootx2 y s]
              exact hroots y s
            · intro y hy
              exact (dictMem_dictInsert P2 x r y).mpr (Or.inr (hkeys y hy))
            · exact (dictMem_dictInsert P2 x r x).mpr (Or.inl rfl)
            · intro y q hyq
              by_cases hy : y = x
              · rw [hy, dictLookup_dictInsert_self] at hyq
                cases hyq
                right
                right
                rw [hy]
                exact hrootx
              · rw [dictLookup_dictInsert_ne P2 x y r (fun hc => hy hc.symm)] at hyq
                rcases hins y q hyq with h | h | h
                · exact Or.inl h
                · exact Or.inr (Or.inl h)
                · exact Or.inr (Or.inr h)

/-- `find` at the canonical fuel: same specification as `findAux_spec`. -/
theorem find_spec (P R : List (ℕ × ℕ)) (hwf : WFuf P R) (x : ℕ) :
    ∃ r P2 R2,
      UnionFind.find ⟨P, R⟩ x = (r, ⟨P2, R2⟩) ∧
      Rooted P x r ∧
      WFuf P2 R2 ∧
      (∀ y, UnionFind.rankOf R2 y = UnionFind.rankOf R y) ∧
      (∀ y s, Rooted P2 y s ↔ Rooted P y s) ∧
      (∀ y, dictMem P y = true → dictMem P2 y = true) ∧
      dictMem P2 x = true ∧
      (∀ y p, dictLookup P2 y = some p →
        dictLookup P y = some p ∨ p = y ∨ Rooted P y p) := by
  have h := findAux_spec P R hwf (P.length + 1) x
    (by have := cntUF_le P R x; omega)
  simpa [UnionFind.find] using h

/-- `x` has never been an argument of `union`: nothing points at `x` and
`x` points at most at itself. -/
def Unt (x : ℕ) (P : List (ℕ × ℕ)) : Prop :=
  ∀ y p, dictLookup P y = some p → (p = x → y = x) ∧ (y = x → p = x)

theorem Rooted_ne_of_unt (x : ℕ) (P : List (ℕ × ℕ)) (hunt : Unt x P) :
    ∀ y r, Rooted P y r → r = x → y = x := by
  intro y r h
  induction h with
  | stop y0 hy => exact fun h => h
  | step y0 p r hp hne hrec ih =>
      intro hr
      exact (hunt y0 p hp).1 (ih hr)

theorem Rooted_of_unt_self (x : ℕ) (P : List (ℕ × ℕ)) (hunt : Unt x P) :
    ∀ y p, Rooted P y p → y = x → p = x := by
  intro y p h
  induction h with
  | stop y0 hy => exact fun h => h
  | step y0 q r hp hne hrec ih =>
      intro hyx
      exact ih ((hunt y0 q hp).2 hyx)

theorem Unt_of_char (x : ℕ) (P P2 : List (ℕ × ℕ)) (hunt : Unt x P)
    (hchar : ∀ y p, dictLookup P2 y = some p →
      dictLookup P y = some p ∨ p = y ∨ Rooted P y p) :
    Unt x P2 := by
  intro y p hyp
  rcases hchar y p hyp with h | h | h
  · exact hunt y p h
  · constructor
    · intro hpx
      rw [← h, hpx]
    · intro hyx
      rw [h, hyx]
  · constructor
    · exact Rooted_ne_of_unt x P hunt y p h
    · intro hyx
      rw [hyx] at h
      exact Rooted_of_unt_self x P hunt x p h rfl

/-- Composition of the entry characterizations across two state changes
that preserve representatives. -/
theorem char_trans (A B C : List (ℕ × ℕ))
    (hab : ∀ y p, dictLookup B y = some p →
      dictLookup A y = some p ∨ p = y ∨ Rooted A y p)
    (hroots : ∀ y s, Rooted B y s ↔ Rooted A y s)
    (hbc : ∀ y p, dictLookup C y = some p →
      dictLookup B y = some p ∨ p = y ∨ Rooted B y p) :
    ∀ y p, dictLookup C y = some p →
      dictLookup A y = some p ∨ p = y ∨ Rooted A y p := by
  intro y p hyp
  rcases hbc y p hyp with h | h | h
  · exact hab y p h
  · exact Or.inr (Or.inl h)
  · exact Or.inr (Or.inr ((hroots y p).mp h))

/-- Full specification of `union`: the result is well-formed, `x` and `y`
share a representative, and every entry is an old entry, a self-loop, a
compression edge, or the one link between the two old roots. -/
theorem union_spec (P R : List (ℕ × ℕ)) (hwf : WFuf P R) (a b : ℕ) :
    ∃ P4 R4, UnionFind.union ⟨P, R⟩ a b = ⟨P4, R4⟩ ∧ WFuf P4 R4 ∧
      (∃ r, Rooted P4 a r ∧ Rooted P4 b r) ∧
      (∀ y q, dictLookup P4 y = some q →
        dictLookup P y = some q ∨ q = y ∨ Rooted P y q ∨
        (∃ ra rb, Rooted P a ra ∧ Rooted P b rb ∧ ra ≠ rb ∧
          ((y = ra ∧ q = rb) ∨ (y = rb ∧ q = ra)))) := by
  obtain ⟨ra, P2, R2, heqa, hrootaP, hwf2, hrank2, hroots2, hkeys2, hmema2,
    hchar2⟩ := find_spec P R hwf a
  obtain ⟨rb, P3, R3, heqb, hrootb2, hwf3, hrank3, hroots3, hkeys3, hmemb3,
    hchar3⟩ := find_spec P2 R2 hwf2 b
  have hrootbP : Rooted P b rb := (hroots2 b rb).mp hrootb2
  have hroota3 : Rooted P3 a ra := (hroots3 a ra).mpr ((hroots2 a ra).mpr hrootaP)
  have hrootb3 : Rooted P3 b rb := (hroots3 b rb).mpr hrootb2
  have hralk := Rooted_lookup_root P3 a ra hroota3
  have hrblk := Rooted_lookup_root P3 b rb hrootb3
  have hchar13 : ∀ y q, dictLookup P3 y = some q →
      dictLookup P y = some q ∨ q = y ∨ Rooted P y q :=
    char_trans P P2 P3 hchar2 hroots2 hchar3
  have hroots13 : ∀ y s, Rooted P3 y s ↔ Rooted P y s := by
    intro y s
    rw [hroots3, hroots2]
  have hmema3 : dictMem P3 a = true := by
    apply hkeys3
    exact hmema2
  have hmemra3 : dictMem P3 ra = true :=
    Rooted_keys P3 R3 hwf3 a ra hroota3 hmema3
  have hmemrb3 : dictMem P3 rb = true :=
    Rooted_keys P3 R3 hwf3 b rb hrootb3 hmemb3
  rw [UnionFind.union]
  simp only [heqa, heqb]
  by_cases hrarb : ra = rb
  · rw [if_pos hrarb]
    refine ⟨P3, R3, rfl, hwf3, ⟨rb, ?_, hrootb3⟩, ?_⟩
    · rw [← hrarb]
      exact hroota3
    · intro y q hyq
      rcases hchar13 y q hyq with h | h | h
      · exact Or.inl h
      · exact Or.inr (Or.inl h)
      · exact Or.inr (Or.inr (Or.inl h))
  · rw [if_neg hrarb]
    by_cases hrk : UnionFind.rankOf R3 ra < UnionFind.rankOf R3 rb
    · rw [if_pos hrk]
      refine ⟨dictInsert P3 ra rb, R3, rfl, ?_, ?_, ?_⟩
      · refine ⟨dictInsert_keys_nodup P3 ra rb hwf3.1, hwf3.2.1, ?_, ?_, ?_⟩
        · intro y q hyq
          by_cases hy : y = ra
          · rw [hy, dictLookup_dictInsert_self] at hyq
            have h : rb = q := Option.some.inj hyq
            rw [← h]
            exact (dictMem_dictInsert P3 ra rb rb).mpr (Or.inr hmemrb3)
          · rw [dictLookup_dictInsert_ne P3 ra y rb (fun hc => hy hc.symm)] at hyq
            exact (dictMem_dictInsert P3 ra rb q).mpr
              (Or.inr (hwf3.2.2.1 y q hyq))
        · intro y q hyq hqy
          by_cases hy : y = ra
          · rw [hy, dictLookup_dictInsert_self] at hyq
            have h : rb = q := Option.some.inj hyq
            rw [← h, hy]
            exact hrk
          · rw [dictLookup_dictInsert_ne P3 ra y rb (fun hc => hy hc.symm)] at hyq
            exact hwf3.2.2.2.1 y q hyq hqy
        · intro y hy
          have hyne : ¬ (y = ra ∨ dictMem P3 y = true) := by
            intro hc
            have := (dictMem_dictInsert P3 ra rb y).mpr hc
            rw [this] at hy
            cases hy
          push_neg at hyne
          apply hwf3.2.2.2.2 y
          cases hmy : dictMem P3 y
          · rfl
          · exact absurd hmy hyne.2
      · refine ⟨rb, ?_, ?_⟩
        · rw [Rooted_link P3 rb ra hrblk hralk (fun hc => hrarb hc.symm)]
          exact Or.inl ⟨hroota3, rfl⟩
        · rw [Rooted_link P3 rb ra hrblk hralk (fun hc => hrarb hc.symm)]
          exact Or.inr ⟨hrootb3, fun hc => hrarb hc.symm⟩
      · intro y q hyq
        by_cases hy : y = ra
        · rw [hy, dictLookup_dictInsert_self] at hyq
          have h : rb = q := Option.some.inj hyq
          exact Or.inr (Or.inr (Or.inr ⟨ra, rb, hrootaP, hrootbP, hrarb,
            Or.inl ⟨hy, h.symm⟩⟩))
        · rw [dictLookup_dictInsert_ne P3 ra y rb (fun hc => hy hc.symm)] at hyq
          rcases hchar13 y q hyq with h | h | h
          · exact Or.inl h
          · exact Or.inr (Or.inl h)
          · exact Or.inr (Or.inr (Or.inl h))
    · rw [if_neg hrk]
      have hmono : ∀ y, dictMem P3 y = true →
          dictMem (dictInsert P3 rb ra) y = true := by
        intro y hy
        exact (dictMem_dictInsert P3 rb ra y).mpr (Or.inr hy)
      have hclosed : ∀ y q, dictLookup (dictInsert P3 rb ra) y = some q →
          dictMem (dictInsert P3 rb ra) q = true := by
        intro y q hyq
        by_cases hy : y = rb
        · rw [hy, dictLookup_dictInsert_self] at hyq
          have h : ra = q := Option.some.inj hyq
          rw [← h]
          exact hmono ra hmemra3
        · rw [dictLookup_dictInsert_ne P3 rb y ra (fun hc => hy hc.symm)] at hyq
          exact hmono q (hwf3.2.2.1 y q hyq)
      have hrootsL : ∀ y s, Rooted (dictInsert P3 rb ra) y s ↔
          (Rooted P3 y rb ∧ s = ra) ∨ (Rooted P3 y s ∧ s ≠ rb) :=
        Rooted_link P3 ra rb hralk hrblk hrarb
      have hcommon : ∃ r, Rooted (dictInsert P3 rb ra) a r ∧
          Rooted (dictInsert P3 rb ra) b r := by
        refine ⟨ra, ?_, ?_⟩
        · rw [hrootsL]
          exact Or.inr ⟨hroota3, hrarb⟩
        · rw [hrootsL]
          exact Or.inl ⟨hrootb3, rfl⟩
      have hcharL : ∀ y q, dictLookup (dictInsert P3 rb ra) y = some q →
          dictLookup P y = some q ∨ q = y ∨ Rooted P y q ∨
          (∃ ra2 rb2, Rooted P a ra2 ∧ Rooted P b rb2 ∧ ra2 ≠ rb2 ∧
            ((y = ra2 ∧ q = rb2) ∨ (y = rb2 ∧ q = ra2))) := by
        intro y q hyq
        by_cases hy : y = rb
        · rw [hy, dictLookup_dictInsert_self] at hyq
          have h : ra = q := Option.some.inj hyq
          exact Or.inr (Or.inr (Or.inr ⟨ra, rb, hrootaP, hrootbP, hrarb,
            Or.inr ⟨hy, h.symm⟩⟩))
        · rw [dictLookup_dictInsert_ne P3 rb y ra (fun hc => hy hc.symm)] at hyq
          rcases hchar13 y q hyq with h | h | h
          · exact Or.inl h
          · exact Or.inr (Or.inl h)
          · exact Or.inr (Or.inr (Or.inl h))
      have hranknotlt : UnionFind.rankOf R3 rb ≤ UnionFind.rankOf R3 ra := by
        omega
      by_cases hrkeq : UnionFind.rankOf R3 ra = UnionFind.rankOf R3 rb
      · rw [if_pos hrkeq]
        refine ⟨dictInsert P3 rb ra,
          dictInsert R3 ra (UnionFind.rankOf R3 ra + 1), rfl, ?_, hcommon,
          hcharL⟩
        refine ⟨dictInsert_keys_nodup P3 rb ra hwf3.1,
          dictInsert_keys_nodup R3 ra _ hwf3.2.1, hclosed, ?_, ?_⟩
        · intro y q hyq hqy
          rw [rankOf_dictInsert, rankOf_dictInsert]
          by_cases hy : y = rb
          · rw [hy, dictLookup_dictInsert_self] at hyq
            have h : ra = q := Option.some.inj hyq
            rw [if_pos h.symm,
              if_neg (show ¬ y = ra from by
                rw [hy]; exact fun hc => hrarb hc.symm)]
            rw [hy]
            omega
          · rw [dictLookup_dictInsert_ne P3 rb y ra (fun hc => hy hc.symm)] at hyq
            have hyra : ¬ y = ra := by
              intro hc
              rw [hc] at hyq
              rcases hralk with hl | hl
              · rw [hl] at hyq
                cases hyq
              · rw [hl] at hyq
                have h2 : ra = q := Option.some.inj hyq
                rw [hc] at hqy
                exact hqy h2.symm
            have hbase := hwf3.2.2.2.1 y q hyq hqy
            rw [if_neg hyra]
            by_cases hq : q = ra
            · rw [if_pos hq]
              rw [hq] at hbase
              omega
            · rw [if_neg hq]
              exact hbase
        · intro y hy
          have hymem : dictMem P3 y = false ∧ y ≠ rb := by
            constructor
            · cases hmy : dictMem P3 y
              · rfl
              · exact absurd ((dictMem_dictInsert P3 rb ra y).mpr (Or.inr hmy))
                  (by rw [hy]; intro hc; cases hc)
            · intro hc
              have := (dictMem_dictInsert P3 rb ra y).mpr (Or.inl hc)
              rw [this] at hy
              cases hy
          have hyra : y ≠ ra := by
            intro hc
            rw [hc] at hymem
            exact absurd hmemra3 (by rw [hymem.1]; intro h2; cases h2)
          rw [dictLookup_dictInsert_ne R3 ra y _ (fun hc => hyra hc.symm)]
          exact hwf3.2.2.2.2 y hymem.1
      · rw [if_neg hrkeq]
        refine ⟨dictInsert P3 rb ra, R3, rfl, ?_, hcommon, hcharL⟩
        refine ⟨dictInsert_keys_nodup P3 rb ra hwf3.1, hwf3.2.1, hclosed, ?_, ?_⟩
        · intro y q hyq hqy
          by_cases hy : y = rb
          · rw [hy, dictLookup_dictInsert_self] at hyq
            have h : ra = q := Option.some.inj hyq
            rw [← h, hy]
            omega
          · rw [dictLookup_dictInsert_ne P3 rb y ra (fun hc => hy hc.symm)] at hyq
            exact hwf3.2.2.2.1 y q hyq hqy
        · intro y hy
          have hymem : dictMem P3 y = false := by
            cases hmy : dictMem P3 y
            · rfl
            · exact absurd ((dictMem_dictInsert P3 rb ra y).mpr (Or.inr hmy))
                (by rw [hy]; intro hc; cases hc)
          exact hwf3.2.2.2.2 y hymem

/-- `x` is not an argument of this operation if it is a `union`. -/
def avoidsB (x : ℕ) : UFOp → Bool
  | .union a b => decide (x ≠ a) && decide (x ≠ b)
  | .find _ => true

theorem Unt_union_char (x a b : ℕ) (P P4 : List (ℕ × ℕ)) (hunt : Unt x P)
    (hax : x ≠ a) (hbx : x ≠ b)
    (hchar : ∀ y q, dictLookup P4 y = some q →
      dictLookup P y = some q ∨ q = y ∨ Rooted P y q ∨
      (∃ ra rb, Rooted P a ra ∧ Rooted P b rb ∧ ra ≠ rb ∧
        ((y = ra ∧ q = rb) ∨ (y = rb ∧ q = ra)))) :
    Unt x P4 := by
  intro y q hyq
  rcases hchar y q hyq with h | h | h | ⟨ra, rb, hra, hrb, hne, hcase⟩
  · exact hunt y q h
  · constructor
    · intro hqx
      rw [← h, hqx]
    · intro hyx
      rw [h, hyx]
  · exact ⟨Rooted_ne_of_unt x P hunt y q h,
      fun hyx => Rooted_of_unt_self x P hunt y q h hyx⟩
  · have hrax : ra ≠ x := by
      intro hc
      exact hax (Rooted_ne_of_unt x P hunt a ra hra hc).symm
    have hrbx : rb ≠ x := by
      intro hc
      exact hbx (Rooted_ne_of_unt x P hunt b rb hrb hc).symm
    rcases hcase with ⟨hy, hq⟩ | ⟨hy, hq⟩
    · constructor
      · intro hqx
        rw [hq] at hqx
        exact absurd hqx hrbx
      · intro hyx
        rw [hy] at hyx
        exact absurd hyx hrax
    · constructor
      · intro hqx
        rw [hq] at hqx
        exact absurd hqx hrax
      · intro hyx
        rw [hy] at hyx
        exact absurd hyx hrbx

theorem WFuf_empty : WFuf [] [] := by
  refine ⟨List.nodup_nil, List.nodup_nil, ?_, ?_, ?_⟩
  · intro x p h
    cases h
  · intro x p h
    cases h
  · intro y _
    rfl

theorem Unt_empty (x : ℕ) : Unt x [] := by
  intro y p h
  cases h

/-- Invariant of folding any operation sequence over a well-formed state:
well-formedness is preserved and so is `Unt x` whenever `x` is not an
argument of any `union` in the sequence. -/
theorem foldl_inv (ops : List UFOp) :
    ∀ P R, WFuf P R →
    ∃ P2 R2, List.foldl applyOp ⟨P, R⟩ ops = ⟨P2, R2⟩ ∧ WFuf P2 R2 ∧
      ∀ x, Unt x P → (∀ op ∈ ops, avoidsB x op = true) → Unt x P2 := by
  induction ops with
  | nil =>
      intro P R hwf
      exact ⟨P, R, rfl, hwf, fun x hu _ => hu⟩
  | cons op ops ih =>
      intro P R hwf
      cases op with
      | find c =>
          obtain ⟨r, P1, R1, heq, _, hwf1, _, _, _, _, hchar⟩ :=
            find_spec P R hwf c
          obtain ⟨P2, R2, heq2, hwf2, hunt2⟩ := ih P1 R1 hwf1
          refine ⟨P2, R2, ?_, hwf2, ?_⟩
          · rw [List.foldl_cons]
            have hstep : applyOp ⟨P, R⟩ (UFOp.find c) = ⟨P1, R1⟩ := by
              simp only [applyOp, heq]
            rw [hstep, heq2]
          · intro x hu hav
            refine hunt2 x (Unt_of_char x P P1 hu hchar) ?_
            intro op2 hop2
            exact hav op2 (List.mem_cons_of_mem _ hop2)
      | union a b =>
          obtain ⟨P1, R1, heq, hwf1, _, hchar⟩ := union_spec P R hwf a b
          obtain ⟨P2, R2, heq2, hwf2, hunt2⟩ := ih P1 R1 hwf1
          refine ⟨P2, R2, ?_, hwf2, ?_⟩
          · rw [List.foldl_cons]
            have hstep : applyOp ⟨P, R⟩ (UFOp.union a b) = ⟨P1, R1⟩ := by
              simp only [applyOp, heq]
            rw [hstep, heq2]
          · intro x hu hav
            have hav0 := hav (UFOp.union a b) (List.mem_cons_self _ _)
            simp only [avoidsB, Bool.and_eq_true, decide_eq_true_eq] at hav0
            refine hunt2 x (Unt_union_char x a b P P1 hu hav0.1 hav0.2 hchar) ?_
            intro op2 hop2
            exact hav op2 (List.mem_cons_of_mem _ hop2)

/-- Any operation sequence run from a fresh structure yields a well-formed
state in which every element not named by a `union` is untouched. -/
theorem runOps_spec (ops : List UFOp) :
    ∃ P R, runOps ops = ⟨P, R⟩ ∧ WFuf P R ∧
      ∀ x, (∀ op ∈ ops, avoidsB x op = true) → Unt x P := by
  obtain ⟨P, R, heq, hwf, hunt⟩ := foldl_inv ops [] [] WFuf_empty
  exact ⟨P, R, heq, hwf, fun x hav => hunt x (Unt_empty x) hav⟩

/-- C5: for every sequence of `union`/`find` operations run from a fresh
`UnionFind`, immediately after a final `union(a, b)` the two sequential
calls `find(a)` and `find(b)` return the same representative, and any
element `x` that was never an argument of a `union` in the sequence
satisfies `find(x) == x`. -/
theorem unionFind_union_find_invariant (ops : List UFOp) (a b x : ℕ)
    (hx : ∀ op ∈ ops, avoidsB x op = true) :
    ((runOps (ops ++ [UFOp.union a b])).find a).1 =
      ((((runOps (ops ++ [UFOp.union a b])).find a).2).find b).1 ∧
    ((runOps ops).find x).1 = x := by
  obtain ⟨P, R, heq, hwf, hunt⟩ := runOps_spec ops
  constructor
  · have happ : runOps (ops ++ [UFOp.union a b]) =
        UnionFind.union (runOps ops) a b := by
      rw [runOps, List.foldl_append]
      rfl
    obtain ⟨P4, R4, hequ, hwf4, ⟨r, hra, hrb⟩, _⟩ := union_spec P R hwf a b
    obtain ⟨ra2, P5, R5, heqfa, hroota, hwf5, _, hroots5, _, _, _⟩ :=
      find_spec P4 R4 hwf4 a
    obtain ⟨rb2, P6, R6, heqfb, hrootb, _, _, _, _, _, _⟩ :=
      find_spec P5 R5 hwf5 b
    rw [happ, heq, hequ, heqfa]
    show ra2 = (UnionFind.find ⟨P5, R5⟩ b).1
    rw [heqfb]
    show ra2 = rb2
    have h1 : ra2 = r := Rooted_func P4 a ra2 r hroota hra
    have h2 : rb2 = r :=
      Rooted_func P4 b rb2 r ((hroots5 b rb2).mp hrootb) hrb
    rw [h1, h2]
  · obtain ⟨r, P2, R2, heqf, hroot, _, _, _, _, _, _⟩ := find_spec P R hwf x
    rw [heq, heqf]
    show r = x
    exact Rooted_of_unt_self x P (hunt x hx) x r hroot rfl

/- ### Kruskal's algorithm (`kruskal_mst`)

`kruskal_mst` uses a local union-find over the dictionaries `parent` and
`rank`, with `.get` defaults: an element absent from `parent` is its own
root, and absent ranks read as `0`.  The final loop walks the
weight-sorted deduplicated edge list and keeps an edge exactly when the
two `find` calls return different roots.  The edge list comes from a
Python `set`, whose iteration order (and hence, with equal weights, the
sorted order) is unspecified, so everything below is proved for an
arbitrary processing order. -/

/-- The local `find` of `kruskal_mst`: `parent.get(u, u) != u` guards the
recursion, the recursive result is written back (path compression) and
returned.  Explicit fuel for the parent-chain length. -/
def kfindAux : ℕ → List (ℕ × ℕ) → ℕ → ℕ × List (ℕ × ℕ)
  | 0, P, u => (u, P)
  | fuel + 1, P, u =>
      match dictLookup P u with
      | none => (u, P)
      | some p =>
          if p = u then (u, P)
          else
            let r := kfindAux fuel P p
            (r.1, dictInsert r.2 u r.1)

/-- The local `find` at its canonical fuel. -/
def kfind (P : List (ℕ × ℕ)) (u : ℕ) : ℕ × List (ℕ × ℕ) :=
  kfindAux (P.length + 1) P u

/-- The local `union` of `kruskal_mst` (union by rank, `rank.get(_, 0)`
defaults). -/
def kunion (P R : List (ℕ × ℕ)) (u v : ℕ) :
    List (ℕ × ℕ) × List (ℕ × ℕ) :=
  match kfind P u with
  | (ru, P1) =>
      match kfind P1 v with
      | (rv, P2) =>
          if ru = rv then (P2, R)
          else if UnionFind.rankOf R ru < UnionFind.rankOf R rv then
            (dictInsert P2 ru rv, R)
          else
            if UnionFind.rankOf R ru = UnionFind.rankOf R rv then
              (dictInsert P2 rv ru,
                dictInsert R ru (UnionFind.rankOf R ru + 1))
            else (dictInsert P2 rv ru, R)

/-- The selection loop of `kruskal_mst`: for each edge `(u, v, w)` of the
sorted list, keep it iff the two sequential `find` calls disagree, then
`union`.  Returns the final `parent`/`rank` state and `mst_edges`. -/
def kruskalLoop {W : Type} :
    List (ℕ × ℕ) → List (ℕ × ℕ) → List (ℕ × ℕ × W) →
      List (ℕ × ℕ) × List (ℕ × ℕ) × List (ℕ × ℕ × W)
  | P, R, [] => (P, R, [])
  | P, R, (u, v, w) :: es =>
      match kfind P u with
      | (ru, P1) =>
          match kfind P1 v with
          | (rv, P2) =>
              if ru ≠ rv then
                match kunion P2 R u v with
                | (P3, R3) =>
                    match kruskalLoop P3 R3 es with
                    | (P4, R4, out) => (P4, R4, (u, v, w) :: out)
              else kruskalLoop P2 R es

/-- Pure root chase (no compression), with fuel: the representative of
`x` under `parent`, where an absent key is its own root. -/
def rootFn (P : List (ℕ × ℕ)) : ℕ → ℕ → ℕ
  | 0, x => x
  | fuel + 1, x =>
      match dictLookup P x with
      | none => x
      | some p => if p = x then x else rootFn P fuel p

def rootOf (P : List (ℕ × ℕ)) (x : ℕ) : ℕ := rootFn P (P.length + 1) x

/-- Well-formedness of the local union-find state: unique dictionary keys
and strictly increasing rank along parent edges (which rules out cycles,
self-loops included). -/
def WFk (P R : List (ℕ × ℕ)) : Prop :=
  (P.map Prod.fst).Nodup ∧ (R.map Prod.fst).Nodup ∧
  (∀ x p, dictLookup P x = some p →
    UnionFind.rankOf R x < UnionFind.rankOf R p)

theorem WFk_ne (P R : List (ℕ × ℕ)) (hwf : WFk P R) (x p : ℕ)
    (h : dictLookup P x = some p) : p ≠ x := by
  intro hc
  have := hwf.2.2 x p h
  rw [hc] at this
  omega

theorem kRooted_rank_ge (P R : List (ℕ × ℕ)) (hwf : WFk P R) (x r : ℕ)
    (h : Rooted P x r) :
    UnionFind.rankOf R x ≤ UnionFind.rankOf R r := by
  induction h with
  | stop y hy => exact le_refl _
  | step y p r hp hne hrec ih =>
      have := hwf.2.2 y p hp
      omega

theorem rootFn_Rooted (P R : List (ℕ × ℕ)) (hwf : WFk P R) :
    ∀ fuel x, cntUF P R x < fuel → Rooted P x (rootFn P fuel x) := by
  intro fuel
  induction fuel with
  | zero => intro x h; omega
  | succ fuel ih =>
      intro x hcnt
      cases hx : dictLookup P x with
      | none =>
          simp only [rootFn, hx]
          exact Rooted.stop x (Or.inl hx)
      | some p =>
          by_cases hpx : p = x
          · simp only [rootFn, hx, if_pos hpx]
            exact Rooted.stop x (Or.inr (hpx ▸ hx))
          · have hrk := hwf.2.2 x p hx
            have hcp : cntUF P R p < cntUF P R x := cntUF_lt P R x p hx hpx hrk
            simp only [rootFn, hx, if_neg hpx]
            exact Rooted.step x p _ hx hpx (ih p (by omega))

theorem rootOf_Rooted (P R : List (ℕ × ℕ)) (hwf : WFk P R) (x : ℕ) :
    Rooted P x (rootOf P x) :=
  rootFn_Rooted P R hwf (P.length + 1) x (by have := cntUF_le P R x; omega)

theorem rootOf_eq_of_Rooted (P R : List (ℕ × ℕ)) (hwf : WFk P R) (x r : ℕ)
    (h : Rooted P x r) : rootOf P x = r :=
  Rooted_func P x (rootOf P x) r (rootOf_Rooted P R hwf x) h

theorem rootOf_congr (P P2 R R2 : List (ℕ × ℕ)) (hwf : WFk P R)
    (hwf2 : WFk P2 R2)
    (hiff : ∀ y s, Rooted P2 y s ↔ Rooted P y s) (y : ℕ) :
    rootOf P2 y = rootOf P y :=
  rootOf_eq_of_Rooted P2 R2 hwf2 y (rootOf P y)
    ((hiff y (rootOf P y)).mpr (rootOf_Rooted P R hwf y))

/-- Specification of the fueled local `find`: it returns the
representative, preserves well-formedness (`rank` is untouched) and
changes no representative. -/
theorem kfindAux_spec (P R : List (ℕ × ℕ)) (hwf : WFk P R) :
    ∀ fuel x, cntUF P R x < fuel →
      ∃ r P2, kfindAux fuel P x = (r, P2) ∧ Rooted P x r ∧ WFk P2 R ∧
        (∀ y s, Rooted P2 y s ↔ Rooted P y s) := by
  intro fuel
  induction fuel with
  | zero => intro x h; omega
  | succ fuel ih =>
      intro x hcnt
      cases hx : dictLookup P x with
      | none =>
          refine ⟨x, P, ?_, Rooted.stop x (Or.inl hx), hwf,
            fun y s => Iff.rfl⟩
          simp only [kfindAux, hx]
      | some p =>
          by_cases hpx : p = x
          · refine ⟨x, P, ?_, Rooted.stop x (Or.inr (hpx ▸ hx)), hwf,
              fun y s => Iff.rfl⟩
            simp only [kfindAux, hx, if_pos hpx]
          · have hrk := hwf.2.2 x p hx
            have hcp : cntUF P R p < cntUF P R x := cntUF_lt P R x p hx hpx hrk
            obtain ⟨r, P2, heq, hroot, hwf2, hroots⟩ := ih p (by omega)
            have hrootx : Rooted P x r := Rooted.step x p r hx hpx hroot
            have hrootx2 : Rooted P2 x r := (hroots x r).mpr hrootx
            refine ⟨r, dictInsert P2 x r, ?_, hrootx, ?_, ?_⟩
            · simp only [kfindAux, hx, if_neg hpx, heq]
            · refine ⟨dictInsert_keys_nodup P2 x r hwf2.1, hwf2.2.1, ?_⟩
              intro y q hyq
              by_cases hy : y = x
              · rw [hy, dictLookup_dictInsert_self] at hyq
                have hrq : r = q := Option.some.inj hyq
                rw [hy, ← hrq]
                have h1 := kRooted_rank_ge P R hwf p r hroot
                omega
              · rw [dictLookup_dictInsert_ne P2 x y r
                  (fun hc => hy hc.symm)] at hyq
                exact hwf2.2.2 y q hyq
            · intro y s
              rw [Rooted_compress P2 x r hrootx2 y s]
              exact hroots y s

/-- The local `find` at canonical fuel: same specification. -/
theorem kfind_spec (P R : List (ℕ × ℕ)) (hwf : WFk P R) (x : ℕ) :
    ∃ r P2, kfind P x = (r, P2) ∧ Rooted P x r ∧ WFk P2 R ∧
      (∀ y s, Rooted P2 y s ↔ Rooted P y s) :=
  kfindAux_spec P R hwf (P.length + 1) x (by have := cntUF_le P R x; omega)

/-- The local `union` when the two roots coincide: the state keeps its
representatives (only compression happened). -/
theorem kunion_skip (P R : List (ℕ × ℕ)) (hwf : WFk P R) (u v ru : ℕ)
    (hru : Rooted P u ru) (hrv : Rooted P v ru) :
    ∃ P4, kunion P R u v = (P4, R) ∧ WFk P4 R ∧
      (∀ y s, Rooted P4 y s ↔ Rooted P y s) := by
  obtain ⟨ru2, Pa, heqa, hroota, hwfa, hiffa⟩ := kfind_spec P R hwf u
  obtain ⟨rv2, Pb, heqb, hrootb, hwfb, hiffb⟩ := kfind_spec Pa R hwfa v
  have hru2 : ru2 = ru := Rooted_func P u ru2 ru hroota hru
  have hrv2 : rv2 = ru :=
    Rooted_func P v rv2 ru ((hiffa v rv2).mp hrootb) hrv
  refine ⟨Pb, ?_, hwfb, ?_⟩
  · simp only [kunion, heqa, heqb, hru2, hrv2]
    simp
  · intro y s
    rw [hiffb y s, hiffa y s]

/-- The local `union` when the roots differ: the result links one old
root under the other, merging exactly the two classes. -/
theorem kunion_spec (P R : List (ℕ × ℕ)) (hwf : WFk P R) (u v ru rv : ℕ)
    (hru : Rooted P u ru) (hrv : Rooted P v rv) (hne : ru ≠ rv) :
    ∃ P4 R4 r0 r1, kunion P R u v = (P4, R4) ∧ WFk P4 R4 ∧ r0 ≠ r1 ∧
      ((r0 = ru ∧ r1 = rv) ∨ (r0 = rv ∧ r1 = ru)) ∧
      ∀ y s, Rooted P4 y s ↔
        ((Rooted P y r1 ∧ s = r0) ∨ (Rooted P y s ∧ s ≠ r1)) := by
  obtain ⟨ru2, Pa, heqa, hroota, hwfa, hiffa⟩ := kfind_spec P R hwf u
  obtain ⟨rv2, Pb, heqb, hrootb, hwfb, hiffb⟩ := kfind_spec Pa R hwfa v
  have hru2 : ru2 = ru := Rooted_func P u ru2 ru hroota hru
  have hrv2 : rv2 = rv :=
    Rooted_func P v rv2 rv ((hiffa v rv2).mp hrootb) hrv
  have hiffPb : ∀ y s, Rooted Pb y s ↔ Rooted P y s := by
    intro y s
    rw [hiffb y s, hiffa y s]
  have hrootub : Rooted Pb u ru := (hiffPb u ru).mpr hru
  have hrootvb : Rooted Pb v rv := (hiffPb v rv).mpr hrv
  have hrulk : dictLookup Pb ru = none ∨ dictLookup Pb ru = some ru :=
    Rooted_lookup_root Pb u ru hrootub
  have hrvlk : dictLookup Pb rv = none ∨ dictLookup Pb rv = some rv :=
    Rooted_lookup_root Pb v rv hrootvb
  have hrunone : dictLookup Pb ru = none := by
    rcases hrulk with h | h
    · exact h
    · exact absurd (WFk_ne Pb R hwfb ru ru h) (fun hc => hc rfl)
  have hrvnone : dictLookup Pb rv = none := by
    rcases hrvlk with h | h
    · exact h
    · exact absurd (WFk_ne Pb R hwfb rv rv h) (fun hc => hc rfl)
  have hlinkchar : ∀ (rA rB : ℕ), rA ≠ rB → rA = ru ∨ rA = rv →
      rB = ru ∨ rB = rv →
      ∀ y s, Rooted (dictInsert Pb rB rA) y s ↔
        ((Rooted P y rB ∧ s = rA) ∨ (Rooted P y s ∧ s ≠ rB)) := by
    intro rA rB hAB hA hB y s
    have hAlk : dictLookup Pb rA = none ∨ dictLookup Pb rA = some rA := by
      rcases hA with h | h
      · rw [h]; exact Or.inl hrunone
      · rw [h]; exact Or.inl hrvnone
    have hBlk : dictLookup Pb rB = none ∨ dictLookup Pb rB = some rB := by
      rcases hB with h | h
      · rw [h]; exact Or.inl hrunone
      · rw [h]; exact Or.inl hrvnone
    rw [Rooted_link Pb rA rB hAlk hBlk hAB y s]
    rw [hiffPb y rB, hiffPb y s]
  simp only [kunion, heqa, heqb, hru2, hrv2, if_neg hne]
  by_cases hrk : UnionFind.rankOf R ru < UnionFind.rankOf R rv
  · rw [if_pos hrk]
    refine ⟨dictInsert Pb ru rv, R, rv, ru, rfl, ?_,
      fun hc => hne hc.symm, Or.inr ⟨rfl, rfl⟩,
      hlinkchar rv ru (fun hc => hne hc.symm) (Or.inr rfl) (Or.inl rfl)⟩
    refine ⟨dictInsert_keys_nodup Pb ru rv hwfb.1, hwfb.2.1, ?_⟩
    intro y q hyq
    by_cases hy : y = ru
    · rw [hy, dictLookup_dictInsert_self] at hyq
      have h : rv = q := Option.some.inj hyq
      rw [hy, ← h]
      exact hrk
    · rw [dictLookup_dictInsert_ne Pb ru y rv (fun hc => hy hc.symm)] at hyq
      exact hwfb.2.2 y q hyq
  · rw [if_neg hrk]
    have hchar := hlinkchar ru rv hne (Or.inl rfl) (Or.inr rfl)
    by_cases hrkeq : UnionFind.rankOf R ru = UnionFind.rankOf R rv
    · rw [if_pos hrkeq]
      refine ⟨dictInsert Pb rv ru,
        dictInsert R ru (UnionFind.rankOf R ru + 1), ru, rv, rfl, ?_, hne,
        Or.inl ⟨rfl, rfl⟩, hchar⟩
      refine ⟨dictInsert_keys_nodup Pb rv ru hwfb.1,
        dictInsert_keys_nodup R ru _ hwfb.2.1, ?_⟩
      intro y q hyq
      rw [rankOf_dictInsert, rankOf_dictInsert]
      by_cases hy : y = rv
      · rw [hy, dictLookup_dictInsert_self] at hyq
        have h : ru = q := Option.some.inj hyq
        rw [if_neg (show ¬ y = ru from by
          rw [hy]; exact fun hc => hne hc.symm), if_pos h.symm, hy]
        omega
      · rw [dictLookup_dictInsert_ne Pb rv y ru (fun hc => hy hc.symm)] at hyq
        have hyru : ¬ y = ru := by
          intro hc
          rw [hc, hrunone] at hyq
          cases hyq
        have hbase := hwfb.2.2 y q hyq
        rw [if_neg hyru]
        by_cases hq : q = ru
        · rw [if_pos hq]
          rw [hq] at hbase
          omega
        · rw [if_neg hq]
          exact hbase
    · rw [if_neg hrkeq]
      refine ⟨dictInsert Pb rv ru, R, ru, rv, rfl, ?_, hne,
        Or.inl ⟨rfl, rfl⟩, hchar⟩
      refine ⟨dictInsert_keys_nodup Pb rv ru hwfb.1, hwfb.2.1, ?_⟩
      intro y q hyq
      by_cases hy : y = rv
      · rw [hy, dictLookup_dictInsert_self] at hyq
        have h : ru = q := Option.some.inj hyq
        rw [hy, ← h]
        omega
      · rw [dictLookup_dictInsert_ne Pb rv y ru (fun hc => hy hc.symm)] at hyq
        exact hwfb.2.2 y q hyq

/-- After linking, the root function is the old one with `r1` renamed to
`r0`. -/
theorem rootOf_link (P P4 R R4 : List (ℕ × ℕ)) (r0 r1 : ℕ)
    (hwf : WFk P R) (hwf4 : WFk P4 R4) (hne : r0 ≠ r1)
    (hchar : ∀ y s, Rooted P4 y s ↔
      ((Rooted P y r1 ∧ s = r0) ∨ (Rooted P y s ∧ s ≠ r1))) (y : ℕ) :
    rootOf P4 y = if rootOf P y = r1 then r0 else rootOf P y := by
  by_cases h : rootOf P y = r1
  · rw [if_pos h]
    apply rootOf_eq_of_Rooted P4 R4 hwf4
    rw [hchar]
    exact Or.inl ⟨h ▸ rootOf_Rooted P R hwf y, rfl⟩
  · rw [if_neg h]
    apply rootOf_eq_of_Rooted P4 R4 hwf4
    rw [hchar]
    exact Or.inr ⟨rootOf_Rooted P R hwf y, h⟩

theorem collapse_image_eq (t : Finset ℕ) (r0 r1 : ℕ) (h0 : r0 ∈ t)
    (hne : r0 ≠ r1) :
    t.image (fun r => if r = r1 then r0 else r) = t.erase r1 := by
  ext a
  constructor
  · intro ha
    rw [Finset.mem_image] at ha
    obtain ⟨b, hb, hba⟩ := ha
    by_cases hb1 : b = r1
    · rw [if_pos hb1] at hba
      rw [← hba]
      exact Finset.mem_erase.mpr ⟨hne, h0⟩
    · rw [if_neg hb1] at hba
      rw [← hba]
      exact Finset.mem_erase.mpr ⟨hb1, hb⟩
  · intro ha
    rw [Finset.mem_erase] at ha
    rw [Finset.mem_image]
    exact ⟨a, ha.2, if_neg ha.1⟩

theorem collapse_card_eq (t : Finset ℕ) (r0 r1 : ℕ) (h0 : r0 ∈ t)
    (h1 : r1 ∈ t) (hne : r0 ≠ r1) :
    (t.image (fun r => if r = r1 then r0 else r)).card = t.card - 1 := by
  rw [collapse_image_eq t r0 r1 h0 hne]
  exact Finset.card_erase_of_mem h1

theorem collapse_card_ge (t : Finset ℕ) (r0 r1 : ℕ) :
    t.card ≤ (t.image (fun r => if r = r1 then r0 else r)).card + 1 := by
  have hsub : t.erase r1 ⊆ t.image (fun r => if r = r1 then r0 else r) := by
    intro a ha
    rw [Finset.mem_erase] at ha
    rw [Finset.mem_image]
    exact ⟨a, ha.2, if_neg ha.1⟩
  have h1 := Finset.card_le_card hsub
  have h2 : t.card ≤ (t.erase r1).card + 1 := by
    by_cases h : r1 ∈ t
    · rw [Finset.card_erase_of_mem h]
      have := Finset.card_pos.mpr ⟨r1, h⟩
      omega
    · rw [Finset.erase_eq_of_not_mem h]
      omega
  omega

/-- `x` and `y` are the endpoints of some edge of the list, in either
orientation. -/
def adjE {W : Type} (E : List (ℕ × ℕ × W)) (x y : ℕ) : Prop :=
  ∃ w, (x, y, w) ∈ E ∨ (y, x, w) ∈ E

/-- `x` and `y` are connected by a chain of edges of the list. -/
def connE {W : Type} (E : List (ℕ × ℕ × W)) : ℕ → ℕ → Prop :=
  Relation.ReflTransGen (adjE E)

/-- The edge list contains no cycle: every edge occurrence is a bridge
(its endpoints are disconnected once it is removed). -/
def Acyclic {W : Type} (E : List (ℕ × ℕ × W)) : Prop :=
  ∀ (s1 : List (ℕ × ℕ × W)) (u v : ℕ) (w : W) (s2 : List (ℕ × ℕ × W)),
    E = s1 ++ (u, v, w) :: s2 → ¬ connE (s1 ++ s2) u v

theorem adjE_symm {W : Type} (E : List (ℕ × ℕ × W)) :
    ∀ x y, adjE E x y → adjE E y x := by
  intro x y ⟨w, h⟩
  exact ⟨w, h.symm⟩

theorem connE_symm {W : Type} (E : List (ℕ × ℕ × W)) (x y : ℕ)
    (h : connE E x y) : connE E y x := by
  induction h with
  | refl => exact Relation.ReflTransGen.refl
  | tail hab hbc ih =>
      exact Relation.ReflTransGen.trans
        (Relation.ReflTransGen.single (adjE_symm E _ _ hbc)) ih

/-- Folding a reflexive-transitive chain through a pointwise bound. -/
theorem rtg_bind {r s : ℕ → ℕ → Prop} (hrs : ∀ a b, r a b →
    Relation.ReflTransGen s a b) (x y : ℕ)
    (h : Relation.ReflTransGen r x y) : Relation.ReflTransGen s x y := by
  induction h with
  | refl => exact Relation.ReflTransGen.refl
  | tail hab hbc ih => exact Relation.ReflTransGen.trans ih (hrs _ _ hbc)

theorem rtg_eq_or {r : ℕ → ℕ → Prop} (x y : ℕ)
    (h : Relation.ReflTransGen (fun a b => a = b ∨ r a b) x y) :
    Relation.ReflTransGen r x y := by
  refine rtg_bind ?_ x y h
  intro a b hab
  rcases hab with hab | hab
  · rw [hab]
  · exact Relation.ReflTransGen.single hab

theorem rtg_three {r : ℕ → ℕ → Prop} (a m1 m2 b : ℕ) (h1 : r a m1)
    (h2 : r m1 m2) (h3 : r m2 b) : Relation.ReflTransGen r a b :=
  Relation.ReflTransGen.trans (Relation.ReflTransGen.single h1)
    (Relation.ReflTransGen.trans (Relation.ReflTransGen.single h2)
      (Relation.ReflTransGen.single h3))

/-- Specification of the whole selection loop, for an arbitrary edge
order: final state is well-formed, classes only merge, every processed
edge ends with both endpoints in one class, any final merge is explained
by initial merges and kept edges, and each kept edge reduces the number
of classes on `range N` by exactly one. -/
theorem kruskalLoop_spec {W : Type} (N : ℕ) (es : List (ℕ × ℕ × W)) :
    ∀ P R, WFk P R → (∀ e ∈ es, e.1 < N ∧ e.2.1 < N) →
    ∃ P2 R2 out, kruskalLoop P R es = (P2, R2, out) ∧
      WFk P2 R2 ∧
      (∀ x y, rootOf P x = rootOf P y → rootOf P2 x = rootOf P2 y) ∧
      (∀ e ∈ es, rootOf P2 e.1 = rootOf P2 e.2.1) ∧
      (∀ x y, rootOf P2 x = rootOf P2 y →
        Relation.ReflTransGen
          (fun a b => rootOf P a = rootOf P b ∨ adjE out a b) x y) ∧
      ((Finset.range N).image (rootOf P2)).card + out.length
        = ((Finset.range N).image (rootOf P)).card := by
  induction es with
  | nil =>
      intro P R hwf hb
      refine ⟨P, R, [], rfl, hwf, fun x y h => h,
        (by intro e he; cases he), ?_, (by simp)⟩
      intro x y h
      exact Relation.ReflTransGen.single (Or.inl h)
  | cons e es ih =>
      obtain ⟨u, v, w⟩ := e
      intro P R hwf hb
      have hbu : u < N := (hb (u, v, w) (List.mem_cons_self _ _)).1
      have hbv : v < N := (hb (u, v, w) (List.mem_cons_self _ _)).2
      have hbtl : ∀ e ∈ es, e.1 < N ∧ e.2.1 < N :=
        fun e he => hb e (List.mem_cons_of_mem _ he)
      obtain ⟨ru, Pa, heqa, hroota, hwfa, hiffa⟩ := kfind_spec P R hwf u
      obtain ⟨rv, Pb, heqb, hrootb, hwfb, hiffb⟩ := kfind_spec Pa R hwfa v
      have hiffPb : ∀ y s, Rooted Pb y s ↔ Rooted P y s := by
        intro y s
        rw [hiffb y s, hiffa y s]
      have hrootOfPb : ∀ y, rootOf Pb y = rootOf P y :=
        rootOf_congr P Pb R R hwf hwfb hiffPb
      have hruP : rootOf P u = ru := rootOf_eq_of_Rooted P R hwf u ru hroota
      have hrvP : rootOf P v = rv := rootOf_eq_of_Rooted P R hwf v rv
        ((hiffa v rv).mp hrootb)
      by_cases hrr : ru = rv
      · -- skipped edge: roots agree already
        obtain ⟨P2, R2, out, heq2, hwf2, hmono, hproc, hexpl, hcard⟩ :=
          ih Pb R hwfb hbtl
        have hmono0 : ∀ x y, rootOf P x = rootOf P y →
            rootOf P2 x = rootOf P2 y := by
          intro x y h
          exact hmono x y (by rw [hrootOfPb, hrootOfPb]; exact h)
        refine ⟨P2, R2, out, ?_, hwf2, hmono0, ?_, ?_, ?_⟩
        · simp only [kruskalLoop, heqa, heqb, if_neg
            (show ¬ ru ≠ rv from fun hc => hc hrr)]
          exact heq2
        · intro e he
          rcases List.mem_cons.mp he with he | he
          · rw [he]
            exact hmono0 u v (by rw [hruP, hrvP, hrr])
          · exact hproc e he
        · intro x y h
          refine rtg_bind ?_ x y (hexpl x y h)
          intro a b hab
          rcases hab with hab | hab
          · exact Relation.ReflTransGen.single
              (Or.inl (by rw [← hrootOfPb a, ← hrootOfPb b]; exact hab))
          · exact Relation.ReflTransGen.single (Or.inr hab)
        · have himg : (Finset.range N).image (rootOf Pb)
              = (Finset.range N).image (rootOf P) := by
            apply Finset.image_congr
            intro a _
            exact hrootOfPb a
          rw [← himg]
          exact hcard
      · -- kept edge: union the two classes
        have hrootub : Rooted Pb u ru := (hiffPb u ru).mpr hroota
        have hrootvb : Rooted Pb v rv :=
          (hiffPb v rv).mpr ((hiffa v rv).mp hrootb)
        obtain ⟨Pc, Rc, r0, r1, hequ, hwfc, hne01, hor, hchar⟩ :=
          kunion_spec Pb R hwfb u v ru rv hrootub hrootvb hrr
        have hcharP : ∀ y s, Rooted Pc y s ↔
            ((Rooted P y r1 ∧ s = r0) ∨ (Rooted P y s ∧ s ≠ r1)) := by
          intro y s
          rw [hchar y s, hiffPb y r1, hiffPb y s]
        have hcollapse : ∀ y, rootOf Pc y =
            if rootOf P y = r1 then r0 else rootOf P y :=
          rootOf_link P Pc R Rc r0 r1 hwf hwfc hne01 hcharP
        obtain ⟨P2, R2, out, heq2, hwf2, hmono, hproc, hexpl, hcard⟩ :=
          ih Pc Rc hwfc hbtl
        have hmono0 : ∀ x y, rootOf P x = rootOf P y →
            rootOf P2 x = rootOf P2 y := by
          intro x y h
          exact hmono x y (by rw [hcollapse, hcollapse, h])
        have hr0r1uv : (r0 = rootOf P u ∧ r1 = rootOf P v) ∨
            (r0 = rootOf P v ∧ r1 = rootOf P u) := by
          rcases hor with ⟨h0, h1⟩ | ⟨h0, h1⟩
          · exact Or.inl ⟨by rw [hruP, h0], by rw [hrvP, h1]⟩
          · exact Or.inr ⟨by rw [hrvP, h0], by rw [hruP, h1]⟩
        have hcuv : rootOf Pc u = rootOf Pc v := by
          rw [hcollapse, hcollapse]
          rcases hr0r1uv with ⟨h0, h1⟩ | ⟨h0, h1⟩
          · have hu1 : rootOf P u ≠ r1 := by
              rw [hruP, h1, hrvP]
              exact hrr
            rw [if_neg hu1, if_pos h1.symm]
            exact h0.symm
          · have hv1 : rootOf P v ≠ r1 := by
              rw [hrvP, h1, hruP]
              exact fun hc => hrr hc.symm
            rw [if_pos h1.symm, if_neg hv1]
            exact h0
        refine ⟨P2, R2, (u, v, w) :: out, ?_, hwf2, hmono0, ?_, ?_, ?_⟩
        · simp only [kruskalLoop, heqa, heqb, if_pos hrr, hequ, heq2]
        · intro e he
          rcases List.mem_cons.mp he with he | he
          · rw [he]
            exact hmono u v hcuv
          · exact hproc e he
        · intro x y h
          refine rtg_bind ?_ x y (hexpl x y h)
          intro a b hab
          rcases hab with hab | hab
          · rw [hcollapse a, hcollapse b] at hab
            by_cases ha1 : rootOf P a = r1
            · by_cases hb1 : rootOf P b = r1
              · exact Relation.ReflTransGen.single
                  (Or.inl (by rw [ha1, hb1]))
              · -- a is in the swallowed class, b in the absorbing one
                rw [if_pos ha1, if_neg hb1] at hab
                rcases hr0r1uv with ⟨h0, h1⟩ | ⟨h0, h1⟩
                · -- r1 = root v, r0 = root u : a ~ v, edge (v,u), u ~ b
                  refine rtg_three a v u b (Or.inl (by rw [ha1, h1]))
                    (Or.inr ⟨w, Or.inr (List.mem_cons_self _ _)⟩)
                    (Or.inl (by rw [← hab, h0]))
                · -- r1 = root u, r0 = root v : a ~ u, edge (u,v), v ~ b
                  refine rtg_three a u v b (Or.inl (by rw [ha1, h1]))
                    (Or.inr ⟨w, Or.inl (List.mem_cons_self _ _)⟩)
                    (Or.inl (by rw [← hab, h0]))
            · by_cases hb1 : rootOf P b = r1
              · rw [if_neg ha1, if_pos hb1] at hab
                rcases hr0r1uv with ⟨h0, h1⟩ | ⟨h0, h1⟩
                · refine rtg_three a u v b (Or.inl (by rw [hab, h0]))
                    (Or.inr ⟨w, Or.inl (List.mem_cons_self _ _)⟩)
                    (Or.inl (by rw [← h1, hb1]))
                · refine rtg_three a v u b (Or.inl (by rw [hab, h0]))
                    (Or.inr ⟨w, Or.inr (List.mem_cons_self _ _)⟩)
                    (Or.inl (by rw [← h1, hb1]))
              · rw [if_neg ha1, if_neg hb1] at hab
                exact Relation.ReflTransGen.single (Or.inl hab)
          · obtain ⟨w', hw⟩ := hab
            exact Relation.ReflTransGen.single
              (Or.inr ⟨w', by rcases hw with hw | hw
                              · exact Or.inl (List.mem_cons_of_mem _ hw)
                              · exact Or.inr (List.mem_cons_of_mem _ hw)⟩)
        · have himg : (Finset.range N).image (rootOf Pc) =
              ((Finset.range N).image (rootOf P)).image
                (fun r => if r = r1 then r0 else r) := by
            rw [Finset.image_image]
            apply Finset.image_congr
            intro a _
            exact hcollapse a
          have h0mem : r0 ∈ (Finset.range N).image (rootOf P) := by
            rw [Finset.mem_image]
            rcases hr0r1uv with ⟨h0, _⟩ | ⟨h0, _⟩
            · exact ⟨u, Finset.mem_range.mpr hbu, h0.symm⟩
            · exact ⟨v, Finset.mem_range.mpr hbv, h0.symm⟩
          have h1mem : r1 ∈ (Finset.range N).image (rootOf P) := by
            rw [Finset.mem_image]
            rcases hr0r1uv with ⟨_, h1⟩ | ⟨_, h1⟩
            · exact ⟨v, Finset.mem_range.mpr hbv, h1.symm⟩
            · exact ⟨u, Finset.mem_range.mpr hbu, h1.symm⟩
          have hcPc : ((Finset.range N).image (rootOf Pc)).card =
              ((Finset.range N).image (rootOf P)).card - 1 := by
            rw [himg]
            exact collapse_card_eq _ r0 r1 h0mem h1mem hne01
          have hpos : 0 < ((Finset.range N).image (rootOf P)).card :=
            Finset.card_pos.mpr ⟨r1, h1mem⟩
          simp only [List.length_cons]
          omega

/-- Auxiliary union-find fold over an edge list (used only to count
connected components). -/
def buildUF {W : Type} : List (ℕ × ℕ × W) → List (ℕ × ℕ) × List (ℕ × ℕ)
  | [] => ([], [])
  | (u, v, _) :: E =>
      match buildUF E with
      | (P, R) => kunion P R u v

theorem WFk_nil : WFk [] [] := by
  refine ⟨List.nodup_nil, List.nodup_nil, ?_⟩
  intro x p h
  cases h

theorem rootOf_nil (x : ℕ) : rootOf [] x = x := rfl

theorem buildUF_spec {W : Type} (E : List (ℕ × ℕ × W)) :
    ∃ P R, buildUF E = (P, R) ∧ WFk P R ∧
      (∀ e ∈ E, rootOf P e.1 = rootOf P e.2.1) ∧
      ∀ N, N ≤ ((Finset.range N).image (rootOf P)).card + E.length := by
  induction E with
  | nil =>
      refine ⟨[], [], rfl, WFk_nil, (by intro e he; cases he), ?_⟩
      intro N
      have : (Finset.range N).image (rootOf []) = Finset.range N := by
        apply Finset.image_congr (g := id) (fun a _ => rootOf_nil a) |>.trans
        exact Finset.image_id
      rw [this, Finset.card_range]
      omega
  | cons e E ih =>
      obtain ⟨u, v, w⟩ := e
      obtain ⟨P, R, heq, hwf, hedges, hcard⟩ := ih
      have hru := rootOf_Rooted P R hwf u
      have hrv := rootOf_Rooted P R hwf v
      by_cases hrr : rootOf P u = rootOf P v
      · obtain ⟨P4, hequ, hwf4, hiff⟩ :=
          kunion_skip P R hwf u v (rootOf P u) hru (hrr ▸ hrv)
        have hroot4 : ∀ y, rootOf P4 y = rootOf P y :=
          rootOf_congr P P4 R R hwf hwf4 hiff
        refine ⟨P4, R, ?_, hwf4, ?_, ?_⟩
        · simp only [buildUF, heq, hequ]
        · intro e he
          rcases List.mem_cons.mp he with he | he
          · rw [he]
            simp only [hroot4]
            exact hrr
          · rw [hroot4, hroot4]
            exact hedges e he
        · intro N
          have himg : (Finset.range N).image (rootOf P4)
              = (Finset.range N).image (rootOf P) :=
            Finset.image_congr (fun a _ => hroot4 a)
          rw [himg]
          have := hcard N
          simp only [List.length_cons]
          omega
      · obtain ⟨P4, R4, r0, r1, hequ, hwf4, hne01, hor, hchar⟩ :=
          kunion_spec P R hwf u v (rootOf P u) (rootOf P v) hru hrv hrr
        have hcollapse : ∀ y, rootOf P4 y =
            if rootOf P y = r1 then r0 else rootOf P y :=
          rootOf_link P P4 R R4 r0 r1 hwf hwf4 hne01 hchar
        refine ⟨P4, R4, ?_, hwf4, ?_, ?_⟩
        · simp only [buildUF, heq, hequ]
        · intro e he
          rcases List.mem_cons.mp he with he | he
          · rw [he]
            simp only [hcollapse]
            rcases hor with ⟨h0, h1⟩ | ⟨h0, h1⟩
            · have hu1 : ¬ rootOf P u = r1 := by
                rw [h1]
                exact hrr
              rw [if_neg hu1, if_pos h1.symm]
              exact h0.symm
            · have hv1 : ¬ rootOf P v = r1 := by
                rw [h1]
                exact fun hc => hrr hc.symm
              rw [if_pos h1.symm, if_neg hv1]
              exact h0
          · have := hedges e he
            rw [hcollapse, hcollapse, this]
        · intro N
          have himg : (Finset.range N).image (rootOf P4) =
              ((Finset.range N).image (rootOf P)).image
                (fun r => if r = r1 then r0 else r) := by
            rw [Finset.image_image]
            apply Finset.image_congr
            intro a _
            exact hcollapse a
          have hge := collapse_card_ge ((Finset.range N).image (rootOf P))
            r0 r1
          have := hcard N
          rw [himg]
          simp only [List.length_cons]
          omega

/-- Connecting all of `range N` needs at least `N - 1` edges. -/
theorem spanning_count {W : Type} (E : List (ℕ × ℕ × W)) (N : ℕ)
    (hN : 1 ≤ N) (hconn : ∀ x y, x < N → y < N → connE E x y) :
    N - 1 ≤ E.length := by
  obtain ⟨P, R, heq, hwf, hedges, hcard⟩ := buildUF_spec E
  have hroots : ∀ x y, connE E x y → rootOf P x = rootOf P y := by
    intro x y h
    induction h with
    | refl => rfl
    | tail hab hbc ih =>
        obtain ⟨w', hw⟩ := hbc
        rcases hw with hw | hw
        · exact ih.trans (hedges _ hw)
        · exact ih.trans (hedges _ hw).symm
  have hsub : (Finset.range N).image (rootOf P) ⊆ {rootOf P 0} := by
    intro a ha
    rw [Finset.mem_image] at ha
    obtain ⟨b, hb, hba⟩ := ha
    rw [Finset.mem_singleton, ← hba]
    exact (hroots b 0 (hconn b 0 (Finset.mem_range.mp hb) (by omega))).symm
      ▸ rfl
  have hc1 : ((Finset.range N).image (rootOf P)).card ≤ 1 := by
    have := Finset.card_le_card hsub
    simpa using this
  have := hcard N
  omega

/-- If the endpoints of a removed edge stay connected, every connection
of the full list survives the removal. -/
theorem connE_reroute {W : Type} (s1 s2 : List (ℕ × ℕ × W)) (u v : ℕ)
    (w : W) (huv : connE (s1 ++ s2) u v) (x y : ℕ)
    (h : connE (s1 ++ (u, v, w) :: s2) x y) : connE (s1 ++ s2) x y := by
  refine rtg_bind ?_ x y h
  intro a b hab
  obtain ⟨w', hw⟩ := hab
  rcases hw with hw | hw
  · rcases List.mem_append.mp hw with hw | hw
    · exact Relation.ReflTransGen.single
        ⟨w', Or.inl (List.mem_append.mpr (Or.inl hw))⟩
    · rcases List.mem_cons.mp hw with hw | hw
      · have ha : a = u := congrArg Prod.fst hw
        have hb : b = v := congrArg (fun p => p.2.1) hw
        rw [ha, hb]
        exact huv
      · exact Relation.ReflTransGen.single
          ⟨w', Or.inl (List.mem_append.mpr (Or.inr hw))⟩
  · rcases List.mem_append.mp hw with hw | hw
    · exact Relation.ReflTransGen.single
        ⟨w', Or.inr (List.mem_append.mpr (Or.inl hw))⟩
    · rcases List.mem_cons.mp hw with hw | hw
      · have hb : b = u := congrArg Prod.fst hw
        have ha : a = v := congrArg (fun p => p.2.1) hw
        rw [ha, hb]
        exact connE_symm _ u v huv
      · exact Relation.ReflTransGen.single
          ⟨w', Or.inr (List.mem_append.mpr (Or.inr hw))⟩

/-- C6: on a graph whose `N ≥ 3` nodes `0, …, N-1` form a single cycle of
bidirectional equal-weight edges, `kruskal_mst` returns exactly `N - 1`
edges whose endpoint pairs connect all `N` nodes and contain no cycle
(every kept edge is a bridge): a spanning tree.  The hypothesis lets
`es` be any enumeration of the cycle's directed edge set, covering every
iteration order of the Python set (and every stable sort of the equal
weights) feeding the selection loop. -/
theorem kruskal_mst_cycle_spanning_tree {W : Type} (N : ℕ) (wt : W)
    (es : List (ℕ × ℕ × W)) (hN : 3 ≤ N)
    (horient : ∀ e ∈ es, e.2.2 = wt ∧ ∃ i, i < N ∧
      ((e.1 = i ∧ e.2.1 = (i + 1) % N) ∨ (e.2.1 = i ∧ e.1 = (i + 1) % N)))
    (hcover : ∀ i, i < N →
      (i, (i + 1) % N, wt) ∈ es ∨ ((i + 1) % N, i, wt) ∈ es) :
    (kruskalLoop [] [] es).2.2.length = N - 1 ∧
    (∀ x y, x < N → y < N → connE (kruskalLoop [] [] es).2.2 x y) ∧
    Acyclic (kruskalLoop [] [] es).2.2 := by
  have hb : ∀ e ∈ es, e.1 < N ∧ e.2.1 < N := by
    intro e he
    obtain ⟨-, i, hi, hc⟩ := horient e he
    have hmod : (i + 1) % N < N := Nat.mod_lt _ (by omega)
    rcases hc with ⟨h1, h2⟩ | ⟨h1, h2⟩
    · rw [h1, h2]
      exact ⟨hi, hmod⟩
    · rw [h1, h2]
      exact ⟨hmod, hi⟩
  obtain ⟨P2, R2, out, heq, hwf2, hmono, hproc, hexpl, hcard⟩ :=
    kruskalLoop_spec N es [] [] WFk_nil hb
  have hout : (kruskalLoop [] [] es).2.2 = out := by
    rw [heq]
  rw [hout]
  have hstep : ∀ k, k + 1 < N → rootOf P2 k = rootOf P2 (k + 1) := by
    intro k hk
    have hmodk : (k + 1) % N = k + 1 := Nat.mod_eq_of_lt hk
    rcases hcover k (by omega) with hc | hc
    · have := hproc (k, (k + 1) % N, wt) hc
      simpa [hmodk] using this
    · have := hproc ((k + 1) % N, k, wt) hc
      simp only [hmodk] at this
      exact this.symm
  have hzero : ∀ k, k < N → rootOf P2 0 = rootOf P2 k := by
    intro k
    induction k with
    | zero => intro _; rfl
    | succ k ih =>
        intro hk
        exact (ih (by omega)).trans (hstep k hk)
  have hallroots : ∀ x y, x < N → y < N → rootOf P2 x = rootOf P2 y := by
    intro x y hx hy
    exact (hzero x hx).symm.trans (hzero y hy)
  have hconnout : ∀ x y, rootOf P2 x = rootOf P2 y → connE out x y := by
    intro x y h
    refine rtg_eq_or x y (rtg_bind ?_ x y (hexpl x y h))
    intro a b hab
    rcases hab with hab | hab
    · refine Relation.ReflTransGen.single (Or.inl ?_)
      rw [rootOf_nil, rootOf_nil] at hab
      exact hab
    · exact Relation.ReflTransGen.single (Or.inr hab)
  have hspan : ∀ x y, x < N → y < N → connE out x y :=
    fun x y hx hy => hconnout x y (hallroots x y hx hy)
  have himg0 : (Finset.range N).image (rootOf []) = Finset.range N := by
    refine (Finset.image_congr (g := id) (fun a _ => rootOf_nil a)).trans
      Finset.image_id
  have himg2 : (Finset.range N).image (rootOf P2) = {rootOf P2 0} := by
    apply Finset.Subset.antisymm
    · intro a ha
      rw [Finset.mem_image] at ha
      obtain ⟨b, hbmem, hba⟩ := ha
      rw [Finset.mem_singleton, ← hba]
      exact (hzero b (Finset.mem_range.mp hbmem)).symm
    · intro a ha
      rw [Finset.mem_singleton] at ha
      rw [Finset.mem_image]
      exact ⟨0, Finset.mem_range.mpr (by omega), ha.symm⟩
  have hlen : out.length = N - 1 := by
    rw [himg0, himg2, Finset.card_singleton, Finset.card_range] at hcard
    omega
  refine ⟨hlen, hspan, ?_⟩
  intro s1 u v w s2 hsplit hconn2
  have hspan2 : ∀ x y, x < N → y < N → connE (s1 ++ s2) x y := by
    intro x y hx hy
    refine connE_reroute s1 s2 u v w hconn2 x y ?_
    rw [← hsplit]
    exact hspan x y hx hy
  have hlen2 := spanning_count (s1 ++ s2) N (by omega) hspan2
  have hlen3 : out.length = s1.length + s2.length + 1 := by
    rw [hsplit]
    simp only [List.length_append, List.length_cons]
    omega
  rw [List.length_append] at hlen2
  omega

/-- Concrete 4-cycle example: both orientations of each of the four
equal-weight edges, in one particular order. -/
def kruskalCycleEx : List (ℕ × ℕ × ℕ) :=
  [(0, 1, 1), (1, 0, 1), (1, 2, 1), (2, 1, 1), (2, 3, 1), (3, 2, 1),
    (3, 0, 1), (0, 3, 1)]

theorem kruskal_mst_cycle_spanning_tree_witness :
    (3 ≤ 4 ∧
      (∀ e ∈ kruskalCycleEx, e.2.2 = 1 ∧ ∃ i, i < 4 ∧
        ((e.1 = i ∧ e.2.1 = (i + 1) % 4) ∨
          (e.2.1 = i ∧ e.1 = (i + 1) % 4))) ∧
      (∀ i, i < 4 →
        (i, (i + 1) % 4, 1) ∈ kruskalCycleEx ∨
          ((i + 1) % 4, i, 1) ∈ kruskalCycleEx)) ∧
    ((kruskalLoop [] [] kruskalCycleEx).2.2.length = 4 - 1 ∧
      (∀ x y, x < 4 → y < 4 →
        connE (kruskalLoop [] [] kruskalCycleEx).2.2 x y) ∧
      Acyclic (kruskalLoop [] [] kruskalCycleEx).2.2) :=
  ⟨⟨by decide, by decide, by decide⟩,
    kruskal_mst_cycle_spanning_tree 4 1 kruskalCycleEx (by decide)
      (by decide) (by decide)⟩

/- ### `topological_sort` (`graphs.py`, lines 169-201)

DFS with three colors: `temp_marked` (in progress), `visited` (done) and
`order` (finish order, reversed at the end).  The recursive `visit` is
embedded with fuel; `none` means the fuel ran out (we prove a canonical
fuel never does).  The outer loop runs over `graph.nodes()`, a Python
set with unspecified iteration order, so the claim is proved for every
enumeration `ns` of the node set. -/

/-- `graph.adj_list.get(node, [])`. -/
def adjOf (g : Graph) (n : ℕ) : List ℕ := (dictLookup g.adj_list n).getD []

/-- The directed-edge relation of the graph. -/
def gEdge (g : Graph) (a b : ℕ) : Prop := b ∈ adjOf g a

/-- The mutable state of `topological_sort`: `temp_marked` (as a stack,
most recent first), `visited`, and `order` in append order. -/
structure TSState where
  temp : List ℕ
  visited : List ℕ
  order : List ℕ
  deriving DecidableEq, Repr

mutual

/-- The inner `visit(node)`: raise on a `temp_marked` hit, skip `visited`
nodes, otherwise mark, recurse into the neighbors, unmark, and append to
`visited`/`order`. -/
def visit (g : Graph) : ℕ → ℕ → TSState → Option (Except Unit TSState)
  | 0, _, _ => none
  | fuel + 1, node, st =>
      if node ∈ st.temp then some (.error ())
      else if node ∈ st.visited then some (.ok st)
      else
        match visitList g fuel (adjOf g node)
          { st with temp := node :: st.temp } with
        | none => none
        | some (.error e) => some (.error e)
        | some (.ok st2) =>
            some (.ok { temp := st2.temp.erase node,
                        visited := node :: st2.visited,
                        order := st2.order ++ [node] })

/-- The `for v in graph.adj_list.get(node, []): visit(v)` loop. -/
def visitList (g : Graph) : ℕ → List ℕ → TSState → Option (Except Unit TSState)
  | _, [], st => some (.ok st)
  | 0, _ :: _, _ => none
  | fuel + 1, v :: vs, st =>
      match visit g fuel v st with
      | none => none
      | some (.error e) => some (.error e)
      | some (.ok st2) => visitList g fuel vs st2

end

/-- The outer `for node in graph.nodes(): if node not in visited:
visit(node)` loop, over an arbitrary enumeration `ns` of the node set. -/
def topoRun (g : Graph) (fuel : ℕ) : List ℕ → TSState →
    Option (Except Unit TSState)
  | [], st => some (.ok st)
  | n :: ns, st =>
      if n ∈ st.visited then topoRun g fuel ns st
      else
        match visit g fuel n st with
        | none => none
        | some (.error e) => some (.error e)
        | some (.ok st2) => topoRun g fuel ns st2

/-- Fuel bound: one unit per dictionary entry plus its neighbor count,
restricted to nodes not yet in `temp_marked`. -/
def tempSum (g : Graph) (temp : List ℕ) : ℕ :=
  (g.adj_list.map
    (fun p => if p.1 ∈ temp then 0 else 1 + p.2.length)).sum

/-- `topological_sort(graph)` over the node enumeration `ns`, at the
canonical (sufficient) fuel; `order[::-1]` is the final reverse. -/
def topological_sort (g : Graph) (ns : List ℕ) :
    Option (Except Unit (List ℕ)) :=
  match topoRun g (tempSum g [] + 2) ns ⟨[], [], []⟩ with
  | none => none
  | some (.error e) => some (.error e)
  | some (.ok st) => some (.ok st.order.reverse)

/-- Invariant of success states: `visited` and `order` hold the same
nodes, `order` is duplicate-free, and every node of `order` has all its
successors strictly earlier in `order`. -/
def TSInv (g : Graph) (st : TSState) : Prop :=
  (∀ x, x ∈ st.visited ↔ x ∈ st.order) ∧
  st.order.Nodup ∧
  (∀ l1 m l2, st.order = l1 ++ m :: l2 → ∀ v, v ∈ adjOf g m → v ∈ l1)

theorem dictLookup_mem {κ ν : Type} [DecidableEq κ] (d : List (κ × ν))
    (k : κ) (v : ν) (h : dictLookup d k = some v) : (k, v) ∈ d := by
  induction d with
  | nil => cases h
  | cons hd tl ih =>
      rw [dictLookup] at h
      by_cases hk : hd.1 = k
      · rw [if_pos hk] at h
        have hv : hd.2 = v := Option.some.inj h
        rw [List.mem_cons]
        left
        rw [← hk, ← hv]
      · rw [if_neg hk] at h
        exact List.mem_cons_of_mem _ (ih h)

theorem adj_mem_nodes (g : Graph) (m v : ℕ) (h : v ∈ adjOf g m) :
    v ∈ g.nodes := by
  rw [adjOf] at h
  cases hl : dictLookup g.adj_list m with
  | none => rw [hl] at h; cases h
  | some l =>
      rw [hl] at h
      rw [mem_nodes_iff]
      exact ⟨(m, l), dictLookup_mem _ _ _ hl, Or.inr h⟩

theorem edge_src_mem_nodes (g : Graph) (a b : ℕ) (h : gEdge g a b) :
    a ∈ g.nodes := by
  rw [gEdge, adjOf] at h
  cases hl : dictLookup g.adj_list a with
  | none => rw [hl] at h; cases h
  | some l =>
      rw [mem_nodes_iff]
      exact ⟨(a, l), dictLookup_mem _ _ _ hl, Or.inl rfl⟩

/-- Partial correctness of `visit`/`visitList` on the success path:
`temp_marked` is restored, `visited` only grows, every addition is a
fresh non-`temp` node of the graph (or the visited argument itself), the
argument ends visited, and the invariant is preserved. -/
theorem visit_ok_spec (g : Graph) : ∀ fuel,
    (∀ n st st2, visit g fuel n st = some (.ok st2) →
      st2.temp = st.temp ∧
      (∀ x, x ∈ st.visited → x ∈ st2.visited) ∧
      (∀ x, x ∈ st2.visited → x ∈ st.visited ∨
        (x ∉ st.temp ∧ (x = n ∨ x ∈ g.nodes))) ∧
      n ∈ st2.visited ∧
      (TSInv g st → TSInv g st2)) ∧
    (∀ vs st st2, visitList g fuel vs st = some (.ok st2) →
      st2.temp = st.temp ∧
      (∀ x, x ∈ st.visited → x ∈ st2.visited) ∧
      (∀ x, x ∈ st2.visited → x ∈ st.visited ∨
        (x ∉ st.temp ∧ (x ∈ vs ∨ x ∈ g.nodes))) ∧
      (∀ v, v ∈ vs → v ∈ st2.visited) ∧
      (TSInv g st → TSInv g st2)) := by
  intro fuel
  induction fuel with
  | zero =>
      constructor
      · intro n st st2 h
        cases h
      · intro vs st st2 h
        cases vs with
        | nil =>
            rw [visitList] at h
            have hst : st = st2 := by
              have := Option.some.inj h
              exact Except.ok.inj this
            rw [← hst]
            exact ⟨rfl, fun x hx => hx, fun x hx => Or.inl hx,
              (by intro v hv; cases hv), fun hi => hi⟩
        | cons v vs => cases h
  | succ fuel ih =>
      constructor
      · -- visit
        intro n st st2 h
        rw [visit] at h
        by_cases ht : n ∈ st.temp
        · rw [if_pos ht] at h
          simp at h
        · rw [if_neg ht] at h
          by_cases hv : n ∈ st.visited
          · rw [if_pos hv] at h
            have hst : st = st2 := Except.ok.inj (Option.some.inj h)
            rw [← hst]
            exact ⟨rfl, fun x hx => hx, fun x hx => Or.inl hx, hv,
              fun hi => hi⟩
          · rw [if_neg hv] at h
            cases hrec : visitList g fuel (adjOf g n)
                { st with temp := n :: st.temp } with
            | none => rw [hrec] at h; cases h
            | some r =>
                rw [hrec] at h
                cases r with
                | error e => simp at h
                | ok st3 =>
                    have hst2 : st2 =
                        (⟨st3.temp.erase n, n :: st3.visited,
                          st3.order ++ [n]⟩ : TSState) :=
                      (Except.ok.inj (Option.some.inj h)).symm
                    obtain ⟨htemp3, hmono3, hadd3, hall3, hinv3⟩ :=
                      ih.2 (adjOf g n) { st with temp := n :: st.temp }
                        st3 hrec
                    have htemp3' : st3.temp = n :: st.temp := htemp3
                    have hvis3 : n ∉ st3.visited := by
                      intro hc
                      rcases hadd3 n hc with hc2 | hc2
                      · exact hv hc2
                      · exact hc2.1 (List.mem_cons_self _ _)
                    refine ⟨?_, ?_, ?_, ?_, ?_⟩
                    · rw [hst2]
                      show st3.temp.erase n = st.temp
                      rw [htemp3']
                      exact List.erase_cons_head n st.temp
                    · intro x hx
                      rw [hst2]
                      exact List.mem_cons_of_mem _ (hmono3 x hx)
                    · intro x hx
                      rw [hst2] at hx
                      rcases List.mem_cons.mp hx with hx | hx
                      · exact Or.inr ⟨(by rw [hx]; exact ht), Or.inl hx⟩
                      · rcases hadd3 x hx with h2 | h2
                        · exact Or.inl h2
                        · refine Or.inr ⟨?_, ?_⟩
                          · intro hc
                            exact h2.1 (List.mem_cons_of_mem _ hc)
                          · rcases h2.2 with h3 | h3
                            · exact Or.inr (adj_mem_nodes g n x h3)
                            · exact Or.inr h3
                    · rw [hst2]
                      exact List.mem_cons_self _ _
                    · intro hinv
                      have hinv' : TSInv g { st with temp := n :: st.temp } :=
                        hinv
                      have hinv3' := hinv3 hinv'
                      obtain ⟨hvo, hnd, htb⟩ := hinv3'
                      have hnord : n ∉ st3.order := fun hc =>
                        hvis3 ((hvo n).mpr hc)
                      rw [hst2]
                      refine ⟨?_, ?_, ?_⟩
                      · intro x
                        show x ∈ n :: st3.visited ↔ x ∈ st3.order ++ [n]
                        rw [List.mem_cons, List.mem_append,
                          List.mem_singleton, hvo x]
                        tauto
                      · show (st3.order ++ [n]).Nodup
                        rw [← List.concat_eq_append]
                        exact List.Nodup.concat hnord hnd
                      · intro l1 m l2 hsplit v hvadj
                        show v ∈ l1
                        have hsplit' : st3.order ++ [n] = l1 ++ m :: l2 :=
                          hsplit
                        rcases List.eq_nil_or_concat l2 with h2 | ⟨L, b, h2⟩
                        · rw [h2] at hsplit'
                          have hlen : ([n] : List ℕ).length
                              = ([m] : List ℕ).length := rfl
                          obtain ⟨ho, hm⟩ :=
                            List.append_inj' hsplit' hlen
                          have hmn : m = n := by
                            have := List.cons.inj hm
                            exact this.1.symm
                          rw [← ho]
                          rw [(hvo v).symm]
                          apply hall3
                          rw [hmn] at hvadj
                          exact hvadj
                        · rw [h2] at hsplit'
                          have hre : st3.order ++ [n]
                              = (l1 ++ m :: L) ++ [b] := by
                            rw [hsplit']
                            simp
                          have hlen : ([n] : List ℕ).length
                              = ([b] : List ℕ).length := rfl
                          obtain ⟨ho, _⟩ := List.append_inj' hre hlen
                          exact htb l1 m L ho v hvadj
      · -- visitList
        intro vs st st2 h
        cases vs with
        | nil =>
            rw [visitList] at h
            have hst : st = st2 := Except.ok.inj (Option.some.inj h)
            rw [← hst]
            exact ⟨rfl, fun x hx => hx, fun x hx => Or.inl hx,
              (by intro v hv; cases hv), fun hi => hi⟩
        | cons v vs =>
            rw [visitList] at h
            cases hv : visit g fuel v st with
            | none => rw [hv] at h; cases h
            | some r =>
                rw [hv] at h
                cases r with
                | error e => simp at h
                | ok stm =>
                    obtain ⟨htempA, hmonoA, haddA, hargA, hinvA⟩ :=
                      ih.1 v st stm hv
                    obtain ⟨htempL, hmonoL, haddL, hallL, hinvL⟩ :=
                      ih.2 vs stm st2 h
                    refine ⟨htempL.trans htempA, ?_, ?_, ?_, ?_⟩
                    · intro x hx
                      exact hmonoL x (hmonoA x hx)
                    · intro x hx
                      rcases haddL x hx with h2 | h2
                      · rcases haddA x h2 with h3 | h3
                        · exact Or.inl h3
                        · refine Or.inr ⟨h3.1, ?_⟩
                          rcases h3.2 with h4 | h4
                          · exact Or.inl (by rw [h4]; exact
                              List.mem_cons_self _ _)
                          · exact Or.inr h4
                      · refine Or.inr ⟨(by rw [← htempA]; exact h2.1), ?_⟩
                        rcases h2.2 with h4 | h4
                        · exact Or.inl (List.mem_cons_of_mem _ h4)
                        · exact Or.inr h4
                    · intro w hw
                      rcases List.mem_cons.mp hw with hw | hw
                      · rw [hw]
                        exact hmonoL v hargA
                      · exact hallL w hw
                    · intro hinv
                      exact hinvL (hinvA hinv)

/-- The `temp_marked` stack read top-down follows graph edges upward:
each element has an edge to the one pushed after it. -/
def TempChain (g : Graph) : List ℕ → Prop
  | [] => True
  | [_] => True
  | t' :: t :: rest => gEdge g t t' ∧ TempChain g (t :: rest)

theorem temp_chain_path (g : Graph) :
    ∀ rest m, TempChain g (m :: rest) → ∀ x, x ∈ m :: rest →
      x = m ∨ Relation.TransGen (gEdge g) x m := by
  intro rest
  induction rest with
  | nil =>
      intro m _ x hx
      rcases List.mem_cons.mp hx with hx | hx
      · exact Or.inl hx
      · cases hx
  | cons t rest ih =>
      intro m hch x hx
      obtain ⟨hedge, hch2⟩ := hch
      rcases List.mem_cons.mp hx with hx | hx
      · exact Or.inl hx
      · rcases ih t hch2 x hx with hx2 | hx2
        · exact Or.inr (by rw [hx2]; exact Relation.TransGen.single hedge)
        · exact Or.inr (hx2.tail hedge)

/-- If `visit`/`visitList` raise the cycle error, the graph has a
directed cycle. -/
theorem visit_err_spec (g : Graph) : ∀ fuel,
    (∀ n st, visit g fuel n st = some (.error ()) →
      TempChain g st.temp →
      (st.temp = [] ∨ ∃ m rest, st.temp = m :: rest ∧ gEdge g m n) →
      ∃ c, Relation.TransGen (gEdge g) c c) ∧
    (∀ vs st, visitList g fuel vs st = some (.error ()) →
      TempChain g st.temp →
      (∀ v, v ∈ vs → ∃ m rest, st.temp = m :: rest ∧ gEdge g m v) →
      ∃ c, Relation.TransGen (gEdge g) c c) := by
  intro fuel
  induction fuel with
  | zero =>
      constructor
      · intro n st h
        cases h
      · intro vs st h
        cases vs with
        | nil =>
            rw [visitList] at h
            simp at h
        | cons v vs => cases h
  | succ fuel ih =>
      constructor
      · intro n st h hch hhd
        rw [visit] at h
        by_cases ht : n ∈ st.temp
        · -- back edge found: n is on the temp stack
          cases htemp : st.temp with
          | nil => rw [htemp] at ht; cases ht
          | cons m rest =>
              rcases hhd with hhd | ⟨m2, rest2, htemp2, hedge⟩
              · rw [hhd] at ht; cases ht
              · have hm2 : m2 = m := by
                  rw [htemp] at htemp2
                  exact (List.cons.inj htemp2).1.symm
                rw [hm2] at hedge
                rw [htemp] at ht hch
                rcases temp_chain_path g rest m hch n ht with hx | hx
                · rw [← hx] at hedge
                  exact ⟨n, Relation.TransGen.single hedge⟩
                · exact ⟨n, hx.tail hedge⟩
        · rw [if_neg ht] at h
          by_cases hv : n ∈ st.visited
          · rw [if_pos hv] at h
            simp at h
          · rw [if_neg hv] at h
            cases hrec : visitList g fuel (adjOf g n)
                { st with temp := n :: st.temp } with
            | none => rw [hrec] at h; simp at h
            | some r =>
                rw [hrec] at h
                cases r with
                | ok st3 => simp at h
                | error e =>
                    cases e
                    refine ih.2 (adjOf g n) { st with temp := n :: st.temp }
                      hrec ?_ ?_
                    · show TempChain g (n :: st.temp)
                      cases htemp : st.temp with
                      | nil => exact trivial
                      | cons m rest =>
                          rcases hhd with hhd | ⟨m2, rest2, htemp2, hedge⟩
                          · rw [hhd] at htemp; cases htemp
                          · have hm2 : m2 = m := by
                              rw [htemp] at htemp2
                              exact (List.cons.inj htemp2).1.symm
                            rw [htemp] at hch
                            exact ⟨by rw [← hm2]; exact hedge, hch⟩
                    · intro v hvadj
                      exact ⟨n, st.temp, rfl, hvadj⟩
      · intro vs st h hch hlist
        cases vs with
        | nil =>
            rw [visitList] at h
            simp at h
        | cons v vs =>
            rw [visitList] at h
            cases hv : visit g fuel v st with
            | none => rw [hv] at h; simp at h
            | some r =>
                rw [hv] at h
                cases r with
                | error e =>
                    cases e
                    exact ih.1 v st hv hch
                      (Or.inr (hlist v (List.mem_cons_self _ _)))
                | ok stm =>
                    have htemp : stm.temp = st.temp :=
                      ((visit_ok_spec g fuel).1 v st stm hv).1
                    refine ih.2 vs stm h ?_ ?_
                    · rw [htemp]
                      exact hch
                    · intro w hw
                      rw [htemp]
                      exact hlist w (List.mem_cons_of_mem _ hw)

theorem sumIf_mono (adj : List (ℕ × List ℕ)) (n : ℕ) (temp : List ℕ) :
    (adj.map (fun p => if p.1 ∈ n :: temp then 0 else 1 + p.2.length)).sum ≤
    (adj.map (fun p => if p.1 ∈ temp then 0 else 1 + p.2.length)).sum := by
  induction adj with
  | nil => simp
  | cons hd tl ih =>
      simp only [List.map_cons, List.sum_cons]
      have hterm : (if hd.1 ∈ n :: temp then 0 else 1 + hd.2.length) ≤
          (if hd.1 ∈ temp then 0 else 1 + hd.2.length) := by
        by_cases h : hd.1 ∈ temp
        · rw [if_pos h, if_pos (List.mem_cons_of_mem _ h)]
        · rw [if_neg h]
          by_cases h2 : hd.1 ∈ n :: temp
          · rw [if_pos h2]
            omega
          · rw [if_neg h2]
      omega

theorem sumIf_lookup (adj : List (ℕ × List ℕ)) (n : ℕ) (l : List ℕ)
    (temp : List ℕ) (hn : n ∉ temp) (hl : dictLookup adj n = some l) :
    (adj.map (fun p => if p.1 ∈ n :: temp then 0 else 1 + p.2.length)).sum
      + 1 + l.length ≤
    (adj.map (fun p => if p.1 ∈ temp then 0 else 1 + p.2.length)).sum := by
  induction adj with
  | nil => cases hl
  | cons hd tl ih =>
      rw [dictLookup] at hl
      simp only [List.map_cons, List.sum_cons]
      by_cases hk : hd.1 = n
      · rw [if_pos hk] at hl
        have hdl : hd.2 = l := Option.some.inj hl
        rw [if_pos (by rw [hk]; exact List.mem_cons_self _ _),
          if_neg (by rw [hk]; exact hn), hdl]
        have := sumIf_mono tl n temp
        omega
      · rw [if_neg hk] at hl
        have := ih hl
        by_cases h : hd.1 ∈ temp
        · rw [if_pos h, if_pos (List.mem_cons_of_mem _ h)]
          omega
        · rw [if_neg h, if_neg (by
            intro hc
            rcases List.mem_cons.mp hc with hc | hc
            · exact hk hc
            · exact h hc)]
          omega

theorem tempSum_mono (g : Graph) (n : ℕ) (temp : List ℕ) :
    tempSum g (n :: temp) ≤ tempSum g temp :=
  sumIf_mono g.adj_list n temp

theorem tempSum_lookup (g : Graph) (n : ℕ) (l : List ℕ) (temp : List ℕ)
    (hn : n ∉ temp) (hl : dictLookup g.adj_list n = some l) :
    tempSum g (n :: temp) + 1 + l.length ≤ tempSum g temp :=
  sumIf_lookup g.adj_list n l temp hn hl

/-- The canonical fuel is enough: `visit`/`visitList` cannot run out. -/
theorem visit_fuel_suff (g : Graph) : ∀ fuel,
    (∀ n st, tempSum g st.temp + 1 < fuel → visit g fuel n st ≠ none) ∧
    (∀ vs st, tempSum g st.temp + vs.length + 1 < fuel →
      visitList g fuel vs st ≠ none) := by
  intro fuel
  induction fuel with
  | zero =>
      constructor
      · intro n st h
        omega
      · intro vs st h
        omega
  | succ fuel ih =>
      constructor
      · intro n st hfuel
        rw [visit]
        by_cases ht : n ∈ st.temp
        · rw [if_pos ht]
          simp
        · rw [if_neg ht]
          by_cases hv : n ∈ st.visited
          · rw [if_pos hv]
            simp
          · rw [if_neg hv]
            cases hl : dictLookup g.adj_list n with
            | none =>
                have hadj : adjOf g n = [] := by
                  rw [adjOf, hl]
                  rfl
                rw [hadj]
                simp [visitList]
            | some l =>
                have hadjlen : (adjOf g n).length = l.length := by
                  rw [adjOf, hl]
                  rfl
                have hsum := tempSum_lookup g n l st.temp ht hl
                have hLne := ih.2 (adjOf g n) { st with temp := n :: st.temp }
                  (by
                    show tempSum g (n :: st.temp) + (adjOf g n).length + 1
                      < fuel
                    rw [hadjlen]
                    omega)
                cases hrec : visitList g fuel (adjOf g n)
                    { st with temp := n :: st.temp } with
                | none => exact absurd hrec hLne
                | some r =>
                    cases r with
                    | error e => simp
                    | ok st3 => simp
      · intro vs st hfuel
        cases vs with
        | nil =>
            rw [visitList]
            simp
        | cons v vs =>
            rw [visitList]
            have hAne := ih.1 v st (by
              simp only [List.length_cons] at hfuel
              omega)
            cases hres : visit g fuel v st with
            | none => exact absurd hres hAne
            | some r =>
                cases r with
                | error e => simp
                | ok stm =>
                    have htemp : stm.temp = st.temp :=
                      ((visit_ok_spec g fuel).1 v st stm hres).1
                    have hLne := ih.2 vs stm (by
                      rw [htemp]
                      simp only [List.length_cons] at hfuel
                      omega)
                    exact hLne

theorem topoRun_ok_spec (g : Graph) (fuel : ℕ) : ∀ ns st st2,
    topoRun g fuel ns st = some (.ok st2) →
      st2.temp = st.temp ∧
      (∀ x, x ∈ st.visited → x ∈ st2.visited) ∧
      (∀ x, x ∈ st2.visited → x ∈ st.visited ∨
        (x ∉ st.temp ∧ (x ∈ ns ∨ x ∈ g.nodes))) ∧
      (∀ n, n ∈ ns → n ∈ st2.visited) ∧
      (TSInv g st → TSInv g st2) := by
  intro ns
  induction ns with
  | nil =>
      intro st st2 h
      rw [topoRun] at h
      have hst : st = st2 := Except.ok.inj (Option.some.inj h)
      rw [← hst]
      exact ⟨rfl, fun x hx => hx, fun x hx => Or.inl hx,
        (by intro n hn; cases hn), fun hi => hi⟩
  | cons n ns ih =>
      intro st st2 h
      rw [topoRun] at h
      by_cases hv : n ∈ st.visited
      · rw [if_pos hv] at h
        obtain ⟨htemp, hmono, hadd, hall, hinv⟩ := ih st st2 h
        refine ⟨htemp, hmono, ?_, ?_, hinv⟩
        · intro x hx
          rcases hadd x hx with h2 | h2
          · exact Or.inl h2
          · exact Or.inr ⟨h2.1, by
              rcases h2.2 with h3 | h3
              · exact Or.inl (List.mem_cons_of_mem _ h3)
              · exact Or.inr h3⟩
        · intro m hm
          rcases List.mem_cons.mp hm with hm | hm
          · rw [hm]
            exact hmono n hv
          · exact hall m hm
      · rw [if_neg hv] at h
        cases hres : visit g fuel n st with
        | none => rw [hres] at h; simp at h
        | some r =>
            rw [hres] at h
            cases r with
            | error e => simp at h
            | ok stm =>
                obtain ⟨htempA, hmonoA, haddA, hargA, hinvA⟩ :=
                  (visit_ok_spec g fuel).1 n st stm hres
                obtain ⟨htemp, hmono, hadd, hall, hinv⟩ := ih stm st2 h
                refine ⟨htemp.trans htempA, ?_, ?_, ?_, ?_⟩
                · intro x hx
                  exact hmono x (hmonoA x hx)
                · intro x hx
                  rcases hadd x hx with h2 | h2
                  · rcases haddA x h2 with h3 | h3
                    · exact Or.inl h3
                    · refine Or.inr ⟨h3.1, ?_⟩
                      rcases h3.2 with h4 | h4
                      · exact Or.inl (by rw [h4]; exact
                          List.mem_cons_self _ _)
                      · exact Or.inr h4
                  · refine Or.inr ⟨(by rw [← htempA]; exact h2.1), ?_⟩
                    rcases h2.2 with h4 | h4
                    · exact Or.inl (List.mem_cons_of_mem _ h4)
                    · exact Or.inr h4
                · intro m hm
                  rcases List.mem_cons.mp hm with hm | hm
                  · rw [hm]
                    exact hmono n hargA
                  · exact hall m hm
                · intro hi
                  exact hinv (hinvA hi)

theorem topoRun_err (g : Graph) (fuel : ℕ) : ∀ ns st,
    topoRun g fuel ns st = some (.error ()) → st.temp = [] →
    ∃ c, Relation.TransGen (gEdge g) c c := by
  intro ns
  induction ns with
  | nil =>
      intro st h
      rw [topoRun] at h
      simp at h
  | cons n ns ih =>
      intro st h htemp
      rw [topoRun] at h
      by_cases hv : n ∈ st.visited
      · rw [if_pos hv] at h
        exact ih st h htemp
      · rw [if_neg hv] at h
        cases hres : visit g fuel n st with
        | none => rw [hres] at h; simp at h
        | some r =>
            rw [hres] at h
            cases r with
            | error e =>
                cases e
                refine (visit_err_spec g fuel).1 n st hres ?_ (Or.inl htemp)
                rw [htemp]
                exact trivial
            | ok stm =>
                have htempA : stm.temp = st.temp :=
                  ((visit_ok_spec g fuel).1 n st stm hres).1
                exact ih stm h (htempA.trans htemp)

theorem topoRun_suff (g : Graph) (fuel : ℕ)
    (hfuel : tempSum g [] + 1 < fuel) : ∀ ns st, st.temp = [] →
    topoRun g fuel ns st ≠ none := by
  intro ns
  induction ns with
  | nil =>
      intro st _
      rw [topoRun]
      simp
  | cons n ns ih =>
      intro st htemp
      rw [topoRun]
      by_cases hv : n ∈ st.visited
      · rw [if_pos hv]
        exact ih st htemp
      · rw [if_neg hv]
        have hAne := (visit_fuel_suff g fuel).1 n st (by rw [htemp]; omega)
        cases hres : visit g fuel n st with
        | none => exact absurd hres hAne
        | some r =>
            cases r with
            | error e => simp
            | ok stm =>
                have htempA : stm.temp = st.temp :=
                  ((visit_ok_spec g fuel).1 n st stm hres).1
                exact ih stm (htempA.trans htemp)

/-- A duplicate-free list in which every element's successors appear
strictly earlier admits no directed cycle through its members. -/
theorem topo_no_cycle (g : Graph) (ord : List ℕ) (hnd : ord.Nodup)
    (htb : ∀ l1 m l2, ord = l1 ++ m :: l2 → ∀ v, v ∈ adjOf g m → v ∈ l1) :
    ∀ k l1 a l2, l1.length = k → ord = l1 ++ a :: l2 →
      ¬ Relation.TransGen (gEdge g) a a := by
  intro k
  induction k using Nat.strong_induction_on with
  | _ k ih =>
      intro l1 a l2 hlen hsplit hcyc
      obtain ⟨c, hac, hca⟩ := Relation.TransGen.head'_iff.mp hcyc
      have hc1 : c ∈ l1 := htb l1 a l2 hsplit c hac
      obtain ⟨s, t, hst⟩ := List.append_of_mem hc1
      have hsplit2 : ord = s ++ c :: (t ++ a :: l2) := by
        rw [hsplit, hst]
        simp
      have hcyc2 : Relation.TransGen (gEdge g) c c :=
        Relation.TransGen.tail' hca hac
      have hslen : s.length < k := by
        rw [← hlen, hst]
        simp only [List.length_append, List.length_cons]
        omega
      exact ih s.length hslen s c (t ++ a :: l2) rfl hsplit2 hcyc2

/-- C7: `topological_sort` raises exactly on the graphs with a directed
cycle (a self-loop included), and on acyclic graphs returns a list with
each node of the graph exactly once in which the source of every edge
appears before its target.  `ns` is an arbitrary enumeration of the
Python node set `graph.nodes()`, whose iteration order is unspecified. -/
theorem topological_sort_spec (g : Graph) (ns : List ℕ)
    (hns1 : ∀ x, x ∈ ns → x ∈ g.nodes)
    (hns2 : ∀ x, x ∈ g.nodes → x ∈ ns) :
    ((∃ n, Relation.TransGen (gEdge g) n n) →
      topological_sort g ns = some (.error ())) ∧
    ((¬ ∃ n, Relation.TransGen (gEdge g) n n) →
      ∃ out, topological_sort g ns = some (.ok out) ∧
        (∀ x, x ∈ out ↔ x ∈ g.nodes) ∧ out.Nodup ∧
        (∀ l1 m l2, out = l1 ++ m :: l2 → ∀ v, v ∈ adjOf g m →
          v ∈ l2)) := by
  have hne := topoRun_suff g (tempSum g [] + 2) (by omega) ns
    ⟨[], [], []⟩ rfl
  cases hres : topoRun g (tempSum g [] + 2) ns ⟨[], [], []⟩ with
  | none => exact absurd hres hne
  | some r =>
      cases r with
      | error e =>
          cases e
          have hcyc := topoRun_err g _ ns ⟨[], [], []⟩ hres rfl
          constructor
          · intro _
            simp only [topological_sort, hres]
          · intro hnc
            exact absurd hcyc hnc
      | ok st2 =>
          obtain ⟨htemp, hmono, hadd, hall, hinv⟩ :=
            topoRun_ok_spec g _ ns ⟨[], [], []⟩ st2 hres
          have hinv0 : TSInv g (⟨[], [], []⟩ : TSState) := by
            refine ⟨by simp, List.nodup_nil, ?_⟩
            intro l1 m l2 h
            cases l1 with
            | nil => cases h
            | cons a l1 => cases h
          obtain ⟨hvo, hnd, htb⟩ := hinv hinv0
          have hmemall : ∀ x, x ∈ st2.visited ↔ x ∈ g.nodes := by
            intro x
            constructor
            · intro hx
              rcases hadd x hx with h | h
              · cases h
              · rcases h.2 with h2 | h2
                · exact hns1 x h2
                · exact h2
            · intro hx
              exact hall x (hns2 x hx)
          have hnocyc : ¬ ∃ n, Relation.TransGen (gEdge g) n n := by
            rintro ⟨n, hcyc⟩
            have hnmem : n ∈ g.nodes := by
              obtain ⟨c, hc, -⟩ := Relation.TransGen.head'_iff.mp hcyc
              exact edge_src_mem_nodes g n c hc
            have hnord : n ∈ st2.order := (hvo n).mp ((hmemall n).mpr hnmem)
            obtain ⟨l1, l2, hsplit⟩ := List.append_of_mem hnord
            exact topo_no_cycle g st2.order hnd htb l1.length l1 n l2 rfl
              hsplit hcyc
          constructor
          · intro hcyc
            exact absurd hcyc hnocyc
          · intro _
            refine ⟨st2.order.reverse, ?_, ?_, ?_, ?_⟩
            · simp only [topological_sort, hres]
            · intro x
              rw [List.mem_reverse, ← hvo x]
              exact hmemall x
            · exact List.nodup_reverse.mpr hnd
            · intro l1 m l2 hsplit v hv
              have hrev := congrArg List.reverse hsplit
              rw [List.reverse_reverse] at hrev
              have hsplit2 : st2.order = l2.reverse ++ m :: l1.reverse := by
                rw [hrev]
                simp
              have := htb l2.reverse m l1.reverse hsplit2 v hv
              exact List.mem_reverse.mp this

/-- Concrete acyclic graph for the witness: edges `1 → 2`, `2 → 3`
(directed), nodes enumerated as `[1, 2, 3]`. -/
def topoEx : Graph := ⟨[(1, [2]), (2, [3])], []⟩

theorem topological_sort_spec_witness :
    ((∀ x, x ∈ [1, 2, 3] → x ∈ topoEx.nodes) ∧
      (∀ x, x ∈ topoEx.nodes → x ∈ [1, 2, 3])) ∧
    (((∃ n, Relation.TransGen (gEdge topoEx) n n) →
      topological_sort topoEx [1, 2, 3] = some (.error ())) ∧
    ((¬ ∃ n, Relation.TransGen (gEdge topoEx) n n) →
      ∃ out, topological_sort topoEx [1, 2, 3] = some (.ok out) ∧
        (∀ x, x ∈ out ↔ x ∈ topoEx.nodes) ∧ out.Nodup ∧
        (∀ l1 m l2, out = l1 ++ m :: l2 → ∀ v, v ∈ adjOf topoEx m →
          v ∈ l2))) :=
  ⟨⟨by decide, by decide⟩,
    topological_sort_spec topoEx [1, 2, 3] (by decide) (by decide)⟩

theorem unionFind_union_find_invariant_witness :
    (∀ op ∈ [UFOp.union 1 2, UFOp.find 3, UFOp.union 2 4],
      avoidsB 7 op = true) ∧
    (((runOps ([UFOp.union 1 2, UFOp.find 3, UFOp.union 2 4] ++
        [UFOp.union 4 5])).find 4).1 =
      ((((runOps ([UFOp.union 1 2, UFOp.find 3, UFOp.union 2 4] ++
        [UFOp.union 4 5])).find 4).2).find 5).1 ∧
      ((runOps [UFOp.union 1 2, UFOp.find 3, UFOp.union 2 4]).find 7).1 = 7) :=
  ⟨by decide,
    unionFind_union_find_invariant [UFOp.union 1 2, UFOp.find 3,
      UFOp.union 2 4] 4 5 7 (by decide)⟩

end Toolbox
